import Mathlib

/-!
TINY compiler front end: scanner and recursive-descent parser

A shallow embedding of `SCAN.C` and `PARSE.C` (with the types of `GLOBALS.H`),
followed by theorems about the scanner's tokens and the parser's trees.

Conventions of the embedding.

* The character source is the text of the file with a cursor.  The line buffer
  of `getNextChar` (`lineBuf`, `linepos`, `bufsize`, refilled by `fgets`) is a
  window on that text which is transparent to the sequence of characters the
  scanner sees, so the cursor is kept as a pair of lists: the characters already
  read (most recent first) and the characters still to come.  `linepos++` moves
  one character from the second list to the first, `linepos--` moves it back.
* `int c` with `EOF` is an `Option Char`, `none` being `EOF`.  The source is ASCII text, so
  no character of it is mistaken for `EOF`.
* `lineno` and all output to `listing` are diagnostic only and are left out.
* `MAXTOKENLEN` is defined in `scan.h`, which is not among the sources; every
  scanner function takes it as its first argument.
* `while` loops whose termination is not structural take a fuel argument and
  return `none` when it runs out.
-/

namespace Tiny

/-! ## GLOBALS.H -/

/-- The token kinds, in the order of the C enumeration (so `ENDFILE` is 0 and `ERROR` is 1). -/
inductive TokenType
  | ENDFILE | ERROR | CLOST
  | IF | THEN | ELSE | END | REPEAT | UNTIL | READ | WRITE | OR | AND | INT | BOOL | CHAR
  | WHILE | DO
  | ID | NUM | STR
  | ASSIGN | EQ | LT | PLUS | MINUS | TIMES | OVER | LPAREN | RPAREN | SEMI | LESSEQ
  | LARGEREQ | LARGERT | COMMA | APOSTROPHE
  deriving DecidableEq, Repr

inductive NodeKind
  | StmtK | ExpK | Definek
  deriving DecidableEq, Repr

inductive StmtKind
  | tempK | StartK | WhileK | DeclaK | TypespeK | IfK | RepeatK | AssignK | ReadK | WriteK
  deriving DecidableEq, Repr

inductive ExpKind
  | OpK | ConstK | IdK | StringK | AsrthmeticK | LogicOpk
  deriving DecidableEq, Repr

inductive DefineKind
  | IntD | BoolD | CharD
  deriving DecidableEq, Repr

inductive ExpType
  | Void | Integer | Boolean | Char | String
  deriving DecidableEq, Repr

/-- The union `kind` of a tree node: which arm is meant follows `nodekind`. -/
inductive Kind
  | stmt (k : StmtKind)
  | exp (k : ExpKind)
  | define (k : DefineKind)
  deriving DecidableEq, Repr

/-- The union `attr` of a tree node; `unset` is the state of a fresh node, before any arm is
written. -/
inductive Attr
  | unset
  | op (tok : TokenType)
  | val (n : Int)
  | name (s : List Char)
  deriving DecidableEq, Repr

/-- A `TreeNode *`.  `null` is `NULL`, `node` is a pointer to a node with its three children and
its sibling, and `undef` is the value received from a function that returned without a value. -/
inductive Tree
  | null
  | undef
  | node (child0 child1 child2 sibling : Tree) (nodekind : NodeKind) (kind : Kind)
      (attr : Attr) (type : ExpType)
  deriving DecidableEq, Repr

/-! ## SCAN.C -/

/-- States of the scanner DFA. -/
inductive StateType
  | START | INASSIGN | INCOMMENT | INNUM | INID | INSTR | DONE | INCOMMA
  deriving DecidableEq, Repr

/-- The scanner's view of the source file: `consumed` holds the characters already handed out
(most recent first), `pending` the characters not yet read, and `EOF_flag` is the C variable of
that name. -/
structure Scanner where
  consumed : List Char
  pending : List Char
  EOF_flag : Bool
  deriving DecidableEq, Repr

/-- A scanner positioned at the start of a source text. -/
def Scanner.start (text : List Char) : Scanner :=
  { consumed := [], pending := text, EOF_flag := false }

/-- The next character of the source, or `EOF` (and then `EOF_flag` is set). -/
def getNextChar (s : Scanner) : Option Char × Scanner :=
  match s.pending with
  | c :: r => (some c, { s with consumed := c :: s.consumed, pending := r })
  | [] => (none, { s with EOF_flag := true })

/-- Back up one character, unless end of file has been seen. -/
def ungetNextChar (s : Scanner) : Scanner :=
  if s.EOF_flag then s
  else
    match s.consumed with
    | c :: b => { s with consumed := b, pending := c :: s.pending }
    | [] => s

/-- The table of reserved words. -/
def reservedWords : List (List Char × TokenType) :=
  [("if".toList, .IF), ("then".toList, .THEN), ("else".toList, .ELSE), ("end".toList, .END),
   ("repeat".toList, .REPEAT), ("until".toList, .UNTIL), ("read".toList, .READ),
   ("write".toList, .WRITE), ("or".toList, .OR), ("and".toList, .AND), ("int".toList, .INT),
   ("bool".toList, .BOOL), ("char".toList, .CHAR), ("while".toList, .WHILE), ("do".toList, .DO)]

/-- Linear search of a table of reserved words. -/
def lookupIn : List (List Char × TokenType) → List Char → TokenType
  | [], _ => .ID
  | (str, tok) :: rest, s => if s = str then tok else lookupIn rest s

/-- Look up an identifier to see whether it is a reserved word. -/
def reservedLookup (s : List Char) : TokenType :=
  lookupIn reservedWords s

/-- The `isdigit` of the C locale on an `int` that may be `EOF`. -/
def isdigit : Option Char → Bool
  | some c => c.isDigit
  | none => false

/-- The `isalpha` of the C locale on an `int` that may be `EOF`. -/
def isalpha : Option Char → Bool
  | some c => c.isAlpha
  | none => false

/-- The value of `(char) c`; for `EOF` (-1) that is the character with code 255. -/
def toChar : Option Char → Char
  | some c => c
  | none => Char.ofNat 255

/-- What one pass through the body of the `switch (state)` leaves behind. -/
structure Step where
  state : StateType
  save : Bool
  currentToken : TokenType
  scanner : Scanner
  deriving DecidableEq, Repr

/-- The `switch (c)` of the `START` state for a character that starts no longer token.  It runs
with `state = DONE` and `save = TRUE` already set; `<` and `>` read one more character. -/
def startSymbol (c : Option Char) (s : Scanner) : Step :=
  match c with
  | none => ⟨.DONE, false, .ENDFILE, s⟩
  | some '=' => ⟨.DONE, true, .EQ, s⟩
  | some '<' =>
    let (d, s1) := getNextChar s
    if d = some '=' then ⟨.DONE, true, .LESSEQ, s1⟩ else ⟨.DONE, true, .LT, s1⟩
  | some '>' =>
    let (d, s1) := getNextChar s
    if d = some '=' then ⟨.DONE, true, .LARGEREQ, s1⟩ else ⟨.DONE, true, .LARGERT, s1⟩
  | some '+' => ⟨.DONE, true, .PLUS, s⟩
  | some '-' => ⟨.DONE, true, .MINUS, s⟩
  | some '*' => ⟨.DONE, true, .TIMES, s⟩
  | some '/' => ⟨.DONE, true, .OVER, s⟩
  | some '(' => ⟨.DONE, true, .LPAREN, s⟩
  | some ')' => ⟨.DONE, true, .RPAREN, s⟩
  | some ';' => ⟨.DONE, true, .SEMI, s⟩
  | some ',' => ⟨.DONE, true, .COMMA, s⟩
  | some _ => ⟨.DONE, true, .ERROR, s⟩

/-- The body of the `switch (state)` in `getToken`, entered with `save = TRUE`, for the character
`c` just read; `cur` is the value `currentToken` had before. -/
def step (state : StateType) (cur : TokenType) (c : Option Char) (s : Scanner) : Step :=
  match state with
  | .START =>
    if isdigit c then ⟨.INNUM, true, cur, s⟩
    else if isalpha c then ⟨.INID, true, cur, s⟩
    else if c = some ':' then ⟨.INASSIGN, true, cur, s⟩
    else if c = some ' ' ∨ c = some '\t' ∨ c = some '\n' then ⟨.START, false, cur, s⟩
    else if c = some '{' then ⟨.INCOMMENT, false, cur, s⟩
    else if c = some '\'' then ⟨.INSTR, false, cur, s⟩
    else startSymbol c s
  | .INCOMMENT =>
    if c = none then ⟨.DONE, false, .ERROR, s⟩
    else if c = some '}' then ⟨.START, false, cur, s⟩
    else ⟨.INCOMMENT, false, cur, s⟩
  | .INSTR =>
    if c = none ∨ c = some ' ' ∨ c = some '\t' ∨ c = some '\n' then
      ⟨.DONE, false, .CLOST, ungetNextChar s⟩
    else if c = some '\'' then ⟨.DONE, false, .STR, s⟩
    else ⟨.INSTR, true, cur, s⟩
  | .INASSIGN =>
    if c = some '=' then ⟨.DONE, true, .ASSIGN, s⟩
    else ⟨.DONE, false, .ERROR, ungetNextChar s⟩
  | .INNUM =>
    if !isdigit c then ⟨.DONE, false, .NUM, ungetNextChar s⟩
    else ⟨.INNUM, true, cur, s⟩
  | .INID =>
    if !isalpha c && !isdigit c then ⟨.DONE, false, .ID, ungetNextChar s⟩
    else ⟨.INID, true, cur, s⟩
  | .DONE => ⟨.DONE, true, .ERROR, s⟩
  | .INCOMMA => ⟨.DONE, true, .ERROR, s⟩

/-- What `getToken` returns and leaves behind: the token, the characters written to `tokenString`
before its terminator (so the terminator is written at index `tokenString.length`), and the
scanner. -/
structure Scanned where
  token : TokenType
  tokenString : List Char
  scanner : Scanner
  deriving DecidableEq, Repr

/-- The `while (state != DONE)` loop of `getToken`.  `tokenString` holds the characters stored so
far, so `tokenStringIndex` is its length. -/
def getTokenLoop (MAXTOKENLEN : Nat) :
    Nat → StateType → TokenType → List Char → Scanner → Option Scanned
  | 0, _, _, _, _ => none
  | fuel + 1, state, cur, tokenString, s =>
    let (c, s1) := getNextChar s
    let b := step state cur c s1
    let tokenString1 :=
      if b.save ∧ tokenString.length ≤ MAXTOKENLEN then tokenString ++ [toChar c] else tokenString
    if b.state = .DONE then
      some ⟨if b.currentToken = .ID then reservedLookup tokenString1 else b.currentToken,
        tokenString1, b.scanner⟩
    else getTokenLoop MAXTOKENLEN fuel b.state b.currentToken tokenString1 b.scanner

/-- The next token of the source.  Every pass of the loop that does not finish the token reads
one character, so one more pass than there are characters left is enough.  `currentToken` is not
initialised in C and is never read before it is assigned; it starts as `ERROR` here. -/
def getToken (MAXTOKENLEN : Nat) (s : Scanner) : Option Scanned :=
  getTokenLoop MAXTOKENLEN (s.pending.length + 1) .START .ERROR [] s

/-! ## Tree nodes -/

/-- Modelled from the spec: `newStmtNode` of `util.c`, which is not among the sources.  A fresh
Statement node of the given subkind: the three child slots and the sibling link are empty, no
attribute is written, and allocation succeeds. -/
def newStmtNode (kind : StmtKind) : Tree :=
  .node .null .null .null .null .StmtK (.stmt kind) .unset .Void

/-- Modelled from the spec: `newExpNode` of `util.c`, which is not among the sources.  A fresh
Expression node of the given subkind, with empty children and sibling, no attribute, and type
`Void` until the parser or a later pass sets it. -/
def newExpNode (kind : ExpKind) : Tree :=
  .node .null .null .null .null .ExpK (.exp kind) .unset .Void

/-- Modelled from the spec: `newDefineNode` of `util.c`, which is not among the sources.  A fresh
Definition node of the given subkind, with empty children and sibling and no attribute. -/
def newDefineNode (kind : DefineKind) : Tree :=
  .node .null .null .null .null .Definek (.define kind) .unset .Void

/-- Modelled from the spec: `copyString` of `util.c`, which is not among the sources.  A fresh
copy of the lexeme, so the name stored in a node is the text `tokenString` held at that moment. -/
abbrev copyString (s : List Char) : List Char :=
  s

namespace Tree

/-- The test `t == NULL`. -/
def isNull : Tree → Bool
  | .null => true
  | _ => false

/-- The assignment `t->child[0] = c`. -/
def setChild0 (t : Tree) (c : Tree) : Tree :=
  match t with
  | .node _ c1 c2 sib nk k a ty => .node c c1 c2 sib nk k a ty
  | _ => t

/-- The assignment `t->child[1] = c`. -/
def setChild1 (t : Tree) (c : Tree) : Tree :=
  match t with
  | .node c0 _ c2 sib nk k a ty => .node c0 c c2 sib nk k a ty
  | _ => t

/-- The assignment `t->child[2] = c`. -/
def setChild2 (t : Tree) (c : Tree) : Tree :=
  match t with
  | .node c0 c1 _ sib nk k a ty => .node c0 c1 c sib nk k a ty
  | _ => t

/-- The assignment to one arm of `t->attr`. -/
def setAttr (t : Tree) (a : Attr) : Tree :=
  match t with
  | .node c0 c1 c2 sib nk k _ ty => .node c0 c1 c2 sib nk k a ty
  | _ => t

/-- The assignment `t->type = ty`. -/
def setType (t : Tree) (ty : ExpType) : Tree :=
  match t with
  | .node c0 c1 c2 sib nk k a _ => .node c0 c1 c2 sib nk k a ty
  | _ => t

/-- The field `t->type`. -/
def type : Tree → ExpType
  | .node _ _ _ _ _ _ _ ty => ty
  | _ => .Void

/-- The field `t->child[0]`. -/
def child0 : Tree → Tree
  | .node c0 _ _ _ _ _ _ _ => c0
  | _ => .null

/-- The field `t->child[1]`. -/
def child1 : Tree → Tree
  | .node _ c1 _ _ _ _ _ _ => c1
  | _ => .null

/-- The field `t->child[2]`. -/
def child2 : Tree → Tree
  | .node _ _ c2 _ _ _ _ _ => c2
  | _ => .null

/-- The field `t->sibling`. -/
def sibling : Tree → Tree
  | .node _ _ _ sib _ _ _ _ => sib
  | _ => .null

/-- The field `t->kind`. -/
def kind? : Tree → Option Kind
  | .node _ _ _ _ _ k _ _ => some k
  | _ => none

/-- The field `t->attr`. -/
def attr : Tree → Attr
  | .node _ _ _ _ _ _ a _ => a
  | _ => .unset

/-- The assignment `p->sibling = q` where `p` is the last node of the sibling chain that starts
at `t`.  The sequence loops keep `p` on the node they linked last, and every node they link is
fresh, so `p` is always that last node; `program` walks to it with an explicit loop. -/
def appendSibling : Tree → Tree → Tree
  | .node c0 c1 c2 .null nk k a ty, q => .node c0 c1 c2 q nk k a ty
  | .node c0 c1 c2 sib nk k a ty, q => .node c0 c1 c2 (appendSibling sib q) nk k a ty
  | t, _ => t

end Tree

/-- The step `if (q != NULL) { if (t == NULL) t = p = q; else { p->sibling = q; p = q; } }` of
the sequence loops, as the new value of `t`. -/
def link (t q : Tree) : Tree :=
  if q.isNull then t else if t.isNull then q else t.appendSibling q

/-! ## PARSE.C -/

/-- One token as the scanner delivers it: the value `getToken` returns and the contents it
leaves in `tokenString`. -/
structure Tok where
  kind : TokenType
  lexeme : List Char
  deriving DecidableEq, Repr

/-- The globals the parser works on: the current `token`, `tokenString` as the last call of
`getToken` left it, the tokens the scanner will deliver next, and the `Error` flag. -/
structure PState where
  token : TokenType
  tokenString : List Char
  rest : List Tok
  Error : Bool
  deriving DecidableEq, Repr

/-- The assignment `token = getToken()`.  After the last token of the source the scanner delivers
`ENDFILE` with an empty `tokenString`, again and again. -/
def PState.getToken (st : PState) : PState :=
  match st.rest with
  | tk :: r => { st with token := tk.kind, tokenString := tk.lexeme, rest := r }
  | [] => { st with token := .ENDFILE, tokenString := [] }

/-- Report a syntax error: the message goes to the listing, `Error` becomes `TRUE`. -/
def syntaxError (st : PState) : PState :=
  { st with Error := true }

/-- The function `match` of the parser: advance when the current token is the expected one,
report an error and stay otherwise. -/
def match_ (expected : TokenType) (st : PState) : PState :=
  if st.token = expected then st.getToken else syntaxError st

/-- The digits at the front of a string as a number, continuing from `acc`. -/
def atoiDigits : Nat → List Char → Nat
  | acc, c :: cs => if c.isDigit then atoiDigits (10 * acc + (c.toNat - '0'.toNat)) cs else acc
  | acc, [] => acc

/-- The `atoi` of the C library: leading white space, an optional sign, then digits.  Values
outside the range of `int` are undefined in C; the mathematical value is returned here. -/
def atoi (s : List Char) : Int :=
  match s.dropWhile Char.isWhitespace with
  | '-' :: r => -(atoiDigits 0 r : Int)
  | '+' :: r => (atoiDigits 0 r : Int)
  | r => (atoiDigits 0 r : Int)

/-- The parse of `type_specifier -> int | bool | char`. -/
def type_specifier (st : PState) : Tree × PState :=
  match st.token with
  | .INT =>
    (((newDefineNode .IntD).setAttr (.name "int".toList)).setType .Integer, match_ .INT st)
  | .CHAR =>
    (((newDefineNode .CharD).setAttr (.name "char".toList)).setType .Char, match_ .CHAR st)
  | .BOOL =>
    (((newDefineNode .BoolD).setAttr (.name "bool".toList)).setType .Boolean, match_ .BOOL st)
  | _ => (.null, (syntaxError st).getToken)

/-- The `while` loop of `varlist`. -/
def varlist_loop : Nat → Tree → PState → Option (Tree × PState)
  | 0, _, _ => none
  | fuel + 1, t, st =>
    if st.token ≠ .ENDFILE ∧ st.token ≠ .END ∧ st.token ≠ .ELSE ∧ st.token ≠ .UNTIL then
      let st1 := match_ .COMMA st
      let q := newExpNode .IdK
      let st2 := match_ .ID st1
      varlist_loop fuel (link t q) st2
    else some (t, st)

/-- The parse of `varlist -> identifier { , identifier }`.  The condition of the first `if` is
the assignment `token = ID`, whose value is non-zero, so the branch is always taken with `token`
overwritten. -/
def varlist (fuel : Nat) (t_type : ExpType) (st : PState) : Option (Tree × PState) :=
  let st0 := { st with token := .ID }
  let t := ((newExpNode .IdK).setAttr (.name (copyString st0.tokenString))).setType t_type
  let st1 := match_ .ID st0
  varlist_loop fuel t st1

/-- The parse of `decl -> type_specifier varlist`. -/
def decl (fuel : Nat) (st : PState) : Option (Tree × PState) :=
  match type_specifier st with
  | (t, st1) =>
    if t.isNull then some (t, st1)
    else
      match varlist fuel t.type st1 with
      | none => none
      | some (v, st2) => some (t.setChild0 v, st2)

/-- The `while` loop of `declarations`. -/
def declarations_loop : Nat → Tree → PState → Option (Tree × PState)
  | 0, _, _ => none
  | fuel + 1, t, st =>
    if st.token ≠ .ENDFILE ∧ st.token ≠ .END then
      match decl fuel st with
      | none => none
      | some (q, st1) =>
        if q.isNull then some (t, st1)
        else declarations_loop fuel (link t q) (match_ .SEMI st1)
    else some (t, st)

/-- The parse of `declarations -> decl ; { decl ; }`. -/
def declarations (fuel : Nat) (st : PState) : Option (Tree × PState) :=
  match decl fuel st with
  | none => none
  | some (t, st1) => declarations_loop fuel t (match_ .SEMI st1)

/-- The parse of `read_stmt -> read identifier`. -/
def read_stmt (st : PState) : Tree × PState :=
  let t := newStmtNode .ReadK
  let st1 := match_ .READ st
  let t1 := if st1.token = .ID then t.setAttr (.name (copyString st1.tokenString)) else t
  (t1, match_ .ID st1)

/-- The parse of `string_exp -> string`. -/
def string_exp (st : PState) : Tree × PState :=
  let t := newExpNode .StringK
  let t1 := if st.token = .STR then t.setAttr (.name (copyString st.tokenString)) else t
  (t1, match_ .STR st)

/-- Whether the current token is one of the comparison operators. -/
def isComparison (tok : TokenType) : Bool :=
  tok = .LT || tok = .LARGERT || tok = .EQ || tok = .LESSEQ || tok = .LARGEREQ

/-- Whether the current token ends a statement sequence. -/
def endsSequence (tok : TokenType) : Bool :=
  tok = .ENDFILE || tok = .END || tok = .ELSE || tok = .UNTIL

mutual

/-- The parse of `stmt_sequence -> statement { ; statement }`. -/
def stmt_sequence : Nat → PState → Option (Tree × PState)
  | 0, _ => none
  | fuel + 1, st =>
    match statement fuel st with
    | none => none
    | some (t, st1) => stmt_sequence_loop fuel t st1

/-- The `while` loop of `stmt_sequence`. -/
def stmt_sequence_loop : Nat → Tree → PState → Option (Tree × PState)
  | 0, _, _ => none
  | fuel + 1, t, st =>
    if endsSequence st.token then some (t, st)
    else
      match statement fuel (match_ .SEMI st) with
      | none => none
      | some (q, st1) => stmt_sequence_loop fuel (link t q) st1

/-- The parse of `statement`, by the current token. -/
def statement : Nat → PState → Option (Tree × PState)
  | 0, _ => none
  | fuel + 1, st =>
    match st.token with
    | .IF => if_stmt fuel st
    | .REPEAT => repeat_stmt fuel st
    | .ID => assign_stmt fuel st
    | .READ => some (read_stmt st)
    | .WRITE => write_stmt fuel st
    | .WHILE => while_stmt fuel st
    | _ => some (.null, (syntaxError st).getToken)

/-- The parse of `while_stmt -> while bool_exp do stmt_sequence end`.  The node is made with
`newStmtNode(IfK)`. -/
def while_stmt : Nat → PState → Option (Tree × PState)
  | 0, _ => none
  | fuel + 1, st =>
    let t := newStmtNode .IfK
    match bool_exp fuel (match_ .WHILE st) with
    | none => none
    | some (c, st1) =>
      match stmt_sequence fuel (match_ .DO st1) with
      | none => none
      | some (b, st2) => some ((t.setChild0 c).setChild1 b, match_ .END st2)

/-- The parse of `if_stmt -> if bool_exp then stmt_sequence [else stmt_sequence] end`. -/
def if_stmt : Nat → PState → Option (Tree × PState)
  | 0, _ => none
  | fuel + 1, st =>
    let t := newStmtNode .IfK
    match bool_exp fuel (match_ .IF st) with
    | none => none
    | some (c, st1) =>
      match stmt_sequence fuel (match_ .THEN st1) with
      | none => none
      | some (b, st2) =>
        if st2.token = .ELSE then
          match stmt_sequence fuel (match_ .ELSE st2) with
          | none => none
          | some (e, st3) =>
            some (((t.setChild0 c).setChild1 b).setChild2 e, match_ .END st3)
        else some ((t.setChild0 c).setChild1 b, match_ .END st2)

/-- The parse of `repeat_stmt -> repeat stmt_sequence until bool_exp`. -/
def repeat_stmt : Nat → PState → Option (Tree × PState)
  | 0, _ => none
  | fuel + 1, st =>
    let t := newStmtNode .RepeatK
    match stmt_sequence fuel (match_ .REPEAT st) with
    | none => none
    | some (b, st1) =>
      match bool_exp fuel (match_ .UNTIL st1) with
      | none => none
      | some (c, st2) => some ((t.setChild0 b).setChild1 c, st2)

/-- The parse of `assign_stmt -> identifier := exp`. -/
def assign_stmt : Nat → PState → Option (Tree × PState)
  | 0, _ => none
  | fuel + 1, st =>
    let t := newStmtNode .AssignK
    let t1 := if st.token = .ID then t.setAttr (.name (copyString st.tokenString)) else t
    match exp fuel (match_ .ASSIGN (match_ .ID st)) with
    | none => none
    | some (e, st1) => some (t1.setChild0 e, st1)

/-- The parse of `write_stmt -> write exp`. -/
def write_stmt : Nat → PState → Option (Tree × PState)
  | 0, _ => none
  | fuel + 1, st =>
    let t := newStmtNode .WriteK
    match exp fuel (match_ .WRITE st) with
    | none => none
    | some (e, st1) => some (t.setChild0 e, st1)

/-- The parse of `exp`.  The label `case PLUS||MINUS:` is the constant 1, which is the value of
`ERROR`.  The function builds its tree in `t` and then ends with `return;`, so what the caller
receives is not `t` but an indeterminate value. -/
def exp : Nat → PState → Option (Tree × PState)
  | 0, _ => none
  | fuel + 1, st =>
    let r :=
      match st.token with
      | .STR => some (string_exp st)
      | .ERROR => arithmetic_exp fuel st
      | _ => bool_exp fuel st
    match r with
    | none => none
    | some (_, st1) => some (.undef, st1)

/-- The parse of `arithmetic_exp -> term { addop term }`. -/
def arithmetic_exp : Nat → PState → Option (Tree × PState)
  | 0, _ => none
  | fuel + 1, st =>
    match term fuel st with
    | none => none
    | some (t, st1) => arithmetic_exp_loop fuel t st1

/-- The `while` loop of `arithmetic_exp`. -/
def arithmetic_exp_loop : Nat → Tree → PState → Option (Tree × PState)
  | 0, _, _ => none
  | fuel + 1, t, st =>
    if st.token = .PLUS ∨ st.token = .MINUS then
      let p := ((newExpNode .OpK).setChild0 t).setAttr (.op st.token)
      match term fuel (match_ st.token st) with
      | none => none
      | some (r, st1) => arithmetic_exp_loop fuel (p.setChild1 r) st1
    else some (t, st)

/-- The parse of `term -> factor { mulop factor }`. -/
def term : Nat → PState → Option (Tree × PState)
  | 0, _ => none
  | fuel + 1, st =>
    match factor fuel st with
    | none => none
    | some (t, st1) => term_loop fuel t st1

/-- The `while` loop of `term`. -/
def term_loop : Nat → Tree → PState → Option (Tree × PState)
  | 0, _, _ => none
  | fuel + 1, t, st =>
    if st.token = .TIMES ∨ st.token = .OVER then
      let p := ((newExpNode .OpK).setChild0 t).setAttr (.op st.token)
      match factor fuel (match_ st.token st) with
      | none => none
      | some (r, st1) => term_loop fuel (p.setChild1 r) st1
    else some (t, st)

/-- The parse of `factor -> ( exp ) | number | identifier`. -/
def factor : Nat → PState → Option (Tree × PState)
  | 0, _ => none
  | fuel + 1, st =>
    match st.token with
    | .NUM =>
      some (((newExpNode .ConstK).setAttr (.val (atoi st.tokenString))).setType .Integer,
        match_ .NUM st)
    | .ID => some ((newExpNode .IdK).setAttr (.name (copyString st.tokenString)), match_ .ID st)
    | .LPAREN =>
      match exp fuel (match_ .LPAREN st) with
      | none => none
      | some (t, st1) => some (t, match_ .RPAREN st1)
    | _ => some (.null, (syntaxError st).getToken)

/-- The parse of `bool_exp -> bterm { or bterm }`. -/
def bool_exp : Nat → PState → Option (Tree × PState)
  | 0, _ => none
  | fuel + 1, st =>
    match bterm fuel st with
    | none => none
    | some (t, st1) => bool_exp_loop fuel t st1

/-- The `while` loop of `bool_exp`. -/
def bool_exp_loop : Nat → Tree → PState → Option (Tree × PState)
  | 0, _, _ => none
  | fuel + 1, t, st =>
    if st.token = .OR then
      let p := ((newExpNode .LogicOpk).setChild0 t).setAttr (.op st.token)
      match bterm fuel (match_ st.token st) with
      | none => none
      | some (r, st1) => bool_exp_loop fuel (p.setChild1 r) st1
    else some (t, st)

/-- The parse of `bterm -> bfactor { and bfactor }`. -/
def bterm : Nat → PState → Option (Tree × PState)
  | 0, _ => none
  | fuel + 1, st =>
    match bfactor fuel st with
    | none => none
    | some (t, st1) => bterm_loop fuel t st1

/-- The `while` loop of `bterm`. -/
def bterm_loop : Nat → Tree → PState → Option (Tree × PState)
  | 0, _, _ => none
  | fuel + 1, t, st =>
    if st.token = .AND then
      let p := ((newExpNode .LogicOpk).setChild0 t).setAttr (.op st.token)
      match bfactor fuel (match_ st.token st) with
      | none => none
      | some (r, st1) => bterm_loop fuel (p.setChild1 r) st1
    else some (t, st)

/-- The parse of `bfactor -> comparison_exp`. -/
def bfactor : Nat → PState → Option (Tree × PState)
  | 0, _ => none
  | fuel + 1, st => comparison_exp fuel st

/-- The parse of `comparison_exp -> arithmetic_exp [ comparison_op arithmetic_exp ]`. -/
def comparison_exp : Nat → PState → Option (Tree × PState)
  | 0, _ => none
  | fuel + 1, st =>
    match arithmetic_exp fuel st with
    | none => none
    | some (t, st1) =>
      if isComparison st1.token then
        let p := ((newExpNode .OpK).setChild0 t).setAttr (.op st1.token)
        match arithmetic_exp fuel (match_ st1.token st1) with
        | none => none
        | some (r, st2) => some (p.setChild1 r, st2)
      else some (t, st1)

end

/-- How a call of `program` ends: it returns a tree, or it reads `t_tmp->sibling` through a null
`t_tmp`. -/
inductive Outcome
  | returned (t : Tree) (st : PState)
  | nullDeref (st : PState)
  deriving DecidableEq, Repr

/-- The parse of `program -> declarations stmt_sequence`.  The loop
`while (t_tmp->sibling != NULL)` reads through `t_tmp` before the test `t_tmp != NULL`. -/
def program (fuel : Nat) (st : PState) : Option Outcome :=
  match declarations fuel st with
  | none => none
  | some (t, st1) =>
    if t.isNull then some (.nullDeref st1)
    else
      match stmt_sequence fuel st1 with
      | none => none
      | some (s, st2) => some (.returned (t.appendSibling s) st2)

/-- The function `parse`: read the first token, parse a statement sequence, and report an error
when the sequence does not end at the end of the file. -/
def parse (fuel : Nat) (st : PState) : Option (Tree × PState) :=
  match stmt_sequence fuel st.getToken with
  | none => none
  | some (t, st1) => some (t, if st1.token ≠ .ENDFILE then syntaxError st1 else st1)

/-- The globals before `parse` is called on a source whose tokens are `toks`: `token` and
`tokenString` are zero-initialised statics and `Error` is `FALSE`. -/
def PState.initial (toks : List Tok) : PState :=
  { token := .ENDFILE, tokenString := [], rest := toks, Error := false }

/-- Shorthand for a token with its lexeme given as a string. -/
def tk (kind : TokenType) (lexeme : String) : Tok :=
  ⟨kind, lexeme.toList⟩

/-! ## Vocabulary of the statements about the scanner -/

/-- The contents of `tokenString` after the characters of `w` were offered to it one by one with
`save` set: a character is stored while `tokenStringIndex <= MAXTOKENLEN`. -/
def store (MAXTOKENLEN : Nat) : List Char → List Char → List Char
  | ts, [] => ts
  | ts, c :: w => store MAXTOKENLEN (if ts.length ≤ MAXTOKENLEN then ts ++ [c] else ts) w

/-- The end of an identifier: what follows is not a letter or digit (or is the end of the
file). -/
abbrev endsWord (r : List Char) : Prop :=
  isalpha r.head? = false ∧ isdigit r.head? = false

/-- The end of a number: what follows is not a digit (or is the end of the file). -/
abbrev endsNumber (r : List Char) : Prop :=
  isdigit r.head? = false

/-- A character that continues a string literal: not the quote and not one of the three
characters that break a string off. -/
abbrev inString (x : Char) : Prop :=
  x ≠ '\'' ∧ x ≠ ' ' ∧ x ≠ '\t' ∧ x ≠ '\n'

/-- What breaks a string literal off: a space, a tab, a newline, or the end of the file. -/
abbrev breaksString (r : List Char) : Prop :=
  r.head? = none ∨ r.head? = some ' ' ∨ r.head? = some '\t' ∨ r.head? = some '\n'

/-- The source form of a literal token with the given value: the digits of a number as they
are, the body of a string between two single quotes. -/
def sourceForm : TokenType → List Char → List Char
  | .STR, lexeme => '\'' :: lexeme ++ ['\'']
  | _, lexeme => lexeme

/-! ## Vocabulary of the statements about the parser -/

/-- The parser's globals when the tokens `toks` are what is left of the source, the first of
them being the current token (`ENDFILE` when none is left), with the error flag `err`. -/
def PState.of (toks : List Tok) (err : Bool) : PState :=
  PState.getToken { token := .ENDFILE, tokenString := [], rest := toks, Error := err }

/-- A number or identifier token. -/
abbrev isOperand (f : Tok) : Prop :=
  f.kind = .NUM ∨ f.kind = .ID

/-- The leaf for a number or identifier token: a constant with the value of the digits, or an
identifier with the lexeme as its name. -/
def leaf (f : Tok) : Tree :=
  match f.kind with
  | .NUM => .node .null .null .null .null .ExpK (.exp .ConstK) (.val (atoi f.lexeme)) .Integer
  | _ => .node .null .null .null .null .ExpK (.exp .IdK) (.name f.lexeme) .Void

/-- The operator node `Op(op, l, r)`: operator `op`, child 0 `l`, child 1 `r`. -/
def opNode (op : TokenType) (l r : Tree) : Tree :=
  .node l r .null .null .ExpK (.exp .OpK) (.op op) .Void

/-- The left fold of a list of (operator, operand) pairs onto a first tree. -/
def leftFold (t : Tree) (ops : List (Tok × Tok)) : Tree :=
  ops.foldl (fun acc p => opNode p.1.kind acc (leaf p.2)) t

/-- The token stream `op1 f1 ... opn fn` of a list of (operator, operand) pairs. -/
def opStream : List (Tok × Tok) → List Tok
  | [] => []
  | p :: ps => p.1 :: p.2 :: opStream ps

/-- The kind of the first token of a stream, `ENDFILE` for the empty stream. -/
def firstKind (toks : List Tok) : TokenType :=
  (PState.of toks false).token

/-- The measure of what is left to parse: two for every token the scanner has yet to deliver
and one for a current token that is not `ENDFILE`. -/
def PState.left (st : PState) : Nat :=
  2 * st.rest.length + (if st.token = .ENDFILE then 0 else 1)

/-- The tokens of `if a < b then write a else write b end`. -/
def ifExample : List Tok :=
  [tk .IF "if", tk .ID "a", tk .LT "<", tk .ID "b", tk .THEN "then", tk .WRITE "write",
   tk .ID "a", tk .ELSE "else", tk .WRITE "write", tk .ID "b", tk .END "end"]

/-- The tokens of `int x, y; write x`. -/
def declExample : List Tok :=
  [tk .INT "int", tk .ID "x", tk .COMMA ",", tk .ID "y", tk .SEMI ";", tk .WRITE "write",
   tk .ID "x"]

/-- The tokens that can start a statement. -/
abbrev startsStatement (tok : TokenType) : Prop :=
  tok = .IF ∨ tok = .REPEAT ∨ tok = .ID ∨ tok = .READ ∨ tok = .WRITE ∨ tok = .WHILE

/-- The outcome `r` of a production is a tree and a state that leaves at most `bound` to
parse. -/
def ReturnsWithin (r : Option (Tree × PState)) (bound : Nat) : Prop :=
  ∃ t st, r = some (t, st) ∧ st.left ≤ bound

/-- With fuel `fuel`, every production reachable from `parse` returns once the fuel covers
sixteen units for each unit that is left to parse plus the depth of the calls the production
makes before the next token is consumed, and it never leaves more to parse than it found. -/
structure Good (fuel : Nat) : Prop where
  factor_ret : ∀ st, 16 * st.left + 1 ≤ fuel → ReturnsWithin (factor fuel st) st.left
  term_loop_ret : ∀ t st, 16 * st.left + 1 ≤ fuel → ReturnsWithin (term_loop fuel t st) st.left
  term_ret : ∀ st, 16 * st.left + 2 ≤ fuel → ReturnsWithin (term fuel st) st.left
  arithmetic_exp_loop_ret : ∀ t st, 16 * st.left + 1 ≤ fuel →
    ReturnsWithin (arithmetic_exp_loop fuel t st) st.left
  arithmetic_exp_ret : ∀ st, 16 * st.left + 3 ≤ fuel →
    ReturnsWithin (arithmetic_exp fuel st) st.left
  comparison_exp_ret : ∀ st, 16 * st.left + 4 ≤ fuel →
    ReturnsWithin (comparison_exp fuel st) st.left
  bfactor_ret : ∀ st, 16 * st.left + 5 ≤ fuel → ReturnsWithin (bfactor fuel st) st.left
  bterm_loop_ret : ∀ t st, 16 * st.left + 1 ≤ fuel →
    ReturnsWithin (bterm_loop fuel t st) st.left
  bterm_ret : ∀ st, 16 * st.left + 6 ≤ fuel → ReturnsWithin (bterm fuel st) st.left
  bool_exp_loop_ret : ∀ t st, 16 * st.left + 1 ≤ fuel →
    ReturnsWithin (bool_exp_loop fuel t st) st.left
  bool_exp_ret : ∀ st, 16 * st.left + 7 ≤ fuel → ReturnsWithin (bool_exp fuel st) st.left
  exp_ret : ∀ st, 16 * st.left + 8 ≤ fuel → ReturnsWithin (exp fuel st) st.left
  write_stmt_ret : ∀ st, 16 * st.left + 9 ≤ fuel →
    ReturnsWithin (write_stmt fuel st) (match_ .WRITE st).left
  assign_stmt_ret : ∀ st, 16 * st.left + 9 ≤ fuel →
    ReturnsWithin (assign_stmt fuel st) (match_ .ID st).left
  repeat_stmt_ret : ∀ st, st.token = .REPEAT → 16 * st.left + 1 ≤ fuel →
    ReturnsWithin (repeat_stmt fuel st) (st.left - 1)
  if_stmt_ret : ∀ st, st.token = .IF → 16 * st.left + 1 ≤ fuel →
    ReturnsWithin (if_stmt fuel st) (st.left - 1)
  while_stmt_ret : ∀ st, st.token = .WHILE → 16 * st.left + 1 ≤ fuel →
    ReturnsWithin (while_stmt fuel st) (st.left - 1)
  statement_ret : ∀ st, 16 * st.left + 10 ≤ fuel →
    ReturnsWithin (statement fuel st) (st.left - 1)
  stmt_sequence_loop_ret : ∀ t st, 16 * st.left + 11 ≤ fuel →
    ReturnsWithin (stmt_sequence_loop fuel t st) st.left
  stmt_sequence_ret : ∀ st, 16 * st.left + 12 ≤ fuel →
    ReturnsWithin (stmt_sequence fuel st) st.left

/-- A production that returns with fuel `fuel` returns the same with one unit more. -/
structure Stable (fuel : Nat) : Prop where
  factor_st : ∀ st r, factor fuel st = some r → factor (fuel + 1) st = some r
  term_loop_st : ∀ t st r, term_loop fuel t st = some r → term_loop (fuel + 1) t st = some r
  term_st : ∀ st r, term fuel st = some r → term (fuel + 1) st = some r
  arithmetic_exp_loop_st : ∀ t st r, arithmetic_exp_loop fuel t st = some r → arithmetic_exp_loop (fuel + 1) t st = some r
  arithmetic_exp_st : ∀ st r, arithmetic_exp fuel st = some r → arithmetic_exp (fuel + 1) st = some r
  comparison_exp_st : ∀ st r, comparison_exp fuel st = some r → comparison_exp (fuel + 1) st = some r
  bfactor_st : ∀ st r, bfactor fuel st = some r → bfactor (fuel + 1) st = some r
  bterm_loop_st : ∀ t st r, bterm_loop fuel t st = some r → bterm_loop (fuel + 1) t st = some r
  bterm_st : ∀ st r, bterm fuel st = some r → bterm (fuel + 1) st = some r
  bool_exp_loop_st : ∀ t st r, bool_exp_loop fuel t st = some r → bool_exp_loop (fuel + 1) t st = some r
  bool_exp_st : ∀ st r, bool_exp fuel st = some r → bool_exp (fuel + 1) st = some r
  exp_st : ∀ st r, exp fuel st = some r → exp (fuel + 1) st = some r
  write_stmt_st : ∀ st r, write_stmt fuel st = some r → write_stmt (fuel + 1) st = some r
  assign_stmt_st : ∀ st r, assign_stmt fuel st = some r → assign_stmt (fuel + 1) st = some r
  repeat_stmt_st : ∀ st r, repeat_stmt fuel st = some r → repeat_stmt (fuel + 1) st = some r
  if_stmt_st : ∀ st r, if_stmt fuel st = some r → if_stmt (fuel + 1) st = some r
  while_stmt_st : ∀ st r, while_stmt fuel st = some r → while_stmt (fuel + 1) st = some r
  statement_st : ∀ st r, statement fuel st = some r → statement (fuel + 1) st = some r
  stmt_sequence_loop_st : ∀ t st r, stmt_sequence_loop fuel t st = some r → stmt_sequence_loop (fuel + 1) t st = some r
  stmt_sequence_st : ∀ st r, stmt_sequence fuel st = some r → stmt_sequence (fuel + 1) st = some r

/-- The tokens of `while a < b do read x end`. -/
def whileExample : List Tok :=
  [tk .WHILE "while", tk .ID "a", tk .LT "<", tk .ID "b", tk .DO "do", tk .READ "read",
   tk .ID "x", tk .END "end"]

/-- The tokens that repeated calls of `getToken` return, up to and including the first
`ENDFILE`, when at most `n` calls are made. -/
def scanTokens (MAXTOKENLEN : Nat) : Nat → Scanner → Option (List TokenType)
  | 0, _ => none
  | n + 1, s =>
    match getToken MAXTOKENLEN s with
    | none => none
    | some r =>
      if r.token = .ENDFILE then some [.ENDFILE]
      else (scanTokens MAXTOKENLEN n r.scanner).map (fun toks => r.token :: toks)

/-! ## The grammar of the specification -/

/-- The nonterminals of the grammar in section 4.2 of the specification that `stmt_sequence`
reaches, with one more nonterminal for each starred group: `stmt_tail` for
`(';' statement)*`, `add_tail` for `(('+' | '-') term)*`, `mul_tail` for
`(('*' | '/') factor)*`, `or_tail` for `('or' bterm)*` and `and_tail` for `('and' bfactor)*`. -/
inductive NT
  | stmt_sequence | stmt_tail | statement | if_stmt | while_stmt | repeat_stmt | assign_stmt
  | read_stmt | write_stmt | exp | arithmetic_exp | add_tail | term | mul_tail | factor
  | bool_exp | or_tail | bterm | and_tail | bfactor | comparison_exp | string_exp
  deriving DecidableEq, Repr

/-- The sentences of each nonterminal, following the words of the specification's grammar
rule by rule; the terminals are token kinds (`identifier` is `ID`, `number` is `NUM`,
`string_literal` is `STR`). -/
inductive Derives : NT → List TokenType → Prop
  | stmt_sequence {w v} : Derives .statement w → Derives .stmt_tail v →
      Derives .stmt_sequence (w ++ v)
  | stmt_tail_nil : Derives .stmt_tail []
  | stmt_tail_cons {w v} : Derives .statement w → Derives .stmt_tail v →
      Derives .stmt_tail (.SEMI :: w ++ v)
  | statement_if {w} : Derives .if_stmt w → Derives .statement w
  | statement_while {w} : Derives .while_stmt w → Derives .statement w
  | statement_repeat {w} : Derives .repeat_stmt w → Derives .statement w
  | statement_assign {w} : Derives .assign_stmt w → Derives .statement w
  | statement_read {w} : Derives .read_stmt w → Derives .statement w
  | statement_write {w} : Derives .write_stmt w → Derives .statement w
  | if_stmt {b s} : Derives .bool_exp b → Derives .stmt_sequence s →
      Derives .if_stmt (.IF :: b ++ .THEN :: s ++ [.END])
  | if_else_stmt {b s e} : Derives .bool_exp b → Derives .stmt_sequence s →
      Derives .stmt_sequence e → Derives .if_stmt (.IF :: b ++ .THEN :: s ++ .ELSE :: e ++ [.END])
  | while_stmt {b s} : Derives .bool_exp b → Derives .stmt_sequence s →
      Derives .while_stmt (.WHILE :: b ++ .DO :: s ++ [.END])
  | repeat_stmt {s b} : Derives .stmt_sequence s → Derives .bool_exp b →
      Derives .repeat_stmt (.REPEAT :: s ++ .UNTIL :: b)
  | assign_stmt {e} : Derives .exp e → Derives .assign_stmt (.ID :: .ASSIGN :: e)
  | read_stmt : Derives .read_stmt [.READ, .ID]
  | write_stmt {e} : Derives .exp e → Derives .write_stmt (.WRITE :: e)
  | exp_string {w} : Derives .string_exp w → Derives .exp w
  | exp_arithmetic {w} : Derives .arithmetic_exp w → Derives .exp w
  | exp_bool {w} : Derives .bool_exp w → Derives .exp w
  | arithmetic_exp {w v} : Derives .term w → Derives .add_tail v →
      Derives .arithmetic_exp (w ++ v)
  | add_tail_nil : Derives .add_tail []
  | add_tail_plus {w v} : Derives .term w → Derives .add_tail v →
      Derives .add_tail (.PLUS :: w ++ v)
  | add_tail_minus {w v} : Derives .term w → Derives .add_tail v →
      Derives .add_tail (.MINUS :: w ++ v)
  | term {w v} : Derives .factor w → Derives .mul_tail v → Derives .term (w ++ v)
  | mul_tail_nil : Derives .mul_tail []
  | mul_tail_times {w v} : Derives .factor w → Derives .mul_tail v →
      Derives .mul_tail (.TIMES :: w ++ v)
  | mul_tail_over {w v} : Derives .factor w → Derives .mul_tail v →
      Derives .mul_tail (.OVER :: w ++ v)
  | factor_paren {e} : Derives .exp e → Derives .factor (.LPAREN :: e ++ [.RPAREN])
  | factor_number : Derives .factor [.NUM]
  | factor_identifier : Derives .factor [.ID]
  | bool_exp {w v} : Derives .bterm w → Derives .or_tail v → Derives .bool_exp (w ++ v)
  | or_tail_nil : Derives .or_tail []
  | or_tail_cons {w v} : Derives .bterm w → Derives .or_tail v →
      Derives .or_tail (.OR :: w ++ v)
  | bterm {w v} : Derives .bfactor w → Derives .and_tail v → Derives .bterm (w ++ v)
  | and_tail_nil : Derives .and_tail []
  | and_tail_cons {w v} : Derives .bfactor w → Derives .and_tail v →
      Derives .and_tail (.AND :: w ++ v)
  | bfactor {w} : Derives .comparison_exp w → Derives .bfactor w
  | comparison_single {w} : Derives .arithmetic_exp w → Derives .comparison_exp w
  | comparison_pair {w v} (op : TokenType) : Derives .arithmetic_exp w →
      isComparison op = true → Derives .arithmetic_exp v →
      Derives .comparison_exp (w ++ op :: v)
  | string_exp : Derives .string_exp [.STR]

/-- Reading the token kinds `w` one after the other: each must be the current token, and each
is left behind by one call of `getToken`. -/
def advance : List TokenType → PState → Option PState
  | [], st => some st
  | k :: w, st => if st.token = k then advance w st.getToken else none

/-- From `st` the parser can read a sentence of `N` and be at `st1` afterwards, nothing but the
position in the token stream having changed. -/
def Parses (N : NT) (st st1 : PState) : Prop :=
  ∃ w, Derives N w ∧ advance w st = some st1

/-- With fuel `fuel`, a production that returns with `Error` clear has read a sentence of its
nonterminal, and a loop one of the starred group. -/
structure Sound (fuel : Nat) : Prop where
  factor_snd : ∀ st t st1, factor fuel st = some (t, st1) → st1.Error = false →
    Parses .factor st st1
  term_loop_snd : ∀ t0 st t st1, term_loop fuel t0 st = some (t, st1) → st1.Error = false →
    Parses .mul_tail st st1
  term_snd : ∀ st t st1, term fuel st = some (t, st1) → st1.Error = false →
    Parses .term st st1
  arithmetic_exp_loop_snd : ∀ t0 st t st1, arithmetic_exp_loop fuel t0 st = some (t, st1) →
    st1.Error = false → Parses .add_tail st st1
  arithmetic_exp_snd : ∀ st t st1, arithmetic_exp fuel st = some (t, st1) →
    st1.Error = false → Parses .arithmetic_exp st st1
  comparison_exp_snd : ∀ st t st1, comparison_exp fuel st = some (t, st1) →
    st1.Error = false → Parses .comparison_exp st st1
  bfactor_snd : ∀ st t st1, bfactor fuel st = some (t, st1) → st1.Error = false →
    Parses .bfactor st st1
  bterm_loop_snd : ∀ t0 st t st1, bterm_loop fuel t0 st = some (t, st1) → st1.Error = false →
    Parses .and_tail st st1
  bterm_snd : ∀ st t st1, bterm fuel st = some (t, st1) → st1.Error = false →
    Parses .bterm st st1
  bool_exp_loop_snd : ∀ t0 st t st1, bool_exp_loop fuel t0 st = some (t, st1) →
    st1.Error = false → Parses .or_tail st st1
  bool_exp_snd : ∀ st t st1, bool_exp fuel st = some (t, st1) → st1.Error = false →
    Parses .bool_exp st st1
  exp_snd : ∀ st t st1, exp fuel st = some (t, st1) → st1.Error = false →
    Parses .exp st st1
  write_stmt_snd : ∀ st t st1, write_stmt fuel st = some (t, st1) → st1.Error = false →
    Parses .write_stmt st st1
  assign_stmt_snd : ∀ st t st1, assign_stmt fuel st = some (t, st1) → st1.Error = false →
    Parses .assign_stmt st st1
  repeat_stmt_snd : ∀ st t st1, repeat_stmt fuel st = some (t, st1) → st1.Error = false →
    Parses .repeat_stmt st st1
  if_stmt_snd : ∀ st t st1, if_stmt fuel st = some (t, st1) → st1.Error = false →
    Parses .if_stmt st st1
  while_stmt_snd : ∀ st t st1, while_stmt fuel st = some (t, st1) → st1.Error = false →
    Parses .while_stmt st st1
  statement_snd : ∀ st t st1, statement fuel st = some (t, st1) → st1.Error = false →
    Parses .statement st st1
  stmt_sequence_loop_snd : ∀ t0 st t st1, stmt_sequence_loop fuel t0 st = some (t, st1) →
    st1.Error = false → Parses .stmt_tail st st1
  stmt_sequence_snd : ∀ st t st1, stmt_sequence fuel st = some (t, st1) → st1.Error = false →
    Parses .stmt_sequence st st1

/-- The production `P` returns from `st` at `st1` for every fuel from some bound on. -/
def Accepts (P : Nat → PState → Option (Tree × PState)) (st st1 : PState) : Prop :=
  ∃ fuel0, ∀ fuel, fuel0 ≤ fuel → ∃ t, P fuel st = some (t, st1)

/-- The loop `L` returns from `st` at `st1` for every fuel from some bound on, whatever tree it
was entered with. -/
def AcceptsLoop (L : Nat → Tree → PState → Option (Tree × PState)) (st st1 : PState) : Prop :=
  ∃ fuel0, ∀ fuel, fuel0 ≤ fuel → ∀ t0, ∃ t, L fuel t0 st = some (t, st1)

/-- The tokens on which `term` goes on after a factor. -/
abbrev mulC (tok : TokenType) : Prop :=
  tok = .TIMES ∨ tok = .OVER

/-- The tokens on which `arithmetic_exp` goes on after what it has read. -/
abbrev addC (tok : TokenType) : Prop :=
  mulC tok ∨ tok = .PLUS ∨ tok = .MINUS

/-- The tokens on which `comparison_exp` goes on after what it has read. -/
abbrev cmpC (tok : TokenType) : Prop :=
  addC tok ∨ isComparison tok = true

/-- The tokens on which `bterm` goes on after what it has read. -/
abbrev andC (tok : TokenType) : Prop :=
  cmpC tok ∨ tok = .AND

/-- The tokens on which `bool_exp` goes on after what it has read. -/
abbrev orC (tok : TokenType) : Prop :=
  andC tok ∨ tok = .OR

/-- What the parser does on a sentence of each nonterminal: read from `st`, with the parser
stopping in front of a token on which the production does not go on, the production (or loop)
of that nonterminal returns exactly behind the sentence. -/
def Complete : NT → List TokenType → Prop
  | .factor, w => ∀ st st1, advance w st = some st1 → Accepts factor st st1
  | .mul_tail, w => ∀ st st1, advance w st = some st1 → ¬ mulC st1.token →
      AcceptsLoop term_loop st st1
  | .term, w => ∀ st st1, advance w st = some st1 → ¬ mulC st1.token → Accepts term st st1
  | .add_tail, w => ∀ st st1, advance w st = some st1 → ¬ addC st1.token →
      AcceptsLoop arithmetic_exp_loop st st1
  | .arithmetic_exp, w => ∀ st st1, advance w st = some st1 → ¬ addC st1.token →
      Accepts arithmetic_exp st st1
  | .comparison_exp, w => ∀ st st1, advance w st = some st1 → ¬ cmpC st1.token →
      Accepts comparison_exp st st1
  | .bfactor, w => ∀ st st1, advance w st = some st1 → ¬ cmpC st1.token →
      Accepts bfactor st st1
  | .and_tail, w => ∀ st st1, advance w st = some st1 → ¬ andC st1.token →
      AcceptsLoop bterm_loop st st1
  | .bterm, w => ∀ st st1, advance w st = some st1 → ¬ andC st1.token → Accepts bterm st st1
  | .or_tail, w => ∀ st st1, advance w st = some st1 → ¬ orC st1.token →
      AcceptsLoop bool_exp_loop st st1
  | .bool_exp, w => ∀ st st1, advance w st = some st1 → ¬ orC st1.token →
      Accepts bool_exp st st1
  | .string_exp, w => ∀ st st1, advance w st = some st1 → st.token = .STR ∧ st1 = st.getToken
  | .exp, w => ∀ st st1, advance w st = some st1 → ¬ orC st1.token → Accepts exp st st1
  | .write_stmt, w => ∀ st st1, advance w st = some st1 → ¬ orC st1.token →
      st.token = .WRITE ∧ Accepts write_stmt st st1
  | .assign_stmt, w => ∀ st st1, advance w st = some st1 → ¬ orC st1.token →
      st.token = .ID ∧ Accepts assign_stmt st st1
  | .read_stmt, w => ∀ st st1, advance w st = some st1 →
      st.token = .READ ∧ st.getToken.token = .ID ∧ st1 = st.getToken.getToken
  | .repeat_stmt, w => ∀ st st1, advance w st = some st1 → ¬ orC st1.token →
      st.token = .REPEAT ∧ Accepts repeat_stmt st st1
  | .if_stmt, w => ∀ st st1, advance w st = some st1 →
      st.token = .IF ∧ Accepts if_stmt st st1
  | .while_stmt, w => ∀ st st1, advance w st = some st1 →
      st.token = .WHILE ∧ Accepts while_stmt st st1
  | .statement, w => ∀ st st1, advance w st = some st1 → ¬ orC st1.token →
      Accepts statement st st1
  | .stmt_tail, w => ∀ st st1, advance w st = some st1 → endsSequence st1.token = true →
      AcceptsLoop stmt_sequence_loop st st1
  | .stmt_sequence, w => ∀ st st1, advance w st = some st1 →
      endsSequence st1.token = true → Accepts stmt_sequence st st1

/-- The first token of a sentence of an expression nonterminal is `(`, a number or an
identifier. -/
def StartsOperand : NT → List TokenType → Prop
  | .factor, w | .term, w | .arithmetic_exp, w | .comparison_exp, w | .bfactor, w | .bterm, w
  | .bool_exp, w => ∃ k v, w = k :: v ∧ (k = .LPAREN ∨ k = .NUM ∨ k = .ID)
  | _, _ => True

/-! ## Vocabulary of the statements about sibling chains -/

/-- A node that stands alone: not null, and its sibling link is empty. -/
def Tree.isSingle : Tree → Bool
  | .node _ _ _ .null _ _ _ _ => true
  | _ => false

/-- The node `t` with its sibling link set to `s`. -/
def Tree.setSibling (t s : Tree) : Tree :=
  match t with
  | .node c0 c1 c2 _ nk k a ty => .node c0 c1 c2 s nk k a ty
  | _ => t

/-- The sibling chain of a list of nodes: the first node, whose sibling is the chain of the
others; the last sibling is empty. -/
def chain : List Tree → Tree
  | [] => .null
  | t :: ts => t.setSibling (chain ts)

/-- The nodes of the sibling chain that starts at a tree, in order, each taken by itself (with
its own children and an empty sibling link). -/
def Tree.chainNodes : Tree → List Tree
  | .node c0 c1 c2 sib nk k a ty => .node c0 c1 c2 .null nk k a ty :: chainNodes sib
  | _ => []

/-- The tokens `; w2 ; ... ; wn` of the statements that come after the first. -/
def tailStream : List (List Tok) → List Tok
  | [] => []
  | w :: ws => tk .SEMI ";" :: w ++ tailStream ws

/-- The tokens `w` are a well-formed statement with node `t`: wherever they stand in front of a
`;` or of a token that ends a sequence, `statement` reads exactly them, returns the node `t`,
which is not null, and leaves `Error` as it was. -/
def WellFormedStatement (w : List Tok) (t : Tree) : Prop :=
  t.isNull = false ∧
    ∀ (rest : List Tok) (err : Bool),
      (firstKind rest = .SEMI ∨ endsSequence (firstKind rest) = true) →
      ∃ fuel0, ∀ fuel, fuel0 ≤ fuel →
        statement fuel (PState.of (w ++ rest) err) = some (t, PState.of rest err)

/-! ## Vocabulary of the statements about comments -/

/-- The scanner `s` when the characters of `before` (most recent first) had been read ahead of
everything `s` has read: the same unread characters and `EOF_flag`, a longer past. -/
def Scanner.after (before : List Char) (s : Scanner) : Scanner :=
  { s with consumed := s.consumed ++ before }

/-- The result `x` of `getToken` with the scanner it leaves behind seen after `before`. -/
def Scanned.after (before : List Char) (x : Scanned) : Scanned :=
  { x with scanner := x.scanner.after before }

/-- The source text of a comment with body `b`: the body between a pair of braces. -/
def commentText (b : List Char) : List Char :=
  '{' :: b ++ ['}']

/-! ## Scanner: theorems -/

theorem store_eq_take (M : Nat) (w : List Char) :
    ∀ ts : List Char, ts.length ≤ M + 1 → store M ts w = ts ++ w.take (M + 1 - ts.length) := by
  induction w with
  | nil => intro ts _; simp [store]
  | cons c w ih =>
    intro ts hts
    by_cases h : ts.length ≤ M
    · have e : M + 1 - ts.length = (M - ts.length) + 1 := by omega
      rw [store, if_pos h, ih _ (by simp; omega), e, List.take_succ_cons]
      simp
    · have e : M + 1 - ts.length = 0 := by omega
      rw [store, if_neg h, ih _ hts, e]
      simp

theorem store_nil (M : Nat) (w : List Char) : store M [] w = w.take (M + 1) := by
  simpa using store_eq_take M w [] (by simp)

/-- A run of characters that keep the scanner in state `X` with `save` set is read in one pass
each, and each is offered to `tokenString`. -/
theorem getTokenLoop_run (M : Nat) (X : StateType) (hX : X ≠ .DONE) (w : List Char)
    (hw : ∀ c ∈ w, ∀ cur s, step X cur (some c) s = ⟨X, true, cur, s⟩) :
    ∀ (n : Nat) (cur : TokenType) (ts cons r : List Char) (e : Bool),
      getTokenLoop M (w.length + n) X cur ts ⟨cons, w ++ r, e⟩ =
        getTokenLoop M n X cur (store M ts w) ⟨w.reverse ++ cons, r, e⟩ := by
  induction w with
  | nil => intro n cur ts cons r e; simp [store]
  | cons c w ih =>
    intro n cur ts cons r e
    have hc := hw c (List.mem_cons_self c w)
    have hw1 : ∀ x ∈ w, ∀ cur s, step X cur (some x) s = ⟨X, true, cur, s⟩ :=
      fun x hx => hw x (List.mem_cons_of_mem c hx)
    have hlen : (c :: w).length + n = (w.length + n) + 1 := by simp; omega
    rw [hlen, getTokenLoop]
    simp only [getNextChar, List.cons_append, hc, hX, if_false, true_and, toChar]
    rw [ih hw1]
    simp [store]


theorem isAlpha_not_isDigit (c : Char) (h : c.isAlpha = true) : c.isDigit = false := by
  simp only [Char.isAlpha, Char.isUpper, Char.isLower, Char.isDigit, Bool.or_eq_true,
    Bool.and_eq_true, decide_eq_true_eq, UInt32.le_def, BitVec.le_def] at h ⊢
  simp only [Bool.and_eq_false_imp, decide_eq_true_eq, decide_eq_false_iff_not, UInt32.le_def,
    BitVec.le_def]
  intro _
  have e2 : (UInt32.toBitVec 57).toNat = 57 := rfl
  have e3 : (UInt32.toBitVec 65).toNat = 65 := rfl
  have e5 : (UInt32.toBitVec 97).toNat = 97 := rfl
  omega

theorem getTokenLoop_INID_end (M n : Nat) (cur : TokenType) (ts cons r : List Char)
    (hr : endsWord r) :
    getTokenLoop M (n + 1) .INID cur ts ⟨cons, r, false⟩ =
      some ⟨reservedLookup ts, ts, ⟨cons, r, decide (r = [])⟩⟩ := by
  cases r with
  | nil => simp [getTokenLoop, getNextChar, step, isalpha, isdigit, ungetNextChar]
  | cons d r =>
    obtain ⟨h1, h2⟩ := hr
    simp only [List.head?_cons] at h1 h2
    simp [getTokenLoop, getNextChar, step, h1, h2, ungetNextChar]

theorem getToken_word (M : Nat) (c : Char) (w cons r : List Char) (hc : c.isAlpha = true)
    (hw : ∀ x ∈ w, x.isAlpha = true ∨ x.isDigit = true) (hr : endsWord r) :
    getToken M ⟨cons, c :: w ++ r, false⟩ =
      some ⟨reservedLookup ((c :: w).take (M + 1)), (c :: w).take (M + 1),
        ⟨(c :: w).reverse ++ cons, r, decide (r = [])⟩⟩ := by
  have hstep : ∀ x ∈ w, ∀ cur s, step .INID cur (some x) s = ⟨.INID, true, cur, s⟩ := by
    intro x hx cur s
    rcases hw x hx with h | h <;> simp [step, isalpha, isdigit, h]
  have hlen : (c :: w ++ r).length + 1 = (w.length + (r.length + 1)) + 1 := by
    simp; omega
  rw [getToken, hlen, getTokenLoop]
  simp only [getNextChar, List.cons_append, step, isdigit, isAlpha_not_isDigit c hc, isalpha, hc]
  simp only [Bool.false_eq_true, if_false, if_true, true_and, List.length_nil, Nat.zero_le,
    List.nil_append, toChar, reduceCtorEq]
  rw [getTokenLoop_run M .INID (by decide) w hstep, getTokenLoop_INID_end _ _ _ _ _ _ hr]
  rw [store_eq_take M w [c] (by simp)]
  simp

theorem getToken_short_word (M : Nat) (c : Char) (w cons r : List Char) (hc : c.isAlpha = true)
    (hw : ∀ x ∈ w, x.isAlpha = true ∨ x.isDigit = true) (hr : endsWord r)
    (hlen : (c :: w).length ≤ M + 1) :
    getToken M ⟨cons, c :: w ++ r, false⟩ =
      some ⟨reservedLookup (c :: w), c :: w, ⟨(c :: w).reverse ++ cons, r, decide (r = [])⟩⟩ := by
  rw [getToken_word M c w cons r hc hw hr, List.take_of_length_le hlen]

theorem getTokenLoop_INNUM_end (M n : Nat) (cur : TokenType) (ts cons r : List Char)
    (hr : endsNumber r) :
    getTokenLoop M (n + 1) .INNUM cur ts ⟨cons, r, false⟩ =
      some ⟨.NUM, ts, ⟨cons, r, decide (r = [])⟩⟩ := by
  cases r with
  | nil => simp [getTokenLoop, getNextChar, step, isdigit, ungetNextChar]
  | cons d r =>
    simp only [endsNumber, List.head?_cons] at hr
    simp [getTokenLoop, getNextChar, step, hr, ungetNextChar]

theorem getToken_number (M : Nat) (d : Char) (ds cons r : List Char) (hd : d.isDigit = true)
    (hds : ∀ x ∈ ds, x.isDigit = true) (hr : endsNumber r) :
    getToken M ⟨cons, d :: ds ++ r, false⟩ =
      some ⟨.NUM, (d :: ds).take (M + 1), ⟨(d :: ds).reverse ++ cons, r, decide (r = [])⟩⟩ := by
  have hstep : ∀ x ∈ ds, ∀ cur s, step .INNUM cur (some x) s = ⟨.INNUM, true, cur, s⟩ := by
    intro x hx cur s
    simp [step, isdigit, hds x hx]
  have hlen : (d :: ds ++ r).length + 1 = (ds.length + (r.length + 1)) + 1 := by
    simp; omega
  rw [getToken, hlen, getTokenLoop]
  simp only [getNextChar, List.cons_append, step, isdigit, hd]
  simp only [Bool.false_eq_true, if_false, if_true, true_and, List.length_nil, Nat.zero_le,
    List.nil_append, toChar, reduceCtorEq]
  rw [getTokenLoop_run M .INNUM (by decide) ds hstep, getTokenLoop_INNUM_end _ _ _ _ _ _ hr]
  rw [store_eq_take M ds [d] (by simp)]
  simp

theorem step_INSTR_inString (x : Char) (hx : inString x) (cur : TokenType) (s : Scanner) :
    step .INSTR cur (some x) s = ⟨.INSTR, true, cur, s⟩ := by
  obtain ⟨h1, h2, h3, h4⟩ := hx
  simp [step, h1, h2, h3, h4]

theorem getTokenLoop_INSTR_quote (M n : Nat) (cur : TokenType) (ts cons r : List Char) :
    getTokenLoop M (n + 1) .INSTR cur ts ⟨cons, '\'' :: r, false⟩ =
      some ⟨.STR, ts, ⟨'\'' :: cons, r, false⟩⟩ := by
  simp [getTokenLoop, getNextChar, step]

theorem getTokenLoop_INSTR_break (M n : Nat) (cur : TokenType) (ts cons r : List Char)
    (hr : breaksString r) :
    getTokenLoop M (n + 1) .INSTR cur ts ⟨cons, r, false⟩ =
      some ⟨.CLOST, ts, ⟨cons, r, decide (r = [])⟩⟩ := by
  cases r with
  | nil => simp [getTokenLoop, getNextChar, step, ungetNextChar]
  | cons d r =>
    simp only [breaksString, List.head?_cons, Option.some.injEq, reduceCtorEq, false_or] at hr
    rcases hr with rfl | rfl | rfl <;> simp [getTokenLoop, getNextChar, step, ungetNextChar]

theorem getToken_quote (M : Nat) (body cons r : List Char) (hb : ∀ x ∈ body, inString x)
 :
    getToken M ⟨cons, '\'' :: body ++ r, false⟩ =
      getTokenLoop M (r.length + 1) .INSTR .ERROR (body.take (M + 1))
        ⟨body.reverse ++ '\'' :: cons, r, false⟩ := by
  have hlen : ('\'' :: body ++ r).length + 1 = (body.length + (r.length + 1)) + 1 := by
    simp; omega
  rw [getToken, hlen, getTokenLoop]
  simp only [getNextChar, List.cons_append, step, isdigit, isalpha]
  simp only [show Char.isDigit '\'' = false from by decide,
    show Char.isAlpha '\'' = false from by decide]
  simp only [Bool.false_eq_true, if_false, if_true, false_and, Option.some.injEq,
    show ¬ ('\'' = ':') from by decide, show ¬ ('\'' = ' ') from by decide,
    show ¬ ('\'' = '\t') from by decide, show ¬ ('\'' = '\n') from by decide,
    show ¬ ('\'' = '{') from by decide, or_self, reduceCtorEq]
  rw [getTokenLoop_run M .INSTR (by decide) body (fun x hx => step_INSTR_inString x (hb x hx)),
    store_nil]

theorem getToken_string (M : Nat) (body cons r : List Char) (hb : ∀ x ∈ body, inString x) :
    getToken M ⟨cons, '\'' :: body ++ '\'' :: r, false⟩ =
      some ⟨.STR, body.take (M + 1), ⟨'\'' :: (body.reverse ++ '\'' :: cons), r, false⟩⟩ := by
  rw [getToken_quote M body cons ('\'' :: r) hb, List.length_cons, getTokenLoop_INSTR_quote]

theorem getToken_unterminated (M : Nat) (body cons r : List Char) (hb : ∀ x ∈ body, inString x)
    (hr : breaksString r) :
    getToken M ⟨cons, '\'' :: body ++ r, false⟩ =
      some ⟨.CLOST, body.take (M + 1), ⟨body.reverse ++ '\'' :: cons, r, decide (r = [])⟩⟩ := by
  rw [getToken_quote M body cons r hb, getTokenLoop_INSTR_break _ _ _ _ _ _ hr]

/-- C1: for each of the 15 reserved spellings, `getToken` on the spelling followed by a character
that is neither a letter nor a digit, or by the end of the file, returns the keyword token of
that spelling: `IF` for `if`, `THEN` for `then`, `ELSE` for `else`, `END` for `end`, `REPEAT` for
`repeat`, `UNTIL` for `until`, `READ` for `read`, `WRITE` for `write`, `OR` for `or`, `AND` for
`and`, `INT` for `int`, `BOOL` for `bool`, `CHAR` for `char`, `WHILE` for `while` and `DO` for
`do`, and never `ID`; the lexeme is the spelling and the following character stays unread.
`MAXTOKENLEN` is assumed to leave room for the longest reserved word. -/
theorem getToken_reserved (M : Nat) (hM : 6 ≤ M) (str : List Char) (tok : TokenType)
    (hkw : (str, tok) ∈
      [("if".toList, TokenType.IF), ("then".toList, TokenType.THEN),
      ("else".toList, TokenType.ELSE), ("end".toList, TokenType.END),
      ("repeat".toList, TokenType.REPEAT), ("until".toList, TokenType.UNTIL),
      ("read".toList, TokenType.READ), ("write".toList, TokenType.WRITE),
      ("or".toList, TokenType.OR), ("and".toList, TokenType.AND), ("int".toList, TokenType.INT),
      ("bool".toList, TokenType.BOOL), ("char".toList, TokenType.CHAR),
      ("while".toList, TokenType.WHILE), ("do".toList, TokenType.DO)])
    (cons r : List Char) (hr : endsWord r) :
    getToken M ⟨cons, str ++ r, false⟩ =
        some ⟨tok, str, ⟨str.reverse ++ cons, r, decide (r = [])⟩⟩ ∧
      tok ≠ .ID := by
  simp only [List.mem_cons, Prod.mk.injEq, List.mem_nil_iff, or_false] at hkw
  rcases hkw with h | h | h | h | h | h | h | h | h | h | h | h | h | h | h
  all_goals
    obtain ⟨rfl, rfl⟩ := h
    refine ⟨?_, by decide⟩
    exact getToken_short_word M _ _ cons r (by decide) (by decide) hr
      (by simp only [List.length_cons, List.length_nil]; omega)

theorem getToken_reserved_witness :
    (6 ≤ 40 ∧ endsWord " x".toList ∧
      endsWord "".toList ∧
      endsWord "(".toList ∧
      endsWord ";".toList ∧
      endsWord " ".toList ∧
      endsWord "\n".toList ∧
      endsWord ":=".toList ∧
      endsWord "+".toList ∧
      endsWord "<".toList ∧
      endsWord "=".toList ∧
      endsWord ",".toList ∧
      endsWord "\t".toList ∧
      endsWord ")".toList ∧
      endsWord "*".toList) ∧
      (getToken 40 ⟨[], "if".toList ++ " x".toList, false⟩ =
          some ⟨.IF, "if".toList,
            ⟨"if".toList.reverse ++ [], " x".toList, decide (" x".toList = [])⟩⟩ ∧
        TokenType.IF ≠ .ID) ∧
      (getToken 40 ⟨[], "then".toList ++ "".toList, false⟩ =
          some ⟨.THEN, "then".toList,
            ⟨"then".toList.reverse ++ [], "".toList, decide ("".toList = [])⟩⟩ ∧
        TokenType.THEN ≠ .ID) ∧
      (getToken 40 ⟨[], "else".toList ++ "(".toList, false⟩ =
          some ⟨.ELSE, "else".toList,
            ⟨"else".toList.reverse ++ [], "(".toList, decide ("(".toList = [])⟩⟩ ∧
        TokenType.ELSE ≠ .ID) ∧
      (getToken 40 ⟨[], "end".toList ++ ";".toList, false⟩ =
          some ⟨.END, "end".toList,
            ⟨"end".toList.reverse ++ [], ";".toList, decide (";".toList = [])⟩⟩ ∧
        TokenType.END ≠ .ID) ∧
      (getToken 40 ⟨[], "repeat".toList ++ " ".toList, false⟩ =
          some ⟨.REPEAT, "repeat".toList,
            ⟨"repeat".toList.reverse ++ [], " ".toList, decide (" ".toList = [])⟩⟩ ∧
        TokenType.REPEAT ≠ .ID) ∧
      (getToken 40 ⟨[], "until".toList ++ "\n".toList, false⟩ =
          some ⟨.UNTIL, "until".toList,
            ⟨"until".toList.reverse ++ [], "\n".toList, decide ("\n".toList = [])⟩⟩ ∧
        TokenType.UNTIL ≠ .ID) ∧
      (getToken 40 ⟨[], "read".toList ++ ":=".toList, false⟩ =
          some ⟨.READ, "read".toList,
            ⟨"read".toList.reverse ++ [], ":=".toList, decide (":=".toList = [])⟩⟩ ∧
        TokenType.READ ≠ .ID) ∧
      (getToken 40 ⟨[], "write".toList ++ "+".toList, false⟩ =
          some ⟨.WRITE, "write".toList,
            ⟨"write".toList.reverse ++ [], "+".toList, decide ("+".toList = [])⟩⟩ ∧
        TokenType.WRITE ≠ .ID) ∧
      (getToken 40 ⟨[], "or".toList ++ "<".toList, false⟩ =
          some ⟨.OR, "or".toList,
            ⟨"or".toList.reverse ++ [], "<".toList, decide ("<".toList = [])⟩⟩ ∧
        TokenType.OR ≠ .ID) ∧
      (getToken 40 ⟨[], "and".toList ++ "=".toList, false⟩ =
          some ⟨.AND, "and".toList,
            ⟨"and".toList.reverse ++ [], "=".toList, decide ("=".toList = [])⟩⟩ ∧
        TokenType.AND ≠ .ID) ∧
      (getToken 40 ⟨[], "int".toList ++ ",".toList, false⟩ =
          some ⟨.INT, "int".toList,
            ⟨"int".toList.reverse ++ [], ",".toList, decide (",".toList = [])⟩⟩ ∧
        TokenType.INT ≠ .ID) ∧
      (getToken 40 ⟨[], "bool".toList ++ "\t".toList, false⟩ =
          some ⟨.BOOL, "bool".toList,
            ⟨"bool".toList.reverse ++ [], "\t".toList, decide ("\t".toList = [])⟩⟩ ∧
        TokenType.BOOL ≠ .ID) ∧
      (getToken 40 ⟨[], "char".toList ++ ")".toList, false⟩ =
          some ⟨.CHAR, "char".toList,
            ⟨"char".toList.reverse ++ [], ")".toList, decide (")".toList = [])⟩⟩ ∧
        TokenType.CHAR ≠ .ID) ∧
      (getToken 40 ⟨[], "while".toList ++ " x".toList, false⟩ =
          some ⟨.WHILE, "while".toList,
            ⟨"while".toList.reverse ++ [], " x".toList, decide (" x".toList = [])⟩⟩ ∧
        TokenType.WHILE ≠ .ID) ∧
      (getToken 40 ⟨[], "do".toList ++ "*".toList, false⟩ =
          some ⟨.DO, "do".toList,
            ⟨"do".toList.reverse ++ [], "*".toList, decide ("*".toList = [])⟩⟩ ∧
        TokenType.DO ≠ .ID) :=
  ⟨⟨by decide, by decide, by decide, by decide, by decide, by decide, by decide, by decide, by decide, by decide, by decide, by decide, by decide, by decide, by decide⟩,
    getToken_reserved 40 (by decide) "if".toList .IF (by decide) [] " x".toList
      (by decide),
    getToken_reserved 40 (by decide) "then".toList .THEN (by decide) [] "".toList
      (by decide),
    getToken_reserved 40 (by decide) "else".toList .ELSE (by decide) [] "(".toList
      (by decide),
    getToken_reserved 40 (by decide) "end".toList .END (by decide) [] ";".toList
      (by decide),
    getToken_reserved 40 (by decide) "repeat".toList .REPEAT (by decide) [] " ".toList
      (by decide),
    getToken_reserved 40 (by decide) "until".toList .UNTIL (by decide) [] "\n".toList
      (by decide),
    getToken_reserved 40 (by decide) "read".toList .READ (by decide) [] ":=".toList
      (by decide),
    getToken_reserved 40 (by decide) "write".toList .WRITE (by decide) [] "+".toList
      (by decide),
    getToken_reserved 40 (by decide) "or".toList .OR (by decide) [] "<".toList
      (by decide),
    getToken_reserved 40 (by decide) "and".toList .AND (by decide) [] "=".toList
      (by decide),
    getToken_reserved 40 (by decide) "int".toList .INT (by decide) [] ",".toList
      (by decide),
    getToken_reserved 40 (by decide) "bool".toList .BOOL (by decide) [] "\t".toList
      (by decide),
    getToken_reserved 40 (by decide) "char".toList .CHAR (by decide) [] ")".toList
      (by decide),
    getToken_reserved 40 (by decide) "while".toList .WHILE (by decide) [] " x".toList
      (by decide),
    getToken_reserved 40 (by decide) "do".toList .DO (by decide) [] "*".toList
      (by decide)⟩

theorem reservedLookup_replicate_x (n : Nat) :
    reservedLookup (List.replicate (n + 1) 'x') = .ID := by
  simp [reservedLookup, lookupIn, reservedWords, List.replicate_succ]

/-- C2: the code stores one character more than the claim allows.  For every `MAXTOKENLEN`, on
the identifier made of `MAXTOKENLEN + 1` letters `x` followed by a space, `getToken` returns `ID`
and consumes the word, but `tokenString` receives all `MAXTOKENLEN + 1` letters, not the first
`MAXTOKENLEN`; the terminator is then written at index `MAXTOKENLEN + 1`, so the lexeme with its
terminator does not fit the `MAXTOKENLEN + 1` characters of the buffer. -/
theorem getToken_identifier_overflow (M : Nat) :
    getToken M (Scanner.start (List.replicate (M + 1) 'x' ++ [' '])) =
        some ⟨.ID, List.replicate (M + 1) 'x',
          ⟨(List.replicate (M + 1) 'x').reverse ++ [], [' '], false⟩⟩ ∧
      List.replicate (M + 1) 'x' ≠ (List.replicate (M + 1) 'x').take M ∧
      ¬ (List.replicate (M + 1) 'x').length + 1 ≤ M + 1 := by
  refine ⟨?_, ?_, by simp⟩
  · have h := getToken_short_word M 'x' (List.replicate M 'x') [] [' '] (by decide)
      (fun x hx => by rw [List.eq_of_mem_replicate hx]; decide) (by decide) (by simp)
    rw [← List.replicate_succ, reservedLookup_replicate_x M] at h
    exact h
  · intro h
    have := congrArg List.length h
    simp at this

/-- C3: the character after `<` or `>` is consumed and lost.  On the input `<x`, `getToken`
returns `LT` and leaves nothing unread, so the next call returns `ENDFILE`, whereas a scan that
starts at `x` returns the identifier `x`; the same happens after `>`. -/
theorem getToken_less_consumes_follower (M : Nat) :
    getToken M (Scanner.start "<x".toList) = some ⟨.LT, ['<'], ⟨['x', '<'], [], false⟩⟩ ∧
      getToken M ⟨['x', '<'], [], false⟩ = some ⟨.ENDFILE, [], ⟨['x', '<'], [], true⟩⟩ ∧
      getToken M (Scanner.start "x".toList) = some ⟨.ID, ['x'], ⟨['x'], [], true⟩⟩ ∧
      getToken M (Scanner.start ">x".toList) =
        some ⟨.LARGERT, ['>'], ⟨['x', '>'], [], false⟩⟩ := by
  refine ⟨?_, ?_, ?_, ?_⟩ <;>
    simp [getToken, getTokenLoop, getNextChar, step, startSymbol, isdigit, isalpha,
      Scanner.start, toChar, ungetNextChar, reservedLookup, lookupIn, reservedWords]

/-- C4: for every string body without a single quote, space, tab or newline, `getToken` on the
opening quote and the body followed by a space, a tab, a newline or the end of the file returns
`CLOST`, which is not `STR`, and leaves the scanner with exactly the terminating character and
what follows it still unread: that character is the next one read. -/
theorem getToken_unterminated_string (M : Nat) (body cons r : List Char)
    (hb : ∀ x ∈ body, inString x) (hr : breaksString r) :
    getToken M ⟨cons, '\'' :: body ++ r, false⟩ =
        some ⟨.CLOST, body.take (M + 1),
          ⟨body.reverse ++ '\'' :: cons, r, decide (r = [])⟩⟩ ∧
      TokenType.CLOST ≠ .STR ∧
      (getNextChar ⟨body.reverse ++ '\'' :: cons, r, decide (r = [])⟩).1 = r.head? := by
  refine ⟨getToken_unterminated M body cons r hb hr, by decide, ?_⟩
  cases r <;> simp [getNextChar]

theorem getToken_unterminated_string_witness :
    ((∀ x ∈ "abc".toList, inString x) ∧ breaksString "\n'd'".toList) ∧
      getToken 40 ⟨[], '\'' :: "abc".toList ++ "\n'd'".toList, false⟩ =
        some ⟨.CLOST, "abc".toList.take (40 + 1),
          ⟨"abc".toList.reverse ++ '\'' :: [], "\n'd'".toList,
            decide ("\n'd'".toList = [])⟩⟩ ∧
      TokenType.CLOST ≠ .STR ∧
      (getNextChar ⟨"abc".toList.reverse ++ '\'' :: [], "\n'd'".toList,
        decide ("\n'd'".toList = [])⟩).1 = "\n'd'".toList.head? :=
  ⟨⟨by decide, by decide⟩,
    getToken_unterminated_string 40 "abc".toList [] "\n'd'".toList (by decide) (by decide)⟩

/-- C5: round trip of literals.  For every non-empty digit string and every string body (no
single quote, space, tab or newline) of at most `MAXTOKENLEN` characters, scanning the source
form of the literal (the digits, followed by something that is not a digit; the body between
single quotes) returns `NUM` respectively `STR` with `tokenString` equal to the digits
respectively the body. -/
theorem getToken_literal_roundtrip (M : Nat) :
    (∀ (d : Char) (ds cons r : List Char), d.isDigit = true → (∀ x ∈ ds, x.isDigit = true) →
        (d :: ds).length ≤ M → endsNumber r →
        getToken M ⟨cons, sourceForm .NUM (d :: ds) ++ r, false⟩ =
          some ⟨.NUM, d :: ds, ⟨(d :: ds).reverse ++ cons, r, decide (r = [])⟩⟩) ∧
      (∀ (body cons r : List Char), (∀ x ∈ body, inString x) → body.length ≤ M →
        getToken M ⟨cons, sourceForm .STR body ++ r, false⟩ =
          some ⟨.STR, body, ⟨'\'' :: (body.reverse ++ '\'' :: cons), r, false⟩⟩) := by
  constructor
  · intro d ds cons r hd hds hlen hr
    have h := getToken_number M d ds cons r hd hds hr
    rw [List.take_of_length_le (by omega)] at h
    exact h
  · intro body cons r hb hlen
    have h := getToken_string M body cons r hb
    rw [List.take_of_length_le (by omega)] at h
    simpa [sourceForm] using h

theorem getToken_literal_roundtrip_witness :
    (('4'.isDigit = true ∧ (∀ x ∈ "2".toList, x.isDigit = true) ∧
        ('4' :: "2".toList).length ≤ 40 ∧ endsNumber [] ∧
        getToken 40 ⟨[], sourceForm .NUM ('4' :: "2".toList) ++ [], false⟩ =
          some ⟨.NUM, '4' :: "2".toList,
            ⟨('4' :: "2".toList).reverse ++ [], [], decide (([] : List Char) = [])⟩⟩)) ∧
      ((∀ x ∈ "ab".toList, inString x) ∧ "ab".toList.length ≤ 40 ∧
        getToken 40 ⟨[], sourceForm .STR "ab".toList ++ [], false⟩ =
          some ⟨.STR, "ab".toList, ⟨'\'' :: ("ab".toList.reverse ++ '\'' :: []), [], false⟩⟩) :=
  ⟨⟨by decide, by decide, by decide, by decide,
      (getToken_literal_roundtrip 40).1 '4' "2".toList [] [] (by decide) (by decide)
        (by decide) (by decide)⟩,
    ⟨by decide, by decide,
      (getToken_literal_roundtrip 40).2 "ab".toList [] [] (by decide) (by decide)⟩⟩

/-! ## Parser: expressions over numbers and identifiers -/

theorem PState.getToken_eq_of (tok : TokenType) (ts : List Char) (toks : List Tok)
    (err : Bool) : PState.getToken ⟨tok, ts, toks, err⟩ = PState.of toks err := by
  cases toks <;> rfl

theorem PState.of_cons (f : Tok) (toks : List Tok) (err : Bool) :
    PState.of (f :: toks) err = ⟨f.kind, f.lexeme, toks, err⟩ := rfl

theorem PState.of_token (toks : List Tok) (err : Bool) :
    (PState.of toks err).token = firstKind toks := by
  cases toks <;> rfl

theorem factor_operand (fuel : Nat) (f : Tok) (toks : List Tok) (err : Bool)
    (hf : isOperand f) :
    factor (fuel + 1) (PState.of (f :: toks) err) = some (leaf f, PState.of toks err) := by
  rcases hf with h | h <;>
    simp [factor, PState.of_cons, h, leaf, match_, PState.getToken_eq_of, newExpNode,
      Tree.setAttr, Tree.setType]

theorem term_operand (fuel : Nat) (f : Tok) (toks : List Tok) (err : Bool)
    (hf : isOperand f) (h1 : firstKind toks ≠ .TIMES) (h2 : firstKind toks ≠ .OVER) :
    term (fuel + 2) (PState.of (f :: toks) err) = some (leaf f, PState.of toks err) := by
  rw [term, factor_operand fuel f toks err hf]
  simp [term_loop, PState.of_token, h1, h2]

theorem arithmetic_exp_loop_fold (ops : List (Tok × Tok)) :
    ∀ (fuel : Nat) (t : Tree) (toks : List Tok) (err : Bool),
      (∀ p ∈ ops, (p.1.kind = .PLUS ∨ p.1.kind = .MINUS) ∧ isOperand p.2) →
      firstKind toks ≠ .PLUS → firstKind toks ≠ .MINUS →
      firstKind toks ≠ .TIMES → firstKind toks ≠ .OVER →
      arithmetic_exp_loop (fuel + ops.length + 2) t (PState.of (opStream ops ++ toks) err) =
        some (leftFold t ops, PState.of toks err) := by
  induction ops with
  | nil =>
    intro fuel t toks err _ h1 h2 _ _
    simp [opStream, leftFold, arithmetic_exp_loop, PState.of_token, h1, h2]
  | cons p ps ih =>
    intro fuel t toks err hops h1 h2 h3 h4
    obtain ⟨hop, hf⟩ := hops p (List.mem_cons_self p ps)
    have hps : ∀ q ∈ ps, (q.1.kind = .PLUS ∨ q.1.kind = .MINUS) ∧ isOperand q.2 :=
      fun q hq => hops q (List.mem_cons_of_mem p hq)
    have hnext : firstKind (opStream ps ++ toks) ≠ .TIMES ∧
        firstKind (opStream ps ++ toks) ≠ .OVER := by
      cases ps with
      | nil => exact ⟨h3, h4⟩
      | cons q qs =>
        have hq := (hops q (by simp)).1
        simp only [opStream, List.cons_append, firstKind, PState.of_cons]
        rcases hq with hq | hq <;> simp [hq]
    have hlen : fuel + (p :: ps).length + 2 = (fuel + ps.length + 2) + 1 := by
      simp; omega
    have hfuel : fuel + ps.length + 2 = (fuel + ps.length) + 2 := by omega
    rw [hlen, arithmetic_exp_loop]
    simp only [opStream, List.cons_append, PState.of_cons]
    rw [if_pos hop]
    simp only [match_, if_true, PState.getToken_eq_of]
    nth_rewrite 1 [hfuel]
    rw [term_operand _ p.2 _ err hf hnext.1 hnext.2]
    simp only []
    rw [ih fuel _ toks err hps h1 h2 h3 h4]
    simp [leftFold, opNode, newExpNode, Tree.setChild0, Tree.setChild1, Tree.setAttr]

theorem firstKind_opStream (ops : List (Tok × Tok)) (toks : List Tok)
    (hops : ∀ p ∈ ops, (p.1.kind = .PLUS ∨ p.1.kind = .MINUS) ∧ isOperand p.2)
    (h3 : firstKind toks ≠ .TIMES) (h4 : firstKind toks ≠ .OVER) :
    firstKind (opStream ops ++ toks) ≠ .TIMES ∧ firstKind (opStream ops ++ toks) ≠ .OVER := by
  cases ops with
  | nil => exact ⟨h3, h4⟩
  | cons q qs =>
    have hq := (hops q (by simp)).1
    simp only [opStream, List.cons_append, firstKind, PState.of_cons]
    rcases hq with hq | hq <;> simp [hq]

/-- C6: left associativity.  For every token stream `f0 op1 f1 ... opn fn` whose `fi` are
numbers or identifiers and whose `opi` are `PLUS` or `MINUS`, followed by the end of the file or
by any token other than `+ - * /`, `arithmetic_exp` returns the left fold
`Op(opn, Op(..., Op(op1, f0, f1) ...), fn)`, each operator node having the accumulated left
subtree as child 0 and the next operand as child 1, and stops in front of what follows. -/
theorem arithmetic_exp_left_assoc (f0 : Tok) (ops : List (Tok × Tok)) (toks : List Tok)
    (err : Bool) (fuel : Nat) (hf0 : isOperand f0)
    (hops : ∀ p ∈ ops, (p.1.kind = .PLUS ∨ p.1.kind = .MINUS) ∧ isOperand p.2)
    (h1 : firstKind toks ≠ .PLUS) (h2 : firstKind toks ≠ .MINUS)
    (h3 : firstKind toks ≠ .TIMES) (h4 : firstKind toks ≠ .OVER)
    (hfuel : ops.length + 3 ≤ fuel) :
    arithmetic_exp fuel (PState.of (f0 :: opStream ops ++ toks) err) =
      some (leftFold (leaf f0) ops, PState.of toks err) := by
  obtain ⟨k, rfl⟩ := Nat.exists_eq_add_of_le hfuel
  have hnext := firstKind_opStream ops toks hops h3 h4
  have e1 : ops.length + 3 + k = ((k + ops.length) + 2) + 1 := by omega
  have e2 : k + ops.length + 2 = (k + ops.length) + 2 := rfl
  rw [e1, arithmetic_exp]
  simp only [List.cons_append]
  nth_rewrite 1 [e2]
  rw [term_operand _ f0 _ err hf0 hnext.1 hnext.2]
  exact arithmetic_exp_loop_fold ops k (leaf f0) toks err hops h1 h2 h3 h4

theorem arithmetic_exp_left_assoc_witness :
    (isOperand (tk .NUM "1") ∧
      (∀ p ∈ [(tk .MINUS "-", tk .NUM "2"), (tk .MINUS "-", tk .NUM "3")],
        (p.1.kind = .PLUS ∨ p.1.kind = .MINUS) ∧ isOperand p.2) ∧
      firstKind [] ≠ .PLUS ∧ firstKind [] ≠ .MINUS ∧ firstKind [] ≠ .TIMES ∧
      firstKind [] ≠ .OVER ∧ 2 + 3 ≤ 5) ∧
      arithmetic_exp 5
          (PState.of [tk .NUM "1", tk .MINUS "-", tk .NUM "2", tk .MINUS "-", tk .NUM "3"]
            false) =
        some (opNode .MINUS (opNode .MINUS (leaf (tk .NUM "1")) (leaf (tk .NUM "2")))
          (leaf (tk .NUM "3")), PState.of [] false) ∧
      leaf (tk .NUM "3") =
        .node .null .null .null .null .ExpK (.exp .ConstK) (.val 3) .Integer :=
  ⟨⟨by decide, by decide, by decide, by decide, by decide, by decide, by decide⟩,
    arithmetic_exp_left_assoc (tk .NUM "1")
      [(tk .MINUS "-", tk .NUM "2"), (tk .MINUS "-", tk .NUM "3")] [] false 5
      (by decide) (by decide) (by decide) (by decide) (by decide) (by decide) (by decide),
    by decide⟩

/-! ## Parser: statements -/

/-- The shape of the node `if_stmt` returns when the statement has an else part: child 0 is what
`bool_exp` returned, child 1 and child 2 are what the two calls of `stmt_sequence` returned. -/
theorem if_stmt_children (fuel : Nat) (st st1 st2 st3 : PState) (c b e : Tree)
    (hc : bool_exp fuel (match_ .IF st) = some (c, st1))
    (hb : stmt_sequence fuel (match_ .THEN st1) = some (b, st2)) (helse : st2.token = .ELSE)
    (he : stmt_sequence fuel (match_ .ELSE st2) = some (e, st3)) :
    if_stmt (fuel + 1) st =
      some (.node c b e .null .StmtK (.stmt .IfK) .unset .Void, match_ .END st3) := by
  simp [if_stmt, hc, hb, helse, he, newStmtNode, Tree.setChild0, Tree.setChild1,
    Tree.setChild2]

/-- C7: on `if a < b then write a else write b end` the parser returns an If node whose child 0
is the `LT` node over the identifiers `a` and `b` and whose children 1 and 2 are Write nodes, but
child 0 of each Write node is not the Identifier of its operand: `exp` ends with `return;`, so
`write_stmt` stores an indeterminate value there. -/
theorem if_example_write_operand_lost :
    parse 20 (PState.initial ifExample) =
        some (.node (opNode .LT (leaf (tk .ID "a")) (leaf (tk .ID "b")))
            (.node .undef .null .null .null .StmtK (.stmt .WriteK) .unset .Void)
            (.node .undef .null .null .null .StmtK (.stmt .WriteK) .unset .Void)
            .null .StmtK (.stmt .IfK) .unset .Void,
          PState.of [] false) ∧
      Tree.undef ≠ leaf (tk .ID "a") ∧ Tree.undef ≠ leaf (tk .ID "b") := by
  refine ⟨by decide, by decide, by decide⟩

theorem varlist_loop_at_SEMI (fuel : Nat) :
    ∀ (t : Tree) (st : PState), st.token = .SEMI → varlist_loop fuel t st = none := by
  induction fuel with
  | zero => intro t st _; rfl
  | succ fuel ih =>
    intro t st h
    rw [varlist_loop]
    simp only [h, match_, syntaxError, ne_eq, reduceCtorEq, not_false_eq_true, and_self,
      if_true, if_false]
    exact ih _ _ rfl

/-- C8: on `int x, y; write x` the production `program` never returns.  The loop of `varlist`
stops only at `ENDFILE`, `END`, `ELSE` or `UNTIL`; at the `;` that ends the list both of its
`match` calls fail without consuming anything, so it runs for ever, whatever the fuel. -/
theorem program_declaration_diverges (fuel : Nat) :
    program fuel (PState.of declExample false) = none := by
  cases fuel with
  | zero => rfl
  | succ fuel =>
    simp [program, declarations, decl, type_specifier, declExample, tk, PState.of_cons, match_,
      PState.getToken_eq_of, newDefineNode, Tree.setAttr, Tree.setType, Tree.isNull, Tree.type,
      varlist, varlist_loop, varlist_loop_at_SEMI]

/-- C9: for every current token that cannot start a statement, `statement` sets `Error`, calls
`getToken` exactly once and returns the empty tree; and unless the token that follows ends the
sequence, `stmt_sequence` goes on with `match(SEMI)` and the statements after it, returning
exactly what it returns when started there (so those statements make up the returned chain). -/
theorem statement_unexpected_token (fuel : Nat) (st : PState)
    (hbad : ¬ startsStatement st.token) :
    statement (fuel + 1) st = some (.null, (syntaxError st).getToken) ∧
      ((syntaxError st).getToken).Error = true ∧
      ((syntaxError st).getToken).rest = st.rest.tail ∧
      (¬ endsSequence ((syntaxError st).getToken).token = true →
        stmt_sequence (fuel + 2) st =
          stmt_sequence (fuel + 1) (match_ .SEMI (syntaxError st).getToken)) := by
  have hs : ∀ k, statement (k + 1) st = some (.null, (syntaxError st).getToken) := by
    intro k
    simp only [startsStatement, not_or] at hbad
    obtain ⟨h1, h2, h3, h4, h5, h6⟩ := hbad
    rw [statement]
    split <;> simp_all
  refine ⟨hs fuel, ?_, ?_, ?_⟩
  · cases h : st.rest <;> simp [PState.getToken, syntaxError, h]
  · cases h : st.rest <;> simp [PState.getToken, syntaxError, h]
  · intro hends
    rw [stmt_sequence, hs fuel]
    simp only []
    rw [stmt_sequence_loop, if_neg hends, stmt_sequence]
    cases statement fuel (match_ .SEMI (syntaxError st).getToken) with
    | none => rfl
    | some r =>
      obtain ⟨q, st1⟩ := r
      cases q <;> simp [link, Tree.isNull]

theorem statement_unexpected_token_witness :
    (¬ startsStatement
        (PState.of [tk .PLUS "+", tk .SEMI ";", tk .READ "read", tk .ID "x"] false).token) ∧
      (statement (0 + 1)
            (PState.of [tk .PLUS "+", tk .SEMI ";", tk .READ "read", tk .ID "x"] false) =
          some (.null, PState.of [tk .SEMI ";", tk .READ "read", tk .ID "x"] true)) ∧
      stmt_sequence (1 + 2)
          (PState.of [tk .PLUS "+", tk .SEMI ";", tk .READ "read", tk .ID "x"] false) =
        stmt_sequence (1 + 1) (PState.of [tk .READ "read", tk .ID "x"] true) ∧
      stmt_sequence (1 + 2)
          (PState.of [tk .PLUS "+", tk .SEMI ";", tk .READ "read", tk .ID "x"] false) =
        some (.node .null .null .null .null .StmtK (.stmt .ReadK) (.name "x".toList) .Void,
          PState.of [] true) :=
  ⟨by decide,
    (statement_unexpected_token 0
      (PState.of [tk .PLUS "+", tk .SEMI ";", tk .READ "read", tk .ID "x"] false)
      (by decide)).1,
    (statement_unexpected_token 1
      (PState.of [tk .PLUS "+", tk .SEMI ";", tk .READ "read", tk .ID "x"] false)
      (by decide)).2.2.2 (by decide),
    by decide⟩

/-! ## Parser: termination -/

theorem left_getToken (st : PState) : st.getToken.left ≤ st.left - 1 := by
  cases h : st.rest with
  | nil => simp [PState.getToken, PState.left, h]
  | cons a r =>
    simp only [PState.getToken, PState.left, h, List.length_cons]
    split <;> split <;> omega

theorem left_syntaxError (st : PState) : (syntaxError st).left = st.left := rfl

theorem left_match_le (e : TokenType) (st : PState) : (match_ e st).left ≤ st.left := by
  rw [match_]
  split
  · exact le_trans (left_getToken st) (Nat.sub_le _ _)
  · exact le_of_eq (left_syntaxError st)

theorem left_match_of_eq (e : TokenType) (st : PState) (h : st.token = e) :
    (match_ e st).left ≤ st.left - 1 := by
  rw [match_, if_pos h]
  exact left_getToken st

theorem left_pos (st : PState) (h : st.token ≠ .ENDFILE) : 1 ≤ st.left := by
  simp [PState.left, h]

theorem ReturnsWithin.some (t : Tree) (st : PState) (bound : Nat) (h : st.left ≤ bound) :
    ReturnsWithin (some (t, st)) bound :=
  ⟨t, st, rfl, h⟩

theorem good_zero : Good 0 := by
  constructor <;> intros <;> omega


theorem factor_good (fuel : Nat) (ih : Good fuel) (st : PState)
    (h : 16 * st.left + 1 ≤ fuel + 1) : ReturnsWithin (factor (fuel + 1) st) st.left := by
  rw [factor]
  split
  · exact ReturnsWithin.some _ _ _ (left_match_le _ _)
  · exact ReturnsWithin.some _ _ _ (left_match_le _ _)
  · next hk =>
    have h1 := left_match_of_eq .LPAREN st hk
    have h2 := left_pos st (by simp [hk])
    obtain ⟨t, st1, e1, l1⟩ := ih.exp_ret (match_ .LPAREN st) (by omega)
    rw [e1]
    exact ReturnsWithin.some _ _ _ (le_trans (left_match_le _ _) (by omega))
  · exact ReturnsWithin.some _ _ _ (le_trans (left_getToken _) (Nat.sub_le _ _))

theorem term_loop_good (fuel : Nat) (ih : Good fuel) (t : Tree) (st : PState)
    (h : 16 * st.left + 1 ≤ fuel + 1) : ReturnsWithin (term_loop (fuel + 1) t st) st.left := by
  rw [term_loop]
  split
  · next hc =>
    have h1 := left_match_of_eq st.token st rfl
    have h2 := left_pos st (by rcases hc with hc | hc <;> simp [hc])
    obtain ⟨r, st1, e1, l1⟩ := ih.factor_ret (match_ st.token st) (by omega)
    rw [e1]
    obtain ⟨r2, st2, e2, l2⟩ := ih.term_loop_ret
      ((((newExpNode .OpK).setChild0 t).setAttr (.op st.token)).setChild1 r) st1 (by omega)
    exact ⟨r2, st2, e2, by omega⟩
  · exact ReturnsWithin.some _ _ _ (le_refl _)

theorem term_good (fuel : Nat) (ih : Good fuel) (st : PState)
    (h : 16 * st.left + 2 ≤ fuel + 1) : ReturnsWithin (term (fuel + 1) st) st.left := by
  rw [term]
  obtain ⟨t, st1, e1, l1⟩ := ih.factor_ret st (by omega)
  rw [e1]
  obtain ⟨r2, st2, e2, l2⟩ := ih.term_loop_ret t st1 (by omega)
  exact ⟨r2, st2, e2, by omega⟩

theorem arithmetic_exp_loop_good (fuel : Nat) (ih : Good fuel) (t : Tree) (st : PState)
    (h : 16 * st.left + 1 ≤ fuel + 1) : ReturnsWithin (arithmetic_exp_loop (fuel + 1) t st) st.left := by
  rw [arithmetic_exp_loop]
  split
  · next hc =>
    have h1 := left_match_of_eq st.token st rfl
    have h2 := left_pos st (by rcases hc with hc | hc <;> simp [hc])
    obtain ⟨r, st1, e1, l1⟩ := ih.term_ret (match_ st.token st) (by omega)
    rw [e1]
    obtain ⟨r2, st2, e2, l2⟩ := ih.arithmetic_exp_loop_ret
      ((((newExpNode .OpK).setChild0 t).setAttr (.op st.token)).setChild1 r) st1 (by omega)
    exact ⟨r2, st2, e2, by omega⟩
  · exact ReturnsWithin.some _ _ _ (le_refl _)

theorem arithmetic_exp_good (fuel : Nat) (ih : Good fuel) (st : PState)
    (h : 16 * st.left + 3 ≤ fuel + 1) : ReturnsWithin (arithmetic_exp (fuel + 1) st) st.left := by
  rw [arithmetic_exp]
  obtain ⟨t, st1, e1, l1⟩ := ih.term_ret st (by omega)
  rw [e1]
  obtain ⟨r2, st2, e2, l2⟩ := ih.arithmetic_exp_loop_ret t st1 (by omega)
  exact ⟨r2, st2, e2, by omega⟩

theorem comparison_exp_good (fuel : Nat) (ih : Good fuel) (st : PState)
    (h : 16 * st.left + 4 ≤ fuel + 1) :
    ReturnsWithin (comparison_exp (fuel + 1) st) st.left := by
  rw [comparison_exp]
  obtain ⟨t, st1, e1, l1⟩ := ih.arithmetic_exp_ret st (by omega)
  rw [e1]
  simp only []
  split
  · have h1 := left_match_le st1.token st1
    obtain ⟨r, st2, e2, l2⟩ := ih.arithmetic_exp_ret (match_ st1.token st1) (by omega)
    rw [e2]
    exact ReturnsWithin.some _ _ _ (by omega)
  · exact ReturnsWithin.some _ _ _ l1

theorem bfactor_good (fuel : Nat) (ih : Good fuel) (st : PState)
    (h : 16 * st.left + 5 ≤ fuel + 1) : ReturnsWithin (bfactor (fuel + 1) st) st.left := by
  rw [bfactor]
  exact ih.comparison_exp_ret st (by omega)

theorem bterm_loop_good (fuel : Nat) (ih : Good fuel) (t : Tree) (st : PState)
    (h : 16 * st.left + 1 ≤ fuel + 1) : ReturnsWithin (bterm_loop (fuel + 1) t st) st.left := by
  rw [bterm_loop]
  split
  · next hc =>
    have h1 := left_match_of_eq st.token st rfl
    have h2 := left_pos st (by simp [hc])
    obtain ⟨r, st1, e1, l1⟩ := ih.bfactor_ret (match_ st.token st) (by omega)
    rw [e1]
    obtain ⟨r2, st2, e2, l2⟩ := ih.bterm_loop_ret
      ((((newExpNode .LogicOpk).setChild0 t).setAttr (.op st.token)).setChild1 r) st1 (by omega)
    exact ⟨r2, st2, e2, by omega⟩
  · exact ReturnsWithin.some _ _ _ (le_refl _)

theorem bterm_good (fuel : Nat) (ih : Good fuel) (st : PState)
    (h : 16 * st.left + 6 ≤ fuel + 1) : ReturnsWithin (bterm (fuel + 1) st) st.left := by
  rw [bterm]
  obtain ⟨t, st1, e1, l1⟩ := ih.bfactor_ret st (by omega)
  rw [e1]
  obtain ⟨r2, st2, e2, l2⟩ := ih.bterm_loop_ret t st1 (by omega)
  exact ⟨r2, st2, e2, by omega⟩

theorem bool_exp_loop_good (fuel : Nat) (ih : Good fuel) (t : Tree) (st : PState)
    (h : 16 * st.left + 1 ≤ fuel + 1) : ReturnsWithin (bool_exp_loop (fuel + 1) t st) st.left := by
  rw [bool_exp_loop]
  split
  · next hc =>
    have h1 := left_match_of_eq st.token st rfl
    have h2 := left_pos st (by simp [hc])
    obtain ⟨r, st1, e1, l1⟩ := ih.bterm_ret (match_ st.token st) (by omega)
    rw [e1]
    obtain ⟨r2, st2, e2, l2⟩ := ih.bool_exp_loop_ret
      ((((newExpNode .LogicOpk).setChild0 t).setAttr (.op st.token)).setChild1 r) st1 (by omega)
    exact ⟨r2, st2, e2, by omega⟩
  · exact ReturnsWithin.some _ _ _ (le_refl _)

theorem bool_exp_good (fuel : Nat) (ih : Good fuel) (st : PState)
    (h : 16 * st.left + 7 ≤ fuel + 1) : ReturnsWithin (bool_exp (fuel + 1) st) st.left := by
  rw [bool_exp]
  obtain ⟨t, st1, e1, l1⟩ := ih.bterm_ret st (by omega)
  rw [e1]
  obtain ⟨r2, st2, e2, l2⟩ := ih.bool_exp_loop_ret t st1 (by omega)
  exact ⟨r2, st2, e2, by omega⟩

theorem exp_good (fuel : Nat) (ih : Good fuel) (st : PState)
    (h : 16 * st.left + 8 ≤ fuel + 1) : ReturnsWithin (exp (fuel + 1) st) st.left := by
  have key : ∀ r : Option (Tree × PState), ReturnsWithin r st.left →
      ReturnsWithin
        (match r with
          | none => none
          | some (_, st1) => some (Tree.undef, st1)) st.left := by
    rintro _ ⟨t, st1, rfl, l⟩
    exact ⟨.undef, st1, rfl, l⟩
  rw [exp]
  apply key
  split
  · exact ReturnsWithin.some _ _ _ (left_match_le _ _)
  · exact ih.arithmetic_exp_ret st (by omega)
  · exact ih.bool_exp_ret st (by omega)

theorem write_stmt_good (fuel : Nat) (ih : Good fuel) (st : PState)
    (h : 16 * st.left + 9 ≤ fuel + 1) :
    ReturnsWithin (write_stmt (fuel + 1) st) (match_ .WRITE st).left := by
  rw [write_stmt]
  have h1 := left_match_le .WRITE st
  obtain ⟨t, st1, e1, l1⟩ := ih.exp_ret (match_ .WRITE st) (by omega)
  rw [e1]
  exact ReturnsWithin.some _ _ _ l1

theorem assign_stmt_good (fuel : Nat) (ih : Good fuel) (st : PState)
    (h : 16 * st.left + 9 ≤ fuel + 1) :
    ReturnsWithin (assign_stmt (fuel + 1) st) (match_ .ID st).left := by
  rw [assign_stmt]
  have h1 := left_match_le .ID st
  have h2 := left_match_le .ASSIGN (match_ .ID st)
  obtain ⟨t, st1, e1, l1⟩ := ih.exp_ret (match_ .ASSIGN (match_ .ID st)) (by omega)
  rw [e1]
  exact ReturnsWithin.some _ _ _ (by omega)

theorem repeat_stmt_good (fuel : Nat) (ih : Good fuel) (st : PState) (hk : st.token = .REPEAT)
    (h : 16 * st.left + 1 ≤ fuel + 1) :
    ReturnsWithin (repeat_stmt (fuel + 1) st) (st.left - 1) := by
  rw [repeat_stmt]
  have h1 := left_match_of_eq .REPEAT st hk
  have h2 := left_pos st (by simp [hk])
  obtain ⟨b, st1, e1, l1⟩ := ih.stmt_sequence_ret (match_ .REPEAT st) (by omega)
  rw [e1]
  simp only []
  have h3 := left_match_le .UNTIL st1
  obtain ⟨c, st2, e2, l2⟩ := ih.bool_exp_ret (match_ .UNTIL st1) (by omega)
  rw [e2]
  exact ReturnsWithin.some _ _ _ (by omega)

theorem while_stmt_good (fuel : Nat) (ih : Good fuel) (st : PState) (hk : st.token = .WHILE)
    (h : 16 * st.left + 1 ≤ fuel + 1) :
    ReturnsWithin (while_stmt (fuel + 1) st) (st.left - 1) := by
  rw [while_stmt]
  have h1 := left_match_of_eq .WHILE st hk
  have h2 := left_pos st (by simp [hk])
  obtain ⟨c, st1, e1, l1⟩ := ih.bool_exp_ret (match_ .WHILE st) (by omega)
  rw [e1]
  simp only []
  have h3 := left_match_le .DO st1
  obtain ⟨b, st2, e2, l2⟩ := ih.stmt_sequence_ret (match_ .DO st1) (by omega)
  rw [e2]
  have h4 := left_match_le .END st2
  exact ReturnsWithin.some _ _ _ (by omega)

theorem if_stmt_good (fuel : Nat) (ih : Good fuel) (st : PState) (hk : st.token = .IF)
    (h : 16 * st.left + 1 ≤ fuel + 1) :
    ReturnsWithin (if_stmt (fuel + 1) st) (st.left - 1) := by
  rw [if_stmt]
  have h1 := left_match_of_eq .IF st hk
  have h2 := left_pos st (by simp [hk])
  obtain ⟨c, st1, e1, l1⟩ := ih.bool_exp_ret (match_ .IF st) (by omega)
  rw [e1]
  simp only []
  have h3 := left_match_le .THEN st1
  obtain ⟨b, st2, e2, l2⟩ := ih.stmt_sequence_ret (match_ .THEN st1) (by omega)
  rw [e2]
  simp only []
  split
  · have h4 := left_match_le .ELSE st2
    obtain ⟨e, st3, e3, l3⟩ := ih.stmt_sequence_ret (match_ .ELSE st2) (by omega)
    rw [e3]
    have h5 := left_match_le .END st3
    exact ReturnsWithin.some _ _ _ (by omega)
  · have h5 := left_match_le .END st2
    exact ReturnsWithin.some _ _ _ (by omega)

theorem statement_good (fuel : Nat) (ih : Good fuel) (st : PState)
    (h : 16 * st.left + 10 ≤ fuel + 1) :
    ReturnsWithin (statement (fuel + 1) st) (st.left - 1) := by
  rw [statement]
  split
  · next hk => exact ih.if_stmt_ret st hk (by omega)
  · next hk => exact ih.repeat_stmt_ret st hk (by omega)
  · next hk =>
    obtain ⟨t, st1, e1, l1⟩ := ih.assign_stmt_ret st (by omega)
    have h1 := left_match_of_eq .ID st hk
    exact ⟨t, st1, e1, by omega⟩
  · next hk =>
    have h1 := left_match_of_eq .READ st hk
    have h2 := left_match_le .ID (match_ .READ st)
    exact ReturnsWithin.some _ _ _
      (show (match_ .ID (match_ .READ st)).left ≤ st.left - 1 by omega)
  · next hk =>
    obtain ⟨t, st1, e1, l1⟩ := ih.write_stmt_ret st (by omega)
    have h1 := left_match_of_eq .WRITE st hk
    exact ⟨t, st1, e1, by omega⟩
  · next hk => exact ih.while_stmt_ret st hk (by omega)
  · exact ReturnsWithin.some _ _ _ (left_getToken _)

theorem stmt_sequence_loop_good (fuel : Nat) (ih : Good fuel) (t : Tree) (st : PState)
    (h : 16 * st.left + 11 ≤ fuel + 1) :
    ReturnsWithin (stmt_sequence_loop (fuel + 1) t st) st.left := by
  rw [stmt_sequence_loop]
  split
  · exact ReturnsWithin.some _ _ _ (le_refl _)
  · next hc =>
    have h1 := left_match_le .SEMI st
    have h2 := left_pos st (by intro hk; simp [endsSequence, hk] at hc)
    obtain ⟨q, st1, e1, l1⟩ := ih.statement_ret (match_ .SEMI st) (by omega)
    rw [e1]
    obtain ⟨r2, st2, e2, l2⟩ := ih.stmt_sequence_loop_ret (link t q) st1 (by omega)
    exact ⟨r2, st2, e2, by omega⟩

theorem stmt_sequence_good (fuel : Nat) (ih : Good fuel) (st : PState)
    (h : 16 * st.left + 12 ≤ fuel + 1) :
    ReturnsWithin (stmt_sequence (fuel + 1) st) st.left := by
  rw [stmt_sequence]
  obtain ⟨t, st1, e1, l1⟩ := ih.statement_ret st (by omega)
  rw [e1]
  obtain ⟨r2, st2, e2, l2⟩ := ih.stmt_sequence_loop_ret t st1 (by omega)
  exact ⟨r2, st2, e2, by omega⟩

theorem good_all : ∀ fuel, Good fuel := by
  intro fuel
  induction fuel with
  | zero => exact good_zero
  | succ fuel ih =>
    exact
      { factor_ret := factor_good fuel ih
        term_loop_ret := term_loop_good fuel ih
        term_ret := term_good fuel ih
        arithmetic_exp_loop_ret := arithmetic_exp_loop_good fuel ih
        arithmetic_exp_ret := arithmetic_exp_good fuel ih
        comparison_exp_ret := comparison_exp_good fuel ih
        bfactor_ret := bfactor_good fuel ih
        bterm_loop_ret := bterm_loop_good fuel ih
        bterm_ret := bterm_good fuel ih
        bool_exp_loop_ret := bool_exp_loop_good fuel ih
        bool_exp_ret := bool_exp_good fuel ih
        exp_ret := exp_good fuel ih
        write_stmt_ret := write_stmt_good fuel ih
        assign_stmt_ret := assign_stmt_good fuel ih
        repeat_stmt_ret := repeat_stmt_good fuel ih
        if_stmt_ret := if_stmt_good fuel ih
        while_stmt_ret := while_stmt_good fuel ih
        statement_ret := statement_good fuel ih
        stmt_sequence_loop_ret := stmt_sequence_loop_good fuel ih
        stmt_sequence_ret := stmt_sequence_good fuel ih }

theorem left_getToken_le_rest (st : PState) : st.getToken.left ≤ 2 * st.rest.length := by
  have h := left_getToken st
  have h2 : st.left ≤ 2 * st.rest.length + 1 := by
    simp only [PState.left]
    split <;> omega
  omega

/-! ## Parser: more fuel does not change a result -/

theorem stable_zero : Stable 0 := by
  constructor <;> intros <;> simp_all [factor, term_loop, term, arithmetic_exp_loop,
    arithmetic_exp, comparison_exp, bfactor, bterm_loop, bterm, bool_exp_loop, bool_exp, exp,
    write_stmt, assign_stmt, repeat_stmt, if_stmt, while_stmt, statement, stmt_sequence_loop,
    stmt_sequence]

theorem factor_stable (fuel : Nat) (ih : Stable fuel) (st : PState) (r : Tree × PState)
    (h : factor (fuel + 1) st = some r) : factor (fuel + 2) st = some r := by
  rw [factor] at h ⊢
  revert h
  cases hk : st.token <;> intro h <;> try exact h
  cases h1 : exp fuel (match_ .LPAREN st) with
  | none => simp only [h1] at h; exact absurd h (by simp)
  | some x =>
    obtain ⟨q, st1⟩ := x
    simp only [h1] at h
    simp only [ih.exp_st _ _ h1]
    exact h

theorem term_loop_stable (fuel : Nat) (ih : Stable fuel) (t : Tree) (st : PState)
    (r : Tree × PState) (h : term_loop (fuel + 1) t st = some r) :
    term_loop (fuel + 2) t st = some r := by
  rw [term_loop] at h ⊢
  split at h
  · next hc =>
    rw [if_pos hc]
    cases h1 : factor fuel (match_ st.token st) with
    | none => rw [h1] at h; exact absurd h (by simp)
    | some x =>
      obtain ⟨q, st1⟩ := x
      rw [h1] at h
      rw [ih.factor_st _ _ h1]
      exact ih.term_loop_st _ _ _ h
  · next hc =>
    rw [if_neg hc]
    exact h

theorem term_stable (fuel : Nat) (ih : Stable fuel) (st : PState) (r : Tree × PState)
    (h : term (fuel + 1) st = some r) : term (fuel + 2) st = some r := by
  rw [term] at h ⊢
  cases h1 : factor fuel st with
  | none => rw [h1] at h; exact absurd h (by simp)
  | some x =>
    obtain ⟨q, st1⟩ := x
    rw [h1] at h
    rw [ih.factor_st _ _ h1]
    exact ih.term_loop_st _ _ _ h

theorem arithmetic_exp_loop_stable (fuel : Nat) (ih : Stable fuel) (t : Tree) (st : PState)
    (r : Tree × PState) (h : arithmetic_exp_loop (fuel + 1) t st = some r) :
    arithmetic_exp_loop (fuel + 2) t st = some r := by
  rw [arithmetic_exp_loop] at h ⊢
  split at h
  · next hc =>
    rw [if_pos hc]
    cases h1 : term fuel (match_ st.token st) with
    | none => rw [h1] at h; exact absurd h (by simp)
    | some x =>
      obtain ⟨q, st1⟩ := x
      rw [h1] at h
      rw [ih.term_st _ _ h1]
      exact ih.arithmetic_exp_loop_st _ _ _ h
  · next hc =>
    rw [if_neg hc]
    exact h

theorem arithmetic_exp_stable (fuel : Nat) (ih : Stable fuel) (st : PState) (r : Tree × PState)
    (h : arithmetic_exp (fuel + 1) st = some r) : arithmetic_exp (fuel + 2) st = some r := by
  rw [arithmetic_exp] at h ⊢
  cases h1 : term fuel st with
  | none => rw [h1] at h; exact absurd h (by simp)
  | some x =>
    obtain ⟨q, st1⟩ := x
    rw [h1] at h
    rw [ih.term_st _ _ h1]
    exact ih.arithmetic_exp_loop_st _ _ _ h

theorem comparison_exp_stable (fuel : Nat) (ih : Stable fuel) (st : PState) (r : Tree × PState)
    (h : comparison_exp (fuel + 1) st = some r) : comparison_exp (fuel + 2) st = some r := by
  rw [comparison_exp] at h ⊢
  cases h1 : arithmetic_exp fuel st with
  | none => rw [h1] at h; exact absurd h (by simp)
  | some x =>
    obtain ⟨q, st1⟩ := x
    rw [h1] at h
    rw [ih.arithmetic_exp_st _ _ h1]
    simp only [] at h ⊢
    split at h
    · next hc =>
      rw [if_pos hc]
      cases h2 : arithmetic_exp fuel (match_ st1.token st1) with
      | none => simp only [h2] at h; exact absurd h (by simp)
      | some y =>
        obtain ⟨q2, st2⟩ := y
        simp only [h2] at h
        simp only [ih.arithmetic_exp_st _ _ h2]
        exact h
    · next hc =>
      rw [if_neg hc]
      exact h

theorem bfactor_stable (fuel : Nat) (ih : Stable fuel) (st : PState) (r : Tree × PState)
    (h : bfactor (fuel + 1) st = some r) : bfactor (fuel + 2) st = some r := by
  rw [bfactor] at h ⊢
  exact ih.comparison_exp_st _ _ h

theorem bterm_loop_stable (fuel : Nat) (ih : Stable fuel) (t : Tree) (st : PState)
    (r : Tree × PState) (h : bterm_loop (fuel + 1) t st = some r) :
    bterm_loop (fuel + 2) t st = some r := by
  rw [bterm_loop] at h ⊢
  split at h
  · next hc =>
    rw [if_pos hc]
    cases h1 : bfactor fuel (match_ st.token st) with
    | none => rw [h1] at h; exact absurd h (by simp)
    | some x =>
      obtain ⟨q, st1⟩ := x
      rw [h1] at h
      rw [ih.bfactor_st _ _ h1]
      exact ih.bterm_loop_st _ _ _ h
  · next hc =>
    rw [if_neg hc]
    exact h

theorem bterm_stable (fuel : Nat) (ih : Stable fuel) (st : PState) (r : Tree × PState)
    (h : bterm (fuel + 1) st = some r) : bterm (fuel + 2) st = some r := by
  rw [bterm] at h ⊢
  cases h1 : bfactor fuel st with
  | none => rw [h1] at h; exact absurd h (by simp)
  | some x =>
    obtain ⟨q, st1⟩ := x
    rw [h1] at h
    rw [ih.bfactor_st _ _ h1]
    exact ih.bterm_loop_st _ _ _ h

theorem bool_exp_loop_stable (fuel : Nat) (ih : Stable fuel) (t : Tree) (st : PState)
    (r : Tree × PState) (h : bool_exp_loop (fuel + 1) t st = some r) :
    bool_exp_loop (fuel + 2) t st = some r := by
  rw [bool_exp_loop] at h ⊢
  split at h
  · next hc =>
    rw [if_pos hc]
    cases h1 : bterm fuel (match_ st.token st) with
    | none => rw [h1] at h; exact absurd h (by simp)
    | some x =>
      obtain ⟨q, st1⟩ := x
      rw [h1] at h
      rw [ih.bterm_st _ _ h1]
      exact ih.bool_exp_loop_st _ _ _ h
  · next hc =>
    rw [if_neg hc]
    exact h

theorem bool_exp_stable (fuel : Nat) (ih : Stable fuel) (st : PState) (r : Tree × PState)
    (h : bool_exp (fuel + 1) st = some r) : bool_exp (fuel + 2) st = some r := by
  rw [bool_exp] at h ⊢
  cases h1 : bterm fuel st with
  | none => rw [h1] at h; exact absurd h (by simp)
  | some x =>
    obtain ⟨q, st1⟩ := x
    rw [h1] at h
    rw [ih.bterm_st _ _ h1]
    exact ih.bool_exp_loop_st _ _ _ h

theorem exp_stable (fuel : Nat) (ih : Stable fuel) (st : PState) (r : Tree × PState)
    (h : exp (fuel + 1) st = some r) : exp (fuel + 2) st = some r := by
  have key : ∀ a b : Option (Tree × PState), (∀ x, a = some x → b = some x) →
      (match a with
        | none => none
        | some (_, st1) => some (Tree.undef, st1)) = some r →
      (match b with
        | none => none
        | some (_, st1) => some (Tree.undef, st1)) = some r := by
    intro a b hab ha
    cases a with
    | none => exact absurd ha (by simp)
    | some x => rw [hab x rfl]; exact ha
  rw [exp] at h ⊢
  refine key _ _ ?_ h
  intro x hx
  revert hx
  cases hk : st.token <;> intro hx <;>
    first
    | exact hx
    | exact ih.arithmetic_exp_st _ _ hx
    | exact ih.bool_exp_st _ _ hx

theorem write_stmt_stable (fuel : Nat) (ih : Stable fuel) (st : PState) (r : Tree × PState)
    (h : write_stmt (fuel + 1) st = some r) : write_stmt (fuel + 2) st = some r := by
  rw [write_stmt] at h ⊢
  cases h1 : exp fuel (match_ .WRITE st) with
  | none => simp only [h1] at h; exact absurd h (by simp)
  | some x =>
    obtain ⟨q, st1⟩ := x
    simp only [h1] at h
    simp only [ih.exp_st _ _ h1]
    exact h

theorem assign_stmt_stable (fuel : Nat) (ih : Stable fuel) (st : PState) (r : Tree × PState)
    (h : assign_stmt (fuel + 1) st = some r) : assign_stmt (fuel + 2) st = some r := by
  rw [assign_stmt] at h ⊢
  cases h1 : exp fuel (match_ .ASSIGN (match_ .ID st)) with
  | none => simp only [h1] at h; exact absurd h (by simp)
  | some x =>
    obtain ⟨q, st1⟩ := x
    simp only [h1] at h
    simp only [ih.exp_st _ _ h1]
    exact h

theorem repeat_stmt_stable (fuel : Nat) (ih : Stable fuel) (st : PState) (r : Tree × PState)
    (h : repeat_stmt (fuel + 1) st = some r) : repeat_stmt (fuel + 2) st = some r := by
  rw [repeat_stmt] at h ⊢
  cases h1 : stmt_sequence fuel (match_ .REPEAT st) with
  | none => simp only [h1] at h; exact absurd h (by simp)
  | some x =>
    obtain ⟨b, st1⟩ := x
    simp only [h1] at h
    simp only [ih.stmt_sequence_st _ _ h1]
    cases h2 : bool_exp fuel (match_ .UNTIL st1) with
    | none => simp only [h2] at h; exact absurd h (by simp)
    | some y =>
      obtain ⟨c, st2⟩ := y
      simp only [h2] at h
      simp only [ih.bool_exp_st _ _ h2]
      exact h

theorem while_stmt_stable (fuel : Nat) (ih : Stable fuel) (st : PState) (r : Tree × PState)
    (h : while_stmt (fuel + 1) st = some r) : while_stmt (fuel + 2) st = some r := by
  rw [while_stmt] at h ⊢
  cases h1 : bool_exp fuel (match_ .WHILE st) with
  | none => simp only [h1] at h; exact absurd h (by simp)
  | some x =>
    obtain ⟨c, st1⟩ := x
    simp only [h1] at h
    simp only [ih.bool_exp_st _ _ h1]
    cases h2 : stmt_sequence fuel (match_ .DO st1) with
    | none => simp only [h2] at h; exact absurd h (by simp)
    | some y =>
      obtain ⟨b, st2⟩ := y
      simp only [h2] at h
      simp only [ih.stmt_sequence_st _ _ h2]
      exact h

theorem if_stmt_stable (fuel : Nat) (ih : Stable fuel) (st : PState) (r : Tree × PState)
    (h : if_stmt (fuel + 1) st = some r) : if_stmt (fuel + 2) st = some r := by
  rw [if_stmt] at h ⊢
  cases h1 : bool_exp fuel (match_ .IF st) with
  | none => simp only [h1] at h; exact absurd h (by simp)
  | some x =>
    obtain ⟨c, st1⟩ := x
    simp only [h1] at h
    simp only [ih.bool_exp_st _ _ h1]
    cases h2 : stmt_sequence fuel (match_ .THEN st1) with
    | none => simp only [h2] at h; exact absurd h (by simp)
    | some y =>
      obtain ⟨b, st2⟩ := y
      simp only [h2] at h
      simp only [ih.stmt_sequence_st _ _ h2]
      split at h
      · next hc =>
        rw [if_pos hc]
        cases h3 : stmt_sequence fuel (match_ .ELSE st2) with
        | none => simp only [h3] at h; exact absurd h (by simp)
        | some z =>
          obtain ⟨e, st3⟩ := z
          simp only [h3] at h
          simp only [ih.stmt_sequence_st _ _ h3]
          exact h
      · next hc =>
        rw [if_neg hc]
        exact h

theorem statement_stable (fuel : Nat) (ih : Stable fuel) (st : PState) (r : Tree × PState)
    (h : statement (fuel + 1) st = some r) : statement (fuel + 2) st = some r := by
  rw [statement] at h ⊢
  revert h
  cases hk : st.token <;> intro h <;>
    first
    | exact h
    | exact ih.if_stmt_st _ _ h
    | exact ih.repeat_stmt_st _ _ h
    | exact ih.assign_stmt_st _ _ h
    | exact ih.write_stmt_st _ _ h
    | exact ih.while_stmt_st _ _ h

theorem stmt_sequence_loop_stable (fuel : Nat) (ih : Stable fuel) (t : Tree) (st : PState)
    (r : Tree × PState) (h : stmt_sequence_loop (fuel + 1) t st = some r) :
    stmt_sequence_loop (fuel + 2) t st = some r := by
  rw [stmt_sequence_loop] at h ⊢
  split at h
  · next hc =>
    rw [if_pos hc]
    exact h
  · next hc =>
    rw [if_neg hc]
    cases h1 : statement fuel (match_ .SEMI st) with
    | none => rw [h1] at h; exact absurd h (by simp)
    | some x =>
      obtain ⟨q, st1⟩ := x
      rw [h1] at h
      rw [ih.statement_st _ _ h1]
      exact ih.stmt_sequence_loop_st _ _ _ h

theorem stmt_sequence_stable (fuel : Nat) (ih : Stable fuel) (st : PState) (r : Tree × PState)
    (h : stmt_sequence (fuel + 1) st = some r) : stmt_sequence (fuel + 2) st = some r := by
  rw [stmt_sequence] at h ⊢
  cases h1 : statement fuel st with
  | none => rw [h1] at h; exact absurd h (by simp)
  | some x =>
    obtain ⟨q, st1⟩ := x
    rw [h1] at h
    rw [ih.statement_st _ _ h1]
    exact ih.stmt_sequence_loop_st _ _ _ h

theorem stable_all : ∀ fuel, Stable fuel := by
  intro fuel
  induction fuel with
  | zero => exact stable_zero
  | succ fuel ih =>
    exact
      { factor_st := factor_stable fuel ih
        term_loop_st := term_loop_stable fuel ih
        term_st := term_stable fuel ih
        arithmetic_exp_loop_st := arithmetic_exp_loop_stable fuel ih
        arithmetic_exp_st := arithmetic_exp_stable fuel ih
        comparison_exp_st := comparison_exp_stable fuel ih
        bfactor_st := bfactor_stable fuel ih
        bterm_loop_st := bterm_loop_stable fuel ih
        bterm_st := bterm_stable fuel ih
        bool_exp_loop_st := bool_exp_loop_stable fuel ih
        bool_exp_st := bool_exp_stable fuel ih
        exp_st := exp_stable fuel ih
        write_stmt_st := write_stmt_stable fuel ih
        assign_stmt_st := assign_stmt_stable fuel ih
        repeat_stmt_st := repeat_stmt_stable fuel ih
        if_stmt_st := if_stmt_stable fuel ih
        while_stmt_st := while_stmt_stable fuel ih
        statement_st := statement_stable fuel ih
        stmt_sequence_loop_st := stmt_sequence_loop_stable fuel ih
        stmt_sequence_st := stmt_sequence_stable fuel ih }

theorem stmt_sequence_stable_le (st : PState) (r : Tree × PState) (fuel : Nat)
    (h : stmt_sequence fuel st = some r) :
    ∀ fuel1, fuel ≤ fuel1 → stmt_sequence fuel1 st = some r := by
  intro fuel1 hle
  induction hle with
  | refl => exact h
  | step _ ih => exact (stable_all _).stmt_sequence_st _ _ ih

theorem parse_stable_le (st : PState) (r : Tree × PState) (fuel : Nat)
    (h : parse fuel st = some r) : ∀ fuel1, fuel ≤ fuel1 → parse fuel1 st = some r := by
  intro fuel1 hle
  rw [parse] at h ⊢
  cases h1 : stmt_sequence fuel st.getToken with
  | none => rw [h1] at h; exact absurd h (by simp)
  | some x =>
    rw [h1] at h
    rw [stmt_sequence_stable_le _ _ _ h1 fuel1 hle]
    exact h

/-- C10: for every state of the globals, so for every finite token stream followed by
end-of-file tokens, `parse` returns a tree, the same for every fuel that covers 32 units for
each token of the stream plus 12, and it leaves no more tokens than it found: every loop pass
and every recursive descent calls `getToken` at least once, which shortens the stream or leaves
the current token at `ENDFILE`, where every loop stops. -/
theorem parse_terminates (st : PState) :
    ∃ t st1, (∀ fuel, 32 * st.rest.length + 12 ≤ fuel → parse fuel st = some (t, st1)) ∧
      st1.rest.length ≤ st.rest.length := by
  have h1 := left_getToken_le_rest st
  obtain ⟨t, st1, e1, l1⟩ :=
    (good_all (32 * st.rest.length + 12)).stmt_sequence_ret st.getToken (by omega)
  have h2 : 2 * st1.rest.length ≤ st1.left := by simp [PState.left]
  have e2 : parse (32 * st.rest.length + 12) st =
      some (t, if st1.token ≠ .ENDFILE then syntaxError st1 else st1) := by
    simp [parse, e1]
  refine ⟨t, if st1.token ≠ .ENDFILE then syntaxError st1 else st1, ?_, ?_⟩
  · intro fuel hfuel
    exact parse_stable_le st _ _ e2 fuel hfuel
  · split
    · show st1.rest.length ≤ st.rest.length
      omega
    · omega

theorem parse_terminates_witness :
    32 * (PState.initial ifExample).rest.length + 12 ≤ 364 ∧
      ∃ t st1, parse 364 (PState.initial ifExample) = some (t, st1) ∧
        st1.rest.length ≤ (PState.initial ifExample).rest.length :=
  ⟨by decide,
    match parse_terminates (PState.initial ifExample) with
    | ⟨t, st1, h, l⟩ => ⟨t, st1, h 364 (by decide), l⟩⟩

/-! ## Parser: declarations, `exp`, `match`, `while`, precedence -/

/-- C11: on the identifier list `x, y` followed by the end of the file, `varlist(Integer)`
returns the chain of two Identifier nodes, but only the first carries the declared type: the
node made inside the loop is linked as `newExpNode(IdK)` left it, with type `Void` (and without
a name). -/
theorem varlist_second_identifier_untyped :
    varlist 3 .Integer (PState.of [tk .ID "x", tk .COMMA ",", tk .ID "y"] false) =
        some (.node .null .null .null
            (.node .null .null .null .null .ExpK (.exp .IdK) .unset .Void)
            .ExpK (.exp .IdK) (.name "x".toList) .Integer,
          PState.of [] false) ∧
      (Tree.node .null .null .null .null .ExpK (.exp .IdK) .unset .Void).type ≠
        ExpType.Integer := by
  refine ⟨by decide, by decide⟩

/-- For a current token other than `STR` and `ERROR`, `exp` leaves the globals as `bool_exp`
does (same tokens consumed, same error flag); only the returned value differs. -/
theorem exp_state_eq_bool_exp (fuel : Nat) (st : PState) (h1 : st.token ≠ .STR)
    (h2 : st.token ≠ .ERROR) :
    (exp (fuel + 1) st).map Prod.snd = (bool_exp fuel st).map Prod.snd := by
  rw [exp]
  have h : (match st.token with
      | .STR => some (string_exp st)
      | .ERROR => arithmetic_exp fuel st
      | _ => bool_exp fuel st) = bool_exp fuel st := by
    split
    · next hk => exact absurd hk h1
    · next hk => exact absurd hk h2
    · rfl
  simp only [h]
  cases bool_exp fuel st with
  | none => rfl
  | some r => rfl

/-- C12: `exp` does not behave as `bool_exp`.  On the single identifier `a`, `bool_exp` returns
the Identifier leaf while `exp`, which ends with `return;`, hands back an indeterminate value;
and on the tokens `? < 3`, where `?` is an `ERROR` token, the label `case PLUS||MINUS:` (the
constant 1, which is `ERROR`) sends `exp` to `arithmetic_exp`, which stops in front of `<`,
while `bool_exp` goes on and consumes `< 3`. -/
theorem exp_differs_from_bool_exp :
    bool_exp 10 (PState.of [tk .ID "a"] false) =
        some (leaf (tk .ID "a"), PState.of [] false) ∧
      exp 11 (PState.of [tk .ID "a"] false) = some (.undef, PState.of [] false) ∧
      Tree.undef ≠ leaf (tk .ID "a") ∧
      bool_exp 10 (PState.of [tk .ERROR "?", tk .LT "<", tk .NUM "3"] false) =
        some (opNode .LT .null (leaf (tk .NUM "3")), PState.of [] true) ∧
      exp 11 (PState.of [tk .ERROR "?", tk .LT "<", tk .NUM "3"] false) =
        some (.undef, PState.of [tk .LT "<", tk .NUM "3"] true) := by
  refine ⟨by decide, by decide, by decide, by decide, by decide⟩

/-- C13: `match(expected)`.  When the current token is the expected one, the globals become
what one call of `getToken` makes of them: the next token of the scanner is current, one token
less is ahead, and `Error` is unchanged.  Otherwise the current token, its lexeme and the
tokens ahead stay as they are and `Error` is set. -/
theorem match_advances_or_flags (expected : TokenType) (st : PState) :
    (st.token = expected →
        match_ expected st = st.getToken ∧
        (match_ expected st).token = firstKind st.rest ∧
        (match_ expected st).rest = st.rest.tail ∧
        (match_ expected st).Error = st.Error) ∧
      (st.token ≠ expected →
        (match_ expected st).token = st.token ∧
        (match_ expected st).tokenString = st.tokenString ∧
        (match_ expected st).rest = st.rest ∧
        (match_ expected st).Error = true) := by
  constructor
  · intro h
    rw [match_, if_pos h]
    refine ⟨rfl, ?_, ?_, ?_⟩ <;> cases hr : st.rest <;> simp [PState.getToken, hr, firstKind,
      PState.of]
  · intro h
    rw [match_, if_neg h]
    exact ⟨rfl, rfl, rfl, rfl⟩

theorem match_advances_or_flags_witness :
    ((PState.of [tk .READ "read", tk .ID "x"] false).token = .READ →
        match_ .READ (PState.of [tk .READ "read", tk .ID "x"] false) =
          (PState.of [tk .READ "read", tk .ID "x"] false).getToken ∧
        (match_ .READ (PState.of [tk .READ "read", tk .ID "x"] false)).token =
          firstKind (PState.of [tk .READ "read", tk .ID "x"] false).rest ∧
        (match_ .READ (PState.of [tk .READ "read", tk .ID "x"] false)).rest =
          (PState.of [tk .READ "read", tk .ID "x"] false).rest.tail ∧
        (match_ .READ (PState.of [tk .READ "read", tk .ID "x"] false)).Error =
          (PState.of [tk .READ "read", tk .ID "x"] false).Error) ∧
      (PState.of [tk .READ "read", tk .ID "x"] false).token = .READ ∧
      match_ .READ (PState.of [tk .READ "read", tk .ID "x"] false) =
        PState.of [tk .ID "x"] false ∧
      (PState.of [tk .READ "read", tk .ID "x"] false).token ≠ .SEMI ∧
      match_ .SEMI (PState.of [tk .READ "read", tk .ID "x"] false) =
        PState.of [tk .READ "read", tk .ID "x"] true :=
  ⟨(match_advances_or_flags .READ (PState.of [tk .READ "read", tk .ID "x"] false)).1,
    by decide, by decide, by decide, by decide⟩

/-- C17: on `while a < b do read x end`, `while_stmt` returns a Statement node with the tree of
the condition as child 0, the tree of the body as child 1 and no child 2, but its subkind is
`IfK`, not `WhileK`: the node is made with `newStmtNode(IfK)`. -/
theorem while_stmt_node_is_IfK :
    while_stmt 12 (PState.of whileExample false) =
        some (.node (opNode .LT (leaf (tk .ID "a")) (leaf (tk .ID "b")))
            (.node .null .null .null .null .StmtK (.stmt .ReadK) (.name "x".toList) .Void)
            .null .null .StmtK (.stmt .IfK) .unset .Void,
          PState.of [] false) ∧
      Kind.stmt .IfK ≠ Kind.stmt .WhileK := by
  refine ⟨by decide, by decide⟩

/-- C19: on the tokens `read x`, which do not begin with a declaration, `declarations` returns
the empty tree and `program` then evaluates `t_tmp->sibling` with `t_tmp` null; the same happens
on the empty source. -/
theorem program_null_dereference :
    declarations 5 (PState.of [tk .READ "read", tk .ID "x"] false) =
        some (.null, PState.of [] true) ∧
      program 5 (PState.of [tk .READ "read", tk .ID "x"] false) =
        some (.nullDeref (PState.of [] true)) ∧
      program 5 (PState.of [] false) = some (.nullDeref (PState.of [] true)) := by
  refine ⟨by decide, by decide, by decide⟩

theorem term_product (fuel : Nat) (a mulop b : Tok) (toks : List Tok) (err : Bool)
    (ha : isOperand a) (hb : isOperand b) (hmul : mulop.kind = .TIMES ∨ mulop.kind = .OVER)
    (h3 : firstKind toks ≠ .TIMES) (h4 : firstKind toks ≠ .OVER) :
    term (fuel + 3) (PState.of (a :: mulop :: b :: toks) err) =
      some (opNode mulop.kind (leaf a) (leaf b), PState.of toks err) := by
  rw [term, factor_operand (fuel + 1) a _ err ha]
  simp only []
  rw [term_loop]
  simp only [PState.of_cons]
  rw [if_pos hmul]
  simp only [match_, if_true, PState.getToken_eq_of]
  rw [factor_operand fuel b toks err hb]
  simp only []
  rw [term_loop, if_neg (by rw [PState.of_token]; simp [h3, h4])]
  simp [opNode, newExpNode, Tree.setChild0, Tree.setChild1, Tree.setAttr]

theorem arithmetic_exp_loop_stop (fuel : Nat) (t : Tree) (toks : List Tok) (err : Bool)
    (h1 : firstKind toks ≠ .PLUS) (h2 : firstKind toks ≠ .MINUS) :
    arithmetic_exp_loop (fuel + 1) t (PState.of toks err) = some (t, PState.of toks err) := by
  rw [arithmetic_exp_loop, if_neg (by rw [PState.of_token]; simp [h1, h2])]

/-- C18: operator precedence.  For operands `a`, `b`, `c` (numbers or identifiers), an additive
operator and a multiplicative operator, followed by the end of the file or by any token other
than `+ - * /`, `arithmetic_exp` parses `a addop b mulop c` to `Op(addop, a, Op(mulop, b, c))`
and `a mulop b addop c` to `Op(addop, Op(mulop, a, b), c)`. -/
theorem arithmetic_exp_precedence (a b c addop mulop : Tok) (toks : List Tok) (err : Bool)
    (fuel : Nat) (ha : isOperand a) (hb : isOperand b) (hc : isOperand c)
    (hadd : addop.kind = .PLUS ∨ addop.kind = .MINUS)
    (hmul : mulop.kind = .TIMES ∨ mulop.kind = .OVER)
    (h1 : firstKind toks ≠ .PLUS) (h2 : firstKind toks ≠ .MINUS)
    (h3 : firstKind toks ≠ .TIMES) (h4 : firstKind toks ≠ .OVER) (hfuel : 5 ≤ fuel) :
    arithmetic_exp fuel (PState.of (a :: addop :: b :: mulop :: c :: toks) err) =
        some (opNode addop.kind (leaf a) (opNode mulop.kind (leaf b) (leaf c)),
          PState.of toks err) ∧
      arithmetic_exp fuel (PState.of (a :: mulop :: b :: addop :: c :: toks) err) =
        some (opNode addop.kind (opNode mulop.kind (leaf a) (leaf b)) (leaf c),
          PState.of toks err) := by
  obtain ⟨k, rfl⟩ := Nat.exists_eq_add_of_le hfuel
  have e : 5 + k = (k + 3) + 1 + 1 := by omega
  have haddT : firstKind (addop :: b :: mulop :: c :: toks) ≠ .TIMES ∧
      firstKind (addop :: b :: mulop :: c :: toks) ≠ .OVER ∧
      firstKind (addop :: c :: toks) ≠ .TIMES ∧ firstKind (addop :: c :: toks) ≠ .OVER := by
    simp only [firstKind, PState.of_cons]
    rcases hadd with h | h <;> simp [h]
  rw [e]
  constructor
  · rw [arithmetic_exp, term_operand (k + 2) a _ err ha haddT.1 haddT.2.1]
    simp only []
    rw [arithmetic_exp_loop]
    simp only [PState.of_cons]
    rw [if_pos hadd]
    simp only [match_, if_true, PState.getToken_eq_of]
    rw [term_product k b mulop c toks err hb hc hmul h3 h4]
    simp only []
    rw [arithmetic_exp_loop_stop _ _ toks err h1 h2]
    simp [opNode, newExpNode, Tree.setChild0, Tree.setChild1, Tree.setAttr]
  · rw [arithmetic_exp, term_product (k + 1) a mulop b _ err ha hb hmul haddT.2.2.1 haddT.2.2.2]
    simp only []
    rw [arithmetic_exp_loop]
    simp only [PState.of_cons]
    rw [if_pos hadd]
    simp only [match_, if_true, PState.getToken_eq_of]
    rw [term_operand (k + 1) c toks err hc h3 h4]
    simp only []
    rw [arithmetic_exp_loop_stop _ _ toks err h1 h2]
    simp [opNode, newExpNode, Tree.setChild0, Tree.setChild1, Tree.setAttr]

theorem arithmetic_exp_precedence_witness :
    (isOperand (tk .NUM "1") ∧ isOperand (tk .ID "x") ∧ isOperand (tk .NUM "3") ∧
      ((tk .PLUS "+").kind = .PLUS ∨ (tk .PLUS "+").kind = .MINUS) ∧
      ((tk .TIMES "*").kind = .TIMES ∨ (tk .TIMES "*").kind = .OVER) ∧
      firstKind [] ≠ .PLUS ∧ firstKind [] ≠ .MINUS ∧ firstKind [] ≠ .TIMES ∧
      firstKind [] ≠ .OVER ∧ 5 ≤ 5) ∧
      arithmetic_exp 5
          (PState.of [tk .NUM "1", tk .PLUS "+", tk .ID "x", tk .TIMES "*", tk .NUM "3"]
            false) =
        some (opNode .PLUS (leaf (tk .NUM "1"))
          (opNode .TIMES (leaf (tk .ID "x")) (leaf (tk .NUM "3"))), PState.of [] false) ∧
      arithmetic_exp 5
          (PState.of [tk .NUM "1", tk .TIMES "*", tk .ID "x", tk .PLUS "+", tk .NUM "3"]
            false) =
        some (opNode .PLUS (opNode .TIMES (leaf (tk .NUM "1")) (leaf (tk .ID "x")))
          (leaf (tk .NUM "3")), PState.of [] false) :=
  ⟨⟨by decide, by decide, by decide, by decide, by decide, by decide, by decide, by decide,
      by decide, by decide⟩,
    arithmetic_exp_precedence (tk .NUM "1") (tk .ID "x") (tk .NUM "3") (tk .PLUS "+")
      (tk .TIMES "*") [] false 5 (by decide) (by decide) (by decide) (by decide) (by decide)
      (by decide) (by decide) (by decide) (by decide) (by decide)⟩

/-! ## Scanner: termination -/

theorem pending_unget_getNextChar (s : Scanner) :
    (ungetNextChar (getNextChar s).2).pending.length ≤ s.pending.length := by
  obtain ⟨cons, pending, e⟩ := s
  cases pending with
  | nil => simp [getNextChar, ungetNextChar]
  | cons c p => cases e <;> simp [getNextChar, ungetNextChar]

theorem pending_getNextChar (s : Scanner) :
    (getNextChar s).2.pending.length ≤ s.pending.length ∧
      ((getNextChar s).1 ≠ none → (getNextChar s).2.pending.length < s.pending.length) ∧
      ((getNextChar s).1 = none → s.pending = []) := by
  obtain ⟨cons, pending, e⟩ := s
  cases pending <;> simp [getNextChar]

theorem startSymbol_spec (c : Option Char) (s : Scanner) :
    (startSymbol c s).state = .DONE ∧
      (startSymbol c s).scanner.pending.length ≤ s.pending.length ∧
      (c = none → (startSymbol c s).currentToken = .ENDFILE) := by
  have h := (pending_getNextChar s).1
  unfold startSymbol
  split <;> simp <;> split <;> simp [h]

/-- One pass of the scanner's loop: the characters still unread never get more, a pass that
does not finish the token has read a character and pushed nothing back, and at the end of the
file every pass finishes the token, from `START` with `ENDFILE`. -/
theorem step_spec (state : StateType) (cur : TokenType) (s : Scanner) :
    (step state cur (getNextChar s).1 (getNextChar s).2).scanner.pending.length ≤
        s.pending.length ∧
      (state = .START → (getNextChar s).1 ≠ none →
        (step state cur (getNextChar s).1 (getNextChar s).2).scanner.pending.length <
          s.pending.length) ∧
      ((step state cur (getNextChar s).1 (getNextChar s).2).state ≠ .DONE →
        (step state cur (getNextChar s).1 (getNextChar s).2).scanner = (getNextChar s).2 ∧
          (getNextChar s).1 ≠ none) ∧
      (state = .START → (getNextChar s).1 = none →
        (step state cur (getNextChar s).1 (getNextChar s).2).currentToken = .ENDFILE) := by
  have hu := pending_unget_getNextChar s
  obtain ⟨hg, hlt, _⟩ := pending_getNextChar s
  generalize hc : (getNextChar s).1 = c at *
  generalize hs1 : (getNextChar s).2 = s1 at *
  have hsym := startSymbol_spec c s1
  cases c with
  | none =>
    cases state <;> simp only [step] <;>
      first
      | (split_ifs <;> simp_all [isdigit, isalpha])
      | simp_all [isdigit, isalpha]
  | some x =>
    cases state <;> simp only [step] <;>
      first
      | (split_ifs <;> simp_all [isdigit, isalpha] <;> omega)
      | simp_all [isdigit, isalpha]

/-- The loop of `getToken` returns once the fuel exceeds the number of unread characters; the
unread characters never get more, and a token other than `ENDFILE` found from `START` has
cost at least one of them. -/
theorem getTokenLoop_returns (M : Nat) :
    ∀ (fuel : Nat) (state : StateType) (cur : TokenType) (ts : List Char) (s : Scanner),
      s.pending.length < fuel →
      ∃ r, getTokenLoop M fuel state cur ts s = some r ∧
        r.scanner.pending.length ≤ s.pending.length ∧
        (state = .START → r.token ≠ .ENDFILE →
          r.scanner.pending.length < s.pending.length) := by
  intro fuel
  induction fuel with
  | zero => intro state cur ts s h; omega
  | succ fuel ih =>
    intro state cur ts s hfuel
    obtain ⟨h1, h2, h3, h4⟩ := step_spec state cur s
    obtain ⟨hg, hlt, hnil⟩ := pending_getNextChar s
    rw [getTokenLoop]
    simp only []
    by_cases hdone : (step state cur (getNextChar s).1 (getNextChar s).2).state = .DONE
    · rw [if_pos hdone]
      refine ⟨_, rfl, h1, ?_⟩
      intro hstart htok
      by_cases hc : (getNextChar s).1 = none
      · have h5 := h4 hstart hc
        simp [h5] at htok
      · exact h2 hstart hc
    · rw [if_neg hdone]
      obtain ⟨hsc, hc⟩ := h3 hdone
      rw [hsc]
      have hl := hlt hc
      obtain ⟨r, hr, hle, _⟩ := ih
        (step state cur (getNextChar s).1 (getNextChar s).2).state
        (step state cur (getNextChar s).1 (getNextChar s).2).currentToken
        (if (step state cur (getNextChar s).1 (getNextChar s).2).save = true ∧ ts.length ≤ M
          then ts ++ [toChar (getNextChar s).1] else ts)
        (getNextChar s).2 (by omega)
      exact ⟨r, hr, by omega, fun _ _ => by omega⟩

theorem getToken_returns (M : Nat) (s : Scanner) :
    ∃ r, getToken M s = some r ∧ r.scanner.pending.length ≤ s.pending.length ∧
      (r.token ≠ .ENDFILE → r.scanner.pending.length < s.pending.length) := by
  obtain ⟨r, hr, hle, hlt⟩ :=
    getTokenLoop_returns M (s.pending.length + 1) .START .ERROR [] s (by omega)
  exact ⟨r, hr, hle, hlt rfl⟩

theorem scanTokens_returns (M : Nat) :
    ∀ (n : Nat) (s : Scanner), s.pending.length < n →
      ∃ toks, scanTokens M n s = some toks ∧ toks.getLast? = some .ENDFILE ∧
        toks.length ≤ s.pending.length + 1 := by
  intro n
  induction n with
  | zero => intro s h; omega
  | succ n ih =>
    intro s hn
    obtain ⟨r, hr, hle, hlt⟩ := getToken_returns M s
    rw [scanTokens, hr]
    simp only []
    by_cases hk : r.token = .ENDFILE
    · rw [if_pos hk]
      exact ⟨[.ENDFILE], rfl, rfl, by simp⟩
    · rw [if_neg hk]
      have hl := hlt hk
      obtain ⟨toks, ht, hlast, hlen⟩ := ih r.scanner (by omega)
      refine ⟨r.token :: toks, by rw [ht]; rfl, ?_, by simp; omega⟩
      cases toks with
      | nil => simp at hlast
      | cons a as => simpa [List.getLast?_cons_cons] using hlast

/-- C20: for every state of the scanner, `getToken` returns a token (the fuel it is given, one
more than the number of unread characters, always suffices); a call that returns a token other
than `ENDFILE` leaves strictly fewer characters unread; hence repeated calls return finitely
many tokens, at most one more than there are unread characters, the last of which is
`ENDFILE`. -/
theorem getToken_terminates (M : Nat) (s : Scanner) :
    (∃ r, getToken M s = some r ∧
      (r.token ≠ .ENDFILE → r.scanner.pending.length < s.pending.length)) ∧
    (∃ toks, scanTokens M (s.pending.length + 1) s = some toks ∧
      toks.getLast? = some .ENDFILE ∧ toks.length ≤ s.pending.length + 1) := by
  obtain ⟨r, hr, _, hlt⟩ := getToken_returns M s
  exact ⟨⟨r, hr, hlt⟩, scanTokens_returns M _ s (by omega)⟩

theorem getToken_terminates_witness :
    (∃ r, getToken 40 (Scanner.start "x := 1 ?".toList) = some r ∧
      (r.token ≠ .ENDFILE →
        r.scanner.pending.length < (Scanner.start "x := 1 ?".toList).pending.length)) ∧
    (∃ toks, scanTokens 40 ((Scanner.start "x := 1 ?".toList).pending.length + 1)
        (Scanner.start "x := 1 ?".toList) = some toks ∧
      toks.getLast? = some .ENDFILE ∧
      toks.length ≤ (Scanner.start "x := 1 ?".toList).pending.length + 1) ∧
    scanTokens 40 9 (Scanner.start "x := 1 ?".toList) =
      some [.ID, .ASSIGN, .NUM, .ERROR, .ENDFILE] :=
  ⟨(getToken_terminates 40 (Scanner.start "x := 1 ?".toList)).1,
    (getToken_terminates 40 (Scanner.start "x := 1 ?".toList)).2, by decide⟩

/-! ## Parser: a parse without error reads a sentence of the grammar -/

theorem advance_append (w v : List TokenType) :
    ∀ st st1 st2, advance w st = some st1 → advance v st1 = some st2 →
      advance (w ++ v) st = some st2 := by
  induction w with
  | nil =>
    intro st st1 st2 h1 h2
    simp only [advance, Option.some.injEq] at h1
    subst h1
    exact h2
  | cons k w ih =>
    intro st st1 st2 h1 h2
    simp only [advance, List.cons_append] at h1 ⊢
    split at h1
    · next hk => rw [if_pos hk]; exact ih _ _ _ h1 h2
    · exact absurd h1 (by simp)

theorem advance_cons (k : TokenType) (w : List TokenType) (st st1 : PState) (hk : st.token = k)
    (h : advance w st.getToken = some st1) : advance (k :: w) st = some st1 := by
  rw [advance, if_pos hk]
  exact h

theorem getToken_Error (st : PState) : st.getToken.Error = st.Error := by
  cases h : st.rest <;> simp [PState.getToken, h]

theorem advance_Error (w : List TokenType) :
    ∀ st st1, advance w st = some st1 → st1.Error = st.Error := by
  induction w with
  | nil =>
    intro st st1 h
    simp only [advance, Option.some.injEq] at h
    rw [h]
  | cons k w ih =>
    intro st st1 h
    simp only [advance] at h
    split at h
    · rw [ih _ _ h, getToken_Error]
    · exact absurd h (by simp)

theorem Parses.Error_eq {N : NT} {st st1 : PState} (h : Parses N st st1) :
    st1.Error = st.Error := by
  obtain ⟨w, _, hw⟩ := h
  exact advance_Error w st st1 hw

/-- A `match` that leaves `Error` clear found the expected token. -/
theorem match_clear (e : TokenType) (st : PState) (h : (match_ e st).Error = false) :
    st.token = e ∧ st.Error = false ∧ match_ e st = st.getToken := by
  by_cases hk : st.token = e
  · rw [match_, if_pos hk] at h ⊢
    exact ⟨hk, by rw [← getToken_Error]; exact h, rfl⟩
  · rw [match_, if_neg hk] at h
    simp [syntaxError] at h

theorem match_self (st : PState) : match_ st.token st = st.getToken := by
  rw [match_, if_pos rfl]

theorem syntaxError_getToken_Error (st : PState) : ((syntaxError st).getToken).Error = true := by
  rw [getToken_Error]
  rfl

theorem sound_zero : Sound 0 := by
  constructor <;> intros <;> simp_all [factor, term_loop, term, arithmetic_exp_loop,
    arithmetic_exp, comparison_exp, bfactor, bterm_loop, bterm, bool_exp_loop, bool_exp, exp,
    write_stmt, assign_stmt, repeat_stmt, if_stmt, while_stmt, statement, stmt_sequence_loop,
    stmt_sequence]

theorem factor_sound (fuel : Nat) (ih : Sound fuel) (st : PState) (t : Tree) (st1 : PState)
    (h : factor (fuel + 1) st = some (t, st1)) (he : st1.Error = false) :
    Parses .factor st st1 := by
  rw [factor] at h
  split at h
  · next hk =>
    simp only [Option.some.injEq, Prod.mk.injEq] at h
    obtain ⟨_, rfl⟩ := h
    rw [match_, if_pos hk]
    exact ⟨[.NUM], .factor_number, advance_cons _ _ _ _ hk rfl⟩
  · next hk =>
    simp only [Option.some.injEq, Prod.mk.injEq] at h
    obtain ⟨_, rfl⟩ := h
    rw [match_, if_pos hk]
    exact ⟨[.ID], .factor_identifier, advance_cons _ _ _ _ hk rfl⟩
  · next hk =>
    cases h1 : exp fuel (match_ .LPAREN st) with
    | none => rw [h1] at h; exact absurd h (by simp)
    | some x =>
      obtain ⟨q, st2⟩ := x
      rw [h1] at h
      simp only [Option.some.injEq, Prod.mk.injEq] at h
      obtain ⟨_, rfl⟩ := h
      obtain ⟨h2, h3, h4⟩ := match_clear .RPAREN st2 he
      obtain ⟨w, hw, ha⟩ := ih.exp_snd _ _ _ h1 h3
      rw [match_, if_pos hk] at ha
      refine ⟨.LPAREN :: w ++ [.RPAREN], .factor_paren hw, ?_⟩
      refine advance_cons _ _ _ _ hk (advance_append _ _ _ _ _ ha ?_)
      rw [h4]
      exact advance_cons _ _ _ _ h2 rfl
  · simp only [Option.some.injEq, Prod.mk.injEq] at h
    obtain ⟨_, rfl⟩ := h
    rw [syntaxError_getToken_Error] at he
    exact absurd he (by simp)

theorem term_loop_sound (fuel : Nat) (ih : Sound fuel) (t0 : Tree) (st : PState) (t : Tree)
    (st1 : PState) (h : term_loop (fuel + 1) t0 st = some (t, st1)) (he : st1.Error = false) :
    Parses .mul_tail st st1 := by
  rw [term_loop] at h
  split at h
  · next hc =>
    cases h1 : factor fuel (match_ st.token st) with
    | none => rw [h1] at h; exact absurd h (by simp)
    | some x =>
      obtain ⟨q, st2⟩ := x
      rw [h1] at h
      have hp := ih.term_loop_snd _ _ _ _ h he
      have he2 : st2.Error = false := by rw [← hp.Error_eq]; exact he
      obtain ⟨v, hv, hb⟩ := hp
      obtain ⟨w, hw, ha⟩ := ih.factor_snd _ _ _ h1 he2
      rw [match_self] at ha
      rcases hc with hc | hc
      · exact ⟨_, .mul_tail_times hw hv, advance_cons _ _ _ _ hc (advance_append _ _ _ _ _ ha hb)⟩
      · exact ⟨_, .mul_tail_over hw hv, advance_cons _ _ _ _ hc (advance_append _ _ _ _ _ ha hb)⟩
  · simp only [Option.some.injEq, Prod.mk.injEq] at h
    obtain ⟨_, rfl⟩ := h
    exact ⟨[], .mul_tail_nil, rfl⟩

theorem term_sound (fuel : Nat) (ih : Sound fuel) (st : PState) (t : Tree) (st1 : PState)
    (h : term (fuel + 1) st = some (t, st1)) (he : st1.Error = false) :
    Parses .term st st1 := by
  rw [term] at h
  cases h1 : factor fuel st with
  | none => rw [h1] at h; exact absurd h (by simp)
  | some x =>
    obtain ⟨q, st2⟩ := x
    rw [h1] at h
    have hp := ih.term_loop_snd _ _ _ _ h he
    have he2 : st2.Error = false := by rw [← hp.Error_eq]; exact he
    obtain ⟨v, hv, hb⟩ := hp
    obtain ⟨w, hw, ha⟩ := ih.factor_snd _ _ _ h1 he2
    exact ⟨_, .term hw hv, advance_append _ _ _ _ _ ha hb⟩

theorem arithmetic_exp_loop_sound (fuel : Nat) (ih : Sound fuel) (t0 : Tree) (st : PState) (t : Tree)
    (st1 : PState) (h : arithmetic_exp_loop (fuel + 1) t0 st = some (t, st1)) (he : st1.Error = false) :
    Parses .add_tail st st1 := by
  rw [arithmetic_exp_loop] at h
  split at h
  · next hc =>
    cases h1 : term fuel (match_ st.token st) with
    | none => rw [h1] at h; exact absurd h (by simp)
    | some x =>
      obtain ⟨q, st2⟩ := x
      rw [h1] at h
      have hp := ih.arithmetic_exp_loop_snd _ _ _ _ h he
      have he2 : st2.Error = false := by rw [← hp.Error_eq]; exact he
      obtain ⟨v, hv, hb⟩ := hp
      obtain ⟨w, hw, ha⟩ := ih.term_snd _ _ _ h1 he2
      rw [match_self] at ha
      rcases hc with hc | hc
      · exact ⟨_, .add_tail_plus hw hv, advance_cons _ _ _ _ hc (advance_append _ _ _ _ _ ha hb)⟩
      · exact ⟨_, .add_tail_minus hw hv, advance_cons _ _ _ _ hc (advance_append _ _ _ _ _ ha hb)⟩
  · simp only [Option.some.injEq, Prod.mk.injEq] at h
    obtain ⟨_, rfl⟩ := h
    exact ⟨[], .add_tail_nil, rfl⟩

theorem arithmetic_exp_sound (fuel : Nat) (ih : Sound fuel) (st : PState) (t : Tree) (st1 : PState)
    (h : arithmetic_exp (fuel + 1) st = some (t, st1)) (he : st1.Error = false) :
    Parses .arithmetic_exp st st1 := by
  rw [arithmetic_exp] at h
  cases h1 : term fuel st with
  | none => rw [h1] at h; exact absurd h (by simp)
  | some x =>
    obtain ⟨q, st2⟩ := x
    rw [h1] at h
    have hp := ih.arithmetic_exp_loop_snd _ _ _ _ h he
    have he2 : st2.Error = false := by rw [← hp.Error_eq]; exact he
    obtain ⟨v, hv, hb⟩ := hp
    obtain ⟨w, hw, ha⟩ := ih.term_snd _ _ _ h1 he2
    exact ⟨_, .arithmetic_exp hw hv, advance_append _ _ _ _ _ ha hb⟩

theorem comparison_exp_sound (fuel : Nat) (ih : Sound fuel) (st : PState) (t : Tree)
    (st1 : PState) (h : comparison_exp (fuel + 1) st = some (t, st1))
    (he : st1.Error = false) : Parses .comparison_exp st st1 := by
  rw [comparison_exp] at h
  cases h1 : arithmetic_exp fuel st with
  | none => rw [h1] at h; exact absurd h (by simp)
  | some x =>
    obtain ⟨q, st2⟩ := x
    rw [h1] at h
    simp only [] at h
    split at h
    · next hc =>
      cases h2 : arithmetic_exp fuel (match_ st2.token st2) with
      | none => rw [h2] at h; exact absurd h (by simp)
      | some y =>
        obtain ⟨r, st3⟩ := y
        rw [h2] at h
        simp only [Option.some.injEq, Prod.mk.injEq] at h
        obtain ⟨_, rfl⟩ := h
        have hp := ih.arithmetic_exp_snd _ _ _ h2 he
        have he2 : st2.Error = false := by
          have := hp.Error_eq
          rw [match_self, getToken_Error] at this
          rw [← this]; exact he
        obtain ⟨v, hv, hb⟩ := hp
        obtain ⟨w, hw, ha⟩ := ih.arithmetic_exp_snd _ _ _ h1 he2
        rw [match_self] at hb
        exact ⟨_, .comparison_pair st2.token hw hc hv,
          advance_append _ _ _ _ _ ha (advance_cons _ _ _ _ rfl hb)⟩
    · simp only [Option.some.injEq, Prod.mk.injEq] at h
      obtain ⟨_, rfl⟩ := h
      obtain ⟨w, hw, ha⟩ := ih.arithmetic_exp_snd _ _ _ h1 he
      exact ⟨w, .comparison_single hw, ha⟩

theorem bfactor_sound (fuel : Nat) (ih : Sound fuel) (st : PState) (t : Tree) (st1 : PState)
    (h : bfactor (fuel + 1) st = some (t, st1)) (he : st1.Error = false) :
    Parses .bfactor st st1 := by
  rw [bfactor] at h
  obtain ⟨w, hw, ha⟩ := ih.comparison_exp_snd _ _ _ h he
  exact ⟨w, .bfactor hw, ha⟩

theorem bterm_loop_sound (fuel : Nat) (ih : Sound fuel) (t0 : Tree) (st : PState) (t : Tree)
    (st1 : PState) (h : bterm_loop (fuel + 1) t0 st = some (t, st1)) (he : st1.Error = false) :
    Parses .and_tail st st1 := by
  rw [bterm_loop] at h
  split at h
  · next hc =>
    cases h1 : bfactor fuel (match_ st.token st) with
    | none => rw [h1] at h; exact absurd h (by simp)
    | some x =>
      obtain ⟨q, st2⟩ := x
      rw [h1] at h
      have hp := ih.bterm_loop_snd _ _ _ _ h he
      have he2 : st2.Error = false := by rw [← hp.Error_eq]; exact he
      obtain ⟨v, hv, hb⟩ := hp
      obtain ⟨w, hw, ha⟩ := ih.bfactor_snd _ _ _ h1 he2
      rw [match_self] at ha
      exact ⟨_, .and_tail_cons hw hv, advance_cons _ _ _ _ hc (advance_append _ _ _ _ _ ha hb)⟩
  · simp only [Option.some.injEq, Prod.mk.injEq] at h
    obtain ⟨_, rfl⟩ := h
    exact ⟨[], .and_tail_nil, rfl⟩

theorem bterm_sound (fuel : Nat) (ih : Sound fuel) (st : PState) (t : Tree) (st1 : PState)
    (h : bterm (fuel + 1) st = some (t, st1)) (he : st1.Error = false) :
    Parses .bterm st st1 := by
  rw [bterm] at h
  cases h1 : bfactor fuel st with
  | none => rw [h1] at h; exact absurd h (by simp)
  | some x =>
    obtain ⟨q, st2⟩ := x
    rw [h1] at h
    have hp := ih.bterm_loop_snd _ _ _ _ h he
    have he2 : st2.Error = false := by rw [← hp.Error_eq]; exact he
    obtain ⟨v, hv, hb⟩ := hp
    obtain ⟨w, hw, ha⟩ := ih.bfactor_snd _ _ _ h1 he2
    exact ⟨_, .bterm hw hv, advance_append _ _ _ _ _ ha hb⟩

theorem bool_exp_loop_sound (fuel : Nat) (ih : Sound fuel) (t0 : Tree) (st : PState) (t : Tree)
    (st1 : PState) (h : bool_exp_loop (fuel + 1) t0 st = some (t, st1)) (he : st1.Error = false) :
    Parses .or_tail st st1 := by
  rw [bool_exp_loop] at h
  split at h
  · next hc =>
    cases h1 : bterm fuel (match_ st.token st) with
    | none => rw [h1] at h; exact absurd h (by simp)
    | some x =>
      obtain ⟨q, st2⟩ := x
      rw [h1] at h
      have hp := ih.bool_exp_loop_snd _ _ _ _ h he
      have he2 : st2.Error = false := by rw [← hp.Error_eq]; exact he
      obtain ⟨v, hv, hb⟩ := hp
      obtain ⟨w, hw, ha⟩ := ih.bterm_snd _ _ _ h1 he2
      rw [match_self] at ha
      exact ⟨_, .or_tail_cons hw hv, advance_cons _ _ _ _ hc (advance_append _ _ _ _ _ ha hb)⟩
  · simp only [Option.some.injEq, Prod.mk.injEq] at h
    obtain ⟨_, rfl⟩ := h
    exact ⟨[], .or_tail_nil, rfl⟩

theorem bool_exp_sound (fuel : Nat) (ih : Sound fuel) (st : PState) (t : Tree) (st1 : PState)
    (h : bool_exp (fuel + 1) st = some (t, st1)) (he : st1.Error = false) :
    Parses .bool_exp st st1 := by
  rw [bool_exp] at h
  cases h1 : bterm fuel st with
  | none => rw [h1] at h; exact absurd h (by simp)
  | some x =>
    obtain ⟨q, st2⟩ := x
    rw [h1] at h
    have hp := ih.bool_exp_loop_snd _ _ _ _ h he
    have he2 : st2.Error = false := by rw [← hp.Error_eq]; exact he
    obtain ⟨v, hv, hb⟩ := hp
    obtain ⟨w, hw, ha⟩ := ih.bterm_snd _ _ _ h1 he2
    exact ⟨_, .bool_exp hw hv, advance_append _ _ _ _ _ ha hb⟩

theorem exp_sound (fuel : Nat) (ih : Sound fuel) (st : PState) (t : Tree) (st1 : PState)
    (h : exp (fuel + 1) st = some (t, st1)) (he : st1.Error = false) :
    Parses .exp st st1 := by
  rw [exp] at h
  generalize hr : (match st.token with
    | .STR => some (string_exp st)
    | .ERROR => arithmetic_exp fuel st
    | _ => bool_exp fuel st) = r at h
  cases r with
  | none => exact absurd h (by simp)
  | some x =>
    obtain ⟨q, st2⟩ := x
    simp only [Option.some.injEq, Prod.mk.injEq] at h
    obtain ⟨_, rfl⟩ := h
    split at hr
    · next hk =>
      simp only [string_exp, Option.some.injEq, Prod.mk.injEq] at hr
      obtain ⟨_, rfl⟩ := hr
      rw [match_, if_pos hk]
      exact ⟨[.STR], .exp_string .string_exp, advance_cons _ _ _ _ hk rfl⟩
    · obtain ⟨w, hw, ha⟩ := ih.arithmetic_exp_snd _ _ _ hr he
      exact ⟨w, .exp_arithmetic hw, ha⟩
    · obtain ⟨w, hw, ha⟩ := ih.bool_exp_snd _ _ _ hr he
      exact ⟨w, .exp_bool hw, ha⟩

theorem write_stmt_sound (fuel : Nat) (ih : Sound fuel) (st : PState) (t : Tree)
    (st1 : PState) (h : write_stmt (fuel + 1) st = some (t, st1)) (he : st1.Error = false) :
    Parses .write_stmt st st1 := by
  rw [write_stmt] at h
  cases h1 : exp fuel (match_ .WRITE st) with
  | none => rw [h1] at h; exact absurd h (by simp)
  | some x =>
    obtain ⟨q, st2⟩ := x
    rw [h1] at h
    simp only [Option.some.injEq, Prod.mk.injEq] at h
    obtain ⟨_, rfl⟩ := h
    have hp := ih.exp_snd _ _ _ h1 he
    obtain ⟨hk, _, hm⟩ := match_clear .WRITE st (by rw [← hp.Error_eq]; exact he)
    obtain ⟨w, hw, ha⟩ := hp
    rw [hm] at ha
    exact ⟨_, .write_stmt hw, advance_cons _ _ _ _ hk ha⟩

theorem assign_stmt_sound (fuel : Nat) (ih : Sound fuel) (st : PState) (t : Tree)
    (st1 : PState) (h : assign_stmt (fuel + 1) st = some (t, st1)) (he : st1.Error = false) :
    Parses .assign_stmt st st1 := by
  rw [assign_stmt] at h
  cases h1 : exp fuel (match_ .ASSIGN (match_ .ID st)) with
  | none => rw [h1] at h; exact absurd h (by simp)
  | some x =>
    obtain ⟨q, st2⟩ := x
    rw [h1] at h
    simp only [Option.some.injEq, Prod.mk.injEq] at h
    obtain ⟨_, rfl⟩ := h
    have hp := ih.exp_snd _ _ _ h1 he
    obtain ⟨hk2, he2, hm2⟩ := match_clear .ASSIGN (match_ .ID st)
      (by rw [← hp.Error_eq]; exact he)
    obtain ⟨hk, _, hm⟩ := match_clear .ID st he2
    obtain ⟨w, hw, ha⟩ := hp
    rw [hm2] at ha
    rw [hm] at ha hk2
    exact ⟨_, .assign_stmt hw, advance_cons _ _ _ _ hk (advance_cons _ _ _ _ hk2 ha)⟩

theorem repeat_stmt_sound (fuel : Nat) (ih : Sound fuel) (st : PState) (t : Tree)
    (st1 : PState) (h : repeat_stmt (fuel + 1) st = some (t, st1)) (he : st1.Error = false) :
    Parses .repeat_stmt st st1 := by
  rw [repeat_stmt] at h
  cases h1 : stmt_sequence fuel (match_ .REPEAT st) with
  | none => rw [h1] at h; exact absurd h (by simp)
  | some x =>
    obtain ⟨b, st2⟩ := x
    rw [h1] at h
    simp only [] at h
    cases h2 : bool_exp fuel (match_ .UNTIL st2) with
    | none => rw [h2] at h; exact absurd h (by simp)
    | some y =>
      obtain ⟨c, st3⟩ := y
      rw [h2] at h
      simp only [Option.some.injEq, Prod.mk.injEq] at h
      obtain ⟨_, rfl⟩ := h
      have hp2 := ih.bool_exp_snd _ _ _ h2 he
      obtain ⟨hk2, he2, hm2⟩ := match_clear .UNTIL st2 (by rw [← hp2.Error_eq]; exact he)
      have hp1 := ih.stmt_sequence_snd _ _ _ h1 he2
      obtain ⟨hk, _, hm⟩ := match_clear .REPEAT st (by rw [← hp1.Error_eq]; exact he2)
      obtain ⟨v, hv, hb⟩ := hp2
      obtain ⟨w, hw, ha⟩ := hp1
      rw [hm2] at hb
      rw [hm] at ha
      exact ⟨_, .repeat_stmt hw hv,
        advance_cons _ _ _ _ hk (advance_append _ _ _ _ _ ha (advance_cons _ _ _ _ hk2 hb))⟩

theorem while_stmt_sound (fuel : Nat) (ih : Sound fuel) (st : PState) (t : Tree)
    (st1 : PState) (h : while_stmt (fuel + 1) st = some (t, st1)) (he : st1.Error = false) :
    Parses .while_stmt st st1 := by
  rw [while_stmt] at h
  cases h1 : bool_exp fuel (match_ .WHILE st) with
  | none => rw [h1] at h; exact absurd h (by simp)
  | some x =>
    obtain ⟨c, st2⟩ := x
    rw [h1] at h
    simp only [] at h
    cases h2 : stmt_sequence fuel (match_ .DO st2) with
    | none => rw [h2] at h; exact absurd h (by simp)
    | some y =>
      obtain ⟨b, st3⟩ := y
      rw [h2] at h
      simp only [Option.some.injEq, Prod.mk.injEq] at h
      obtain ⟨_, rfl⟩ := h
      obtain ⟨hk3, he3, hm3⟩ := match_clear .END st3 he
      have hp2 := ih.stmt_sequence_snd _ _ _ h2 he3
      obtain ⟨hk2, he2, hm2⟩ := match_clear .DO st2 (by rw [← hp2.Error_eq]; exact he3)
      have hp1 := ih.bool_exp_snd _ _ _ h1 he2
      obtain ⟨hk, _, hm⟩ := match_clear .WHILE st (by rw [← hp1.Error_eq]; exact he2)
      obtain ⟨v, hv, hb⟩ := hp2
      obtain ⟨w, hw, ha⟩ := hp1
      rw [hm2] at hb
      rw [hm] at ha
      refine ⟨_, .while_stmt hw hv, ?_⟩
      have hadv : advance (.WHILE :: (w ++ (.DO :: (v ++ [.END])))) st = some (match_ .END st3) :=
        advance_cons _ _ _ _ hk (advance_append _ _ _ _ _ ha (advance_cons _ _ _ _ hk2
          (advance_append _ _ _ _ _ hb (by rw [hm3]; exact advance_cons _ _ _ _ hk3 rfl))))
      simpa using hadv

theorem if_stmt_sound (fuel : Nat) (ih : Sound fuel) (st : PState) (t : Tree)
    (st1 : PState) (h : if_stmt (fuel + 1) st = some (t, st1)) (he : st1.Error = false) :
    Parses .if_stmt st st1 := by
  rw [if_stmt] at h
  cases h1 : bool_exp fuel (match_ .IF st) with
  | none => rw [h1] at h; exact absurd h (by simp)
  | some x =>
    obtain ⟨c, st2⟩ := x
    rw [h1] at h
    simp only [] at h
    cases h2 : stmt_sequence fuel (match_ .THEN st2) with
    | none => rw [h2] at h; exact absurd h (by simp)
    | some y =>
      obtain ⟨b, st3⟩ := y
      rw [h2] at h
      simp only [] at h
      split at h
      · next helse =>
        cases h3 : stmt_sequence fuel (match_ .ELSE st3) with
        | none => rw [h3] at h; exact absurd h (by simp)
        | some z =>
          obtain ⟨e, st4⟩ := z
          rw [h3] at h
          simp only [Option.some.injEq, Prod.mk.injEq] at h
          obtain ⟨_, rfl⟩ := h
          obtain ⟨hk4, he4, hm4⟩ := match_clear .END st4 he
          have hp3 := ih.stmt_sequence_snd _ _ _ h3 he4
          obtain ⟨hk3, he3, hm3⟩ := match_clear .ELSE st3 (by rw [← hp3.Error_eq]; exact he4)
          have hp2 := ih.stmt_sequence_snd _ _ _ h2 he3
          obtain ⟨hk2, he2, hm2⟩ := match_clear .THEN st2 (by rw [← hp2.Error_eq]; exact he3)
          have hp1 := ih.bool_exp_snd _ _ _ h1 he2
          obtain ⟨hk, _, hm⟩ := match_clear .IF st (by rw [← hp1.Error_eq]; exact he2)
          obtain ⟨u, hu, hc⟩ := hp3
          obtain ⟨v, hv, hb⟩ := hp2
          obtain ⟨w, hw, ha⟩ := hp1
          rw [hm3] at hc
          rw [hm2] at hb
          rw [hm] at ha
          refine ⟨_, .if_else_stmt hw hv hu, ?_⟩
          have hadv : advance (.IF :: (w ++ (.THEN :: (v ++ (.ELSE :: (u ++ [.END])))))) st =
              some (match_ .END st4) :=
            advance_cons _ _ _ _ hk (advance_append _ _ _ _ _ ha (advance_cons _ _ _ _ hk2
              (advance_append _ _ _ _ _ hb (advance_cons _ _ _ _ hk3
                (advance_append _ _ _ _ _ hc
                  (by rw [hm4]; exact advance_cons _ _ _ _ hk4 rfl))))))
          simpa using hadv
      · simp only [Option.some.injEq, Prod.mk.injEq] at h
        obtain ⟨_, rfl⟩ := h
        obtain ⟨hk3, he3, hm3⟩ := match_clear .END st3 he
        have hp2 := ih.stmt_sequence_snd _ _ _ h2 he3
        obtain ⟨hk2, he2, hm2⟩ := match_clear .THEN st2 (by rw [← hp2.Error_eq]; exact he3)
        have hp1 := ih.bool_exp_snd _ _ _ h1 he2
        obtain ⟨hk, _, hm⟩ := match_clear .IF st (by rw [← hp1.Error_eq]; exact he2)
        obtain ⟨v, hv, hb⟩ := hp2
        obtain ⟨w, hw, ha⟩ := hp1
        rw [hm2] at hb
        rw [hm] at ha
        refine ⟨_, .if_stmt hw hv, ?_⟩
        have hadv : advance (.IF :: (w ++ (.THEN :: (v ++ [.END])))) st =
            some (match_ .END st3) :=
          advance_cons _ _ _ _ hk (advance_append _ _ _ _ _ ha (advance_cons _ _ _ _ hk2
            (advance_append _ _ _ _ _ hb (by rw [hm3]; exact advance_cons _ _ _ _ hk3 rfl))))
        simpa using hadv

theorem statement_sound (fuel : Nat) (ih : Sound fuel) (st : PState) (t : Tree)
    (st1 : PState) (h : statement (fuel + 1) st = some (t, st1)) (he : st1.Error = false) :
    Parses .statement st st1 := by
  rw [statement] at h
  split at h
  · obtain ⟨w, hw, ha⟩ := ih.if_stmt_snd _ _ _ h he
    exact ⟨w, .statement_if hw, ha⟩
  · obtain ⟨w, hw, ha⟩ := ih.repeat_stmt_snd _ _ _ h he
    exact ⟨w, .statement_repeat hw, ha⟩
  · obtain ⟨w, hw, ha⟩ := ih.assign_stmt_snd _ _ _ h he
    exact ⟨w, .statement_assign hw, ha⟩
  · simp only [read_stmt, Option.some.injEq, Prod.mk.injEq] at h
    obtain ⟨_, rfl⟩ := h
    obtain ⟨hk2, he2, hm2⟩ := match_clear .ID (match_ .READ st) he
    obtain ⟨hk, _, hm⟩ := match_clear .READ st he2
    rw [hm2]
    rw [hm] at hk2 ⊢
    exact ⟨_, .statement_read .read_stmt,
      advance_cons _ _ _ _ hk (advance_cons _ _ _ _ hk2 rfl)⟩
  · obtain ⟨w, hw, ha⟩ := ih.write_stmt_snd _ _ _ h he
    exact ⟨w, .statement_write hw, ha⟩
  · obtain ⟨w, hw, ha⟩ := ih.while_stmt_snd _ _ _ h he
    exact ⟨w, .statement_while hw, ha⟩
  · simp only [Option.some.injEq, Prod.mk.injEq] at h
    obtain ⟨_, rfl⟩ := h
    rw [syntaxError_getToken_Error] at he
    exact absurd he (by simp)

theorem stmt_sequence_loop_sound (fuel : Nat) (ih : Sound fuel) (t0 : Tree) (st : PState)
    (t : Tree) (st1 : PState) (h : stmt_sequence_loop (fuel + 1) t0 st = some (t, st1))
    (he : st1.Error = false) : Parses .stmt_tail st st1 := by
  rw [stmt_sequence_loop] at h
  split at h
  · simp only [Option.some.injEq, Prod.mk.injEq] at h
    obtain ⟨_, rfl⟩ := h
    exact ⟨[], .stmt_tail_nil, rfl⟩
  · cases h1 : statement fuel (match_ .SEMI st) with
    | none => rw [h1] at h; exact absurd h (by simp)
    | some x =>
      obtain ⟨q, st2⟩ := x
      rw [h1] at h
      have hp := ih.stmt_sequence_loop_snd _ _ _ _ h he
      have he2 : st2.Error = false := by rw [← hp.Error_eq]; exact he
      have hp1 := ih.statement_snd _ _ _ h1 he2
      obtain ⟨hk, _, hm⟩ := match_clear .SEMI st (by rw [← hp1.Error_eq]; exact he2)
      obtain ⟨v, hv, hb⟩ := hp
      obtain ⟨w, hw, ha⟩ := hp1
      rw [hm] at ha
      exact ⟨_, .stmt_tail_cons hw hv,
        advance_cons _ _ _ _ hk (advance_append _ _ _ _ _ ha hb)⟩

theorem stmt_sequence_sound (fuel : Nat) (ih : Sound fuel) (st : PState) (t : Tree)
    (st1 : PState) (h : stmt_sequence (fuel + 1) st = some (t, st1)) (he : st1.Error = false) :
    Parses .stmt_sequence st st1 := by
  rw [stmt_sequence] at h
  cases h1 : statement fuel st with
  | none => rw [h1] at h; exact absurd h (by simp)
  | some x =>
    obtain ⟨q, st2⟩ := x
    rw [h1] at h
    have hp := ih.stmt_sequence_loop_snd _ _ _ _ h he
    have he2 : st2.Error = false := by rw [← hp.Error_eq]; exact he
    obtain ⟨v, hv, hb⟩ := hp
    obtain ⟨w, hw, ha⟩ := ih.statement_snd _ _ _ h1 he2
    exact ⟨_, .stmt_sequence hw hv, advance_append _ _ _ _ _ ha hb⟩

theorem sound_all : ∀ fuel, Sound fuel := by
  intro fuel
  induction fuel with
  | zero => exact sound_zero
  | succ fuel ih =>
    exact
      { factor_snd := factor_sound fuel ih
        term_loop_snd := term_loop_sound fuel ih
        term_snd := term_sound fuel ih
        arithmetic_exp_loop_snd := arithmetic_exp_loop_sound fuel ih
        arithmetic_exp_snd := arithmetic_exp_sound fuel ih
        comparison_exp_snd := comparison_exp_sound fuel ih
        bfactor_snd := bfactor_sound fuel ih
        bterm_loop_snd := bterm_loop_sound fuel ih
        bterm_snd := bterm_sound fuel ih
        bool_exp_loop_snd := bool_exp_loop_sound fuel ih
        bool_exp_snd := bool_exp_sound fuel ih
        exp_snd := exp_sound fuel ih
        write_stmt_snd := write_stmt_sound fuel ih
        assign_stmt_snd := assign_stmt_sound fuel ih
        repeat_stmt_snd := repeat_stmt_sound fuel ih
        if_stmt_snd := if_stmt_sound fuel ih
        while_stmt_snd := while_stmt_sound fuel ih
        statement_snd := statement_sound fuel ih
        stmt_sequence_loop_snd := stmt_sequence_loop_sound fuel ih
        stmt_sequence_snd := stmt_sequence_sound fuel ih }

/-! ## Parser: where `stmt_sequence` stops -/

theorem stmt_sequence_loop_ends (fuel : Nat) :
    ∀ (t0 : Tree) (st : PState) (t : Tree) (st1 : PState),
      stmt_sequence_loop fuel t0 st = some (t, st1) → endsSequence st1.token = true := by
  induction fuel with
  | zero => intro t0 st t st1 h; simp [stmt_sequence_loop] at h
  | succ fuel ih =>
    intro t0 st t st1 h
    rw [stmt_sequence_loop] at h
    split at h
    · next hc =>
      simp only [Option.some.injEq, Prod.mk.injEq] at h
      obtain ⟨_, rfl⟩ := h
      exact hc
    · cases h1 : statement fuel (match_ .SEMI st) with
      | none => rw [h1] at h; exact absurd h (by simp)
      | some x =>
        obtain ⟨q, st2⟩ := x
        rw [h1] at h
        exact ih _ _ _ _ h

theorem stmt_sequence_ends (fuel : Nat) (st : PState) (t : Tree) (st1 : PState)
    (h : stmt_sequence fuel st = some (t, st1)) : endsSequence st1.token = true := by
  cases fuel with
  | zero => simp [stmt_sequence] at h
  | succ fuel =>
    rw [stmt_sequence] at h
    cases h1 : statement fuel st with
    | none => rw [h1] at h; exact absurd h (by simp)
    | some x =>
      obtain ⟨q, st2⟩ := x
      rw [h1] at h
      exact stmt_sequence_loop_ends fuel _ _ _ _ h

theorem endsSequence_iff (tok : TokenType) :
    endsSequence tok = true ↔ tok = .ENDFILE ∨ tok = .END ∨ tok = .ELSE ∨ tok = .UNTIL := by
  simp [endsSequence, or_assoc]

theorem derives_no_ENDFILE {N : NT} {w : List TokenType} (h : Derives N w) :
    TokenType.ENDFILE ∉ w := by
  induction h with
  | comparison_pair op _ hop _ ih1 ih2 =>
    have : op ≠ .ENDFILE := by intro h; rw [h] at hop; simp [isComparison] at hop
    simp [ih1, ih2, this.symm]
  | _ => simp_all

theorem PState.getToken_eq_of_rest (st : PState) : st.getToken = PState.of st.rest st.Error := by
  obtain ⟨tok, ts, rest, err⟩ := st
  exact PState.getToken_eq_of tok ts rest err

theorem advance_of (w : List TokenType) :
    ∀ (toks : List Tok) (e : Bool) (st1 : PState), TokenType.ENDFILE ∉ w →
      advance w (PState.of toks e) = some st1 →
      ∃ pre rest, toks = pre ++ rest ∧ pre.map Tok.kind = w ∧ st1 = PState.of rest e := by
  induction w with
  | nil =>
    intro toks e st1 _ h
    simp only [advance, Option.some.injEq] at h
    exact ⟨[], toks, rfl, rfl, h.symm⟩
  | cons k w ih =>
    intro toks e st1 hw h
    simp only [List.mem_cons, not_or] at hw
    cases toks with
    | nil =>
      simp only [advance] at h
      split at h
      · next hk => exact absurd hk hw.1
      · exact absurd h (by simp)
    | cons f toks =>
      simp only [advance, PState.of_cons] at h
      split at h
      · next hk =>
        rw [PState.getToken_eq_of] at h
        obtain ⟨pre, rest, h1, h2, h3⟩ := ih toks e st1 hw.2 h
        exact ⟨f :: pre, rest, by rw [h1]; rfl, by simp [h2, hk], h3⟩
      · exact absurd h (by simp)

theorem advance_map_kind (toks : List Tok) (e : Bool) :
    ∀ rest, advance (toks.map Tok.kind) (PState.of (toks ++ rest) e) =
      some (PState.of rest e) := by
  induction toks with
  | nil => intro rest; rfl
  | cons f toks ih =>
    intro rest
    simp only [List.map_cons, List.cons_append, advance, PState.of_cons, if_true,
      PState.getToken_eq_of]
    exact ih rest

/-- A statement sequence parsed without error from a stream that has no `ENDFILE` inside and
stopping at `ENDFILE` has read the whole stream, which is a sentence of `stmt_sequence`. -/
theorem stmt_sequence_clear_reads_all (fuel : Nat) (toks : List Tok) (e : Bool) (t : Tree)
    (st1 : PState) (hclean : ∀ k ∈ toks, k.kind ≠ .ENDFILE)
    (h : stmt_sequence fuel (PState.of toks e) = some (t, st1)) (he : st1.Error = false)
    (hend : st1.token = .ENDFILE) :
    st1 = PState.of [] e ∧ Derives .stmt_sequence (toks.map Tok.kind) := by
  obtain ⟨w, hw, ha⟩ := (sound_all fuel).stmt_sequence_snd _ _ _ h he
  obtain ⟨pre, rest, h1, h2, h3⟩ := advance_of w toks e st1 (derives_no_ENDFILE hw) ha
  have hrest : rest = [] := by
    cases rest with
    | nil => rfl
    | cons f rest =>
      rw [h3, PState.of_cons] at hend
      exact absurd hend (hclean f (by rw [h1]; simp))
  subst hrest
  rw [List.append_nil] at h1
  subst h1
  exact ⟨h3, by rw [h2]; exact hw⟩

/-- C15: when `stmt_sequence` returns, the current token is `ENDFILE`, `END`, `ELSE` or
`UNTIL`; `parse` therefore reports "Code ends before file" exactly when the sequence stopped at
`END`, `ELSE` or `UNTIL`; and when the scanner delivers `ENDFILE` only at the end of the source,
a parse that returns with `Error` clear is at `ENDFILE` with no token left unread. -/
theorem stmt_sequence_stops_at_end_token (fuel : Nat) :
    (∀ st t st1, stmt_sequence fuel st = some (t, st1) →
        st1.token = .ENDFILE ∨ st1.token = .END ∨ st1.token = .ELSE ∨ st1.token = .UNTIL) ∧
      (∀ st t st1, stmt_sequence fuel st.getToken = some (t, st1) →
        parse fuel st =
          some (t, if st1.token = .END ∨ st1.token = .ELSE ∨ st1.token = .UNTIL
            then syntaxError st1 else st1)) ∧
      (∀ st t st2, (∀ k ∈ st.rest, k.kind ≠ .ENDFILE) → parse fuel st = some (t, st2) →
        st2.Error = false → st2.token = .ENDFILE ∧ st2.rest = []) := by
  refine ⟨?_, ?_, ?_⟩
  · intro st t st1 h
    exact (endsSequence_iff _).1 (stmt_sequence_ends fuel st t st1 h)
  · intro st t st1 h
    have hends := (endsSequence_iff _).1 (stmt_sequence_ends fuel _ t st1 h)
    rw [parse, h]
    simp only []
    by_cases hk : st1.token = .ENDFILE
    · simp [hk]
    · have h2 : st1.token = .END ∨ st1.token = .ELSE ∨ st1.token = .UNTIL := by
        rcases hends with h | h
        · exact absurd h hk
        · exact h
      simp [hk, h2]
  · intro st t st2 hclean h he
    rw [parse] at h
    cases h1 : stmt_sequence fuel st.getToken with
    | none => rw [h1] at h; exact absurd h (by simp)
    | some x =>
      obtain ⟨q, st1⟩ := x
      rw [h1] at h
      simp only [Option.some.injEq, Prod.mk.injEq] at h
      obtain ⟨_, rfl⟩ := h
      by_cases hk : st1.token = .ENDFILE
      · have hst : (if st1.token ≠ .ENDFILE then syntaxError st1 else st1) = st1 := by
          simp [hk]
        rw [hst] at he ⊢
        rw [PState.getToken_eq_of_rest] at h1
        have h3 := (stmt_sequence_clear_reads_all fuel st.rest st.Error q st1 hclean h1 he hk).1
        rw [h3]
        exact ⟨rfl, rfl⟩
      · simp [hk, syntaxError] at he

theorem stmt_sequence_stops_at_end_token_witness :
    (stmt_sequence 5 (PState.of [tk .READ "read", tk .ID "x", tk .END "end"] false) =
        some (.node .null .null .null .null .StmtK (.stmt .ReadK) (.name "x".toList) .Void,
          PState.of [tk .END "end"] false) ∧
      ((PState.of [tk .END "end"] false).token = .ENDFILE ∨
        (PState.of [tk .END "end"] false).token = .END ∨
        (PState.of [tk .END "end"] false).token = .ELSE ∨
        (PState.of [tk .END "end"] false).token = .UNTIL)) ∧
      parse 5 (PState.initial [tk .READ "read", tk .ID "x", tk .END "end"]) =
        some (.node .null .null .null .null .StmtK (.stmt .ReadK) (.name "x".toList) .Void,
          PState.of [tk .END "end"] true) ∧
      ((∀ k ∈ (PState.initial [tk .READ "read", tk .ID "x"]).rest, k.kind ≠ .ENDFILE) ∧
        parse 5 (PState.initial [tk .READ "read", tk .ID "x"]) =
          some (.node .null .null .null .null .StmtK (.stmt .ReadK) (.name "x".toList) .Void,
            PState.of [] false) ∧
        (PState.of [] false).Error = false ∧
        (PState.of [] false).token = .ENDFILE ∧ (PState.of [] false).rest = []) :=
  ⟨⟨by decide,
      (stmt_sequence_stops_at_end_token 5).1
        (PState.of [tk .READ "read", tk .ID "x", tk .END "end"] false)
        (.node .null .null .null .null .StmtK (.stmt .ReadK) (.name "x".toList) .Void)
        (PState.of [tk .END "end"] false) (by decide)⟩,
    by decide,
    by decide, by decide, by decide,
    (stmt_sequence_stops_at_end_token 5).2.2
      (PState.initial [tk .READ "read", tk .ID "x"])
      (.node .null .null .null .null .StmtK (.stmt .ReadK) (.name "x".toList) .Void)
      (PState.of [] false) (by decide) (by decide) (by decide)⟩


/-! ## Parser: every sentence of the grammar is parsed without error -/

theorem advance_cons_inv {k : TokenType} {w : List TokenType} {st st1 : PState}
    (h : advance (k :: w) st = some st1) : st.token = k ∧ advance w st.getToken = some st1 := by
  simp only [advance] at h
  split at h
  · next hk => exact ⟨hk, h⟩
  · exact absurd h (by simp)

theorem advance_nil_inv {st st1 : PState} (h : advance [] st = some st1) : st1 = st := by
  simp only [advance, Option.some.injEq] at h
  exact h.symm

theorem advance_append_inv (w v : List TokenType) :
    ∀ st st2, advance (w ++ v) st = some st2 →
      ∃ st1, advance w st = some st1 ∧ advance v st1 = some st2 := by
  induction w with
  | nil => intro st st2 h; exact ⟨st, rfl, h⟩
  | cons k w ih =>
    intro st st2 h
    obtain ⟨hk, h1⟩ := advance_cons_inv h
    obtain ⟨st1, ha, hb⟩ := ih _ _ h1
    exact ⟨st1, advance_cons _ _ _ _ hk ha, hb⟩

theorem match_of_eq {e : TokenType} {st : PState} (h : st.token = e) :
    match_ e st = st.getToken := by
  rw [match_, if_pos h]

theorem accepts_factor_number {st : PState} (hk : st.token = .NUM) :
    Accepts factor st st.getToken := by
  refine ⟨1, fun fuel hf => ?_⟩
  obtain ⟨k, rfl⟩ : ∃ k, fuel = k + 1 := ⟨fuel - 1, by omega⟩
  exact ⟨_, by simp only [factor, hk, match_of_eq hk]; rfl⟩

theorem accepts_factor_identifier {st : PState} (hk : st.token = .ID) :
    Accepts factor st st.getToken := by
  refine ⟨1, fun fuel hf => ?_⟩
  obtain ⟨k, rfl⟩ : ∃ k, fuel = k + 1 := ⟨fuel - 1, by omega⟩
  exact ⟨_, by simp only [factor, hk, match_of_eq hk]; rfl⟩

theorem accepts_factor_paren {st st1 : PState} (hk : st.token = .LPAREN)
    (h1 : Accepts exp st.getToken st1) (hk1 : st1.token = .RPAREN) :
    Accepts factor st st1.getToken := by
  obtain ⟨f1, hf1⟩ := h1
  refine ⟨f1 + 1, fun fuel hf => ?_⟩
  obtain ⟨k, rfl⟩ : ∃ k, fuel = k + 1 := ⟨fuel - 1, by omega⟩
  obtain ⟨t, ht⟩ := hf1 k (by omega)
  exact ⟨t, by simp only [factor, hk, match_of_eq hk, ht, match_of_eq hk1]⟩

theorem accepts_seq {P F : Nat → PState → Option (Tree × PState)}
    {L : Nat → Tree → PState → Option (Tree × PState)}
    (hP : ∀ fuel st, P (fuel + 1) st =
      match F fuel st with
      | none => none
      | some (t, st1) => L fuel t st1)
    {st st1 st2 : PState} (h1 : Accepts F st st1) (h2 : AcceptsLoop L st1 st2) :
    Accepts P st st2 := by
  obtain ⟨f1, hf1⟩ := h1
  obtain ⟨f2, hf2⟩ := h2
  refine ⟨max f1 f2 + 1, fun fuel hf => ?_⟩
  obtain ⟨k, rfl⟩ : ∃ k, fuel = k + 1 := ⟨fuel - 1, by omega⟩
  obtain ⟨t, ht⟩ := hf1 k (by omega)
  obtain ⟨t1, ht1⟩ := hf2 k (by omega) t
  exact ⟨t1, by rw [hP, ht]; exact ht1⟩

theorem accepts_term {st st1 st2 : PState} (h1 : Accepts factor st st1)
    (h2 : AcceptsLoop term_loop st1 st2) : Accepts term st st2 :=
  accepts_seq (fun fuel st => by rw [term]) h1 h2

theorem accepts_arithmetic_exp {st st1 st2 : PState} (h1 : Accepts term st st1)
    (h2 : AcceptsLoop arithmetic_exp_loop st1 st2) : Accepts arithmetic_exp st st2 :=
  accepts_seq (fun fuel st => by rw [arithmetic_exp]) h1 h2

theorem accepts_bterm {st st1 st2 : PState} (h1 : Accepts bfactor st st1)
    (h2 : AcceptsLoop bterm_loop st1 st2) : Accepts bterm st st2 :=
  accepts_seq (fun fuel st => by rw [bterm]) h1 h2

theorem accepts_bool_exp {st st1 st2 : PState} (h1 : Accepts bterm st st1)
    (h2 : AcceptsLoop bool_exp_loop st1 st2) : Accepts bool_exp st st2 :=
  accepts_seq (fun fuel st => by rw [bool_exp]) h1 h2

theorem accepts_stmt_sequence {st st1 st2 : PState} (h1 : Accepts statement st st1)
    (h2 : AcceptsLoop stmt_sequence_loop st1 st2) : Accepts stmt_sequence st st2 :=
  accepts_seq (fun fuel st => by rw [stmt_sequence]) h1 h2

theorem accepts_term_loop_stop {st : PState} (h : ¬ mulC st.token) :
    AcceptsLoop term_loop st st := by
  refine ⟨1, fun fuel hf t0 => ?_⟩
  obtain ⟨k, rfl⟩ : ∃ k, fuel = k + 1 := ⟨fuel - 1, by omega⟩
  exact ⟨t0, by rw [term_loop, if_neg h]⟩

theorem accepts_term_loop_step {st st1 st2 : PState} (h : mulC st.token)
    (h1 : Accepts factor st.getToken st1) (h2 : AcceptsLoop term_loop st1 st2) :
    AcceptsLoop term_loop st st2 := by
  obtain ⟨f1, hf1⟩ := h1
  obtain ⟨f2, hf2⟩ := h2
  refine ⟨max f1 f2 + 1, fun fuel hf t0 => ?_⟩
  obtain ⟨k, rfl⟩ : ∃ k, fuel = k + 1 := ⟨fuel - 1, by omega⟩
  obtain ⟨t, ht⟩ := hf1 k (by omega)
  obtain ⟨t1, ht1⟩ := hf2 k (by omega)
    ((((newExpNode .OpK).setChild0 t0).setAttr (.op st.token)).setChild1 t)
  exact ⟨t1, by rw [term_loop, if_pos h, match_self, ht]; exact ht1⟩

theorem accepts_arithmetic_exp_loop_stop {st : PState}
    (h : ¬ (st.token = .PLUS ∨ st.token = .MINUS)) :
    AcceptsLoop arithmetic_exp_loop st st := by
  refine ⟨1, fun fuel hf t0 => ?_⟩
  obtain ⟨k, rfl⟩ : ∃ k, fuel = k + 1 := ⟨fuel - 1, by omega⟩
  exact ⟨t0, by rw [arithmetic_exp_loop, if_neg h]⟩

theorem accepts_arithmetic_exp_loop_step {st st1 st2 : PState}
    (h : st.token = .PLUS ∨ st.token = .MINUS)
    (h1 : Accepts term st.getToken st1) (h2 : AcceptsLoop arithmetic_exp_loop st1 st2) :
    AcceptsLoop arithmetic_exp_loop st st2 := by
  obtain ⟨f1, hf1⟩ := h1
  obtain ⟨f2, hf2⟩ := h2
  refine ⟨max f1 f2 + 1, fun fuel hf t0 => ?_⟩
  obtain ⟨k, rfl⟩ : ∃ k, fuel = k + 1 := ⟨fuel - 1, by omega⟩
  obtain ⟨t, ht⟩ := hf1 k (by omega)
  obtain ⟨t1, ht1⟩ := hf2 k (by omega)
    ((((newExpNode .OpK).setChild0 t0).setAttr (.op st.token)).setChild1 t)
  exact ⟨t1, by rw [arithmetic_exp_loop, if_pos h, match_self, ht]; exact ht1⟩

theorem accepts_bterm_loop_stop {st : PState} (h : ¬ st.token = .AND) :
    AcceptsLoop bterm_loop st st := by
  refine ⟨1, fun fuel hf t0 => ?_⟩
  obtain ⟨k, rfl⟩ : ∃ k, fuel = k + 1 := ⟨fuel - 1, by omega⟩
  exact ⟨t0, by rw [bterm_loop, if_neg h]⟩

theorem accepts_bterm_loop_step {st st1 st2 : PState} (h : st.token = .AND)
    (h1 : Accepts bfactor st.getToken st1) (h2 : AcceptsLoop bterm_loop st1 st2) :
    AcceptsLoop bterm_loop st st2 := by
  obtain ⟨f1, hf1⟩ := h1
  obtain ⟨f2, hf2⟩ := h2
  refine ⟨max f1 f2 + 1, fun fuel hf t0 => ?_⟩
  obtain ⟨k, rfl⟩ : ∃ k, fuel = k + 1 := ⟨fuel - 1, by omega⟩
  obtain ⟨t, ht⟩ := hf1 k (by omega)
  obtain ⟨t1, ht1⟩ := hf2 k (by omega)
    ((((newExpNode .LogicOpk).setChild0 t0).setAttr (.op st.token)).setChild1 t)
  exact ⟨t1, by rw [bterm_loop, if_pos h, match_self, ht]; exact ht1⟩

theorem accepts_bool_exp_loop_stop {st : PState} (h : ¬ st.token = .OR) :
    AcceptsLoop bool_exp_loop st st := by
  refine ⟨1, fun fuel hf t0 => ?_⟩
  obtain ⟨k, rfl⟩ : ∃ k, fuel = k + 1 := ⟨fuel - 1, by omega⟩
  exact ⟨t0, by rw [bool_exp_loop, if_neg h]⟩

theorem accepts_bool_exp_loop_step {st st1 st2 : PState} (h : st.token = .OR)
    (h1 : Accepts bterm st.getToken st1) (h2 : AcceptsLoop bool_exp_loop st1 st2) :
    AcceptsLoop bool_exp_loop st st2 := by
  obtain ⟨f1, hf1⟩ := h1
  obtain ⟨f2, hf2⟩ := h2
  refine ⟨max f1 f2 + 1, fun fuel hf t0 => ?_⟩
  obtain ⟨k, rfl⟩ : ∃ k, fuel = k + 1 := ⟨fuel - 1, by omega⟩
  obtain ⟨t, ht⟩ := hf1 k (by omega)
  obtain ⟨t1, ht1⟩ := hf2 k (by omega)
    ((((newExpNode .LogicOpk).setChild0 t0).setAttr (.op st.token)).setChild1 t)
  exact ⟨t1, by rw [bool_exp_loop, if_pos h, match_self, ht]; exact ht1⟩

theorem accepts_stmt_sequence_loop_stop {st : PState} (h : endsSequence st.token = true) :
    AcceptsLoop stmt_sequence_loop st st := by
  refine ⟨1, fun fuel hf t0 => ?_⟩
  obtain ⟨k, rfl⟩ : ∃ k, fuel = k + 1 := ⟨fuel - 1, by omega⟩
  exact ⟨t0, by rw [stmt_sequence_loop, if_pos h]⟩

theorem accepts_stmt_sequence_loop_step {st st1 st2 : PState} (h : st.token = .SEMI)
    (h1 : Accepts statement st.getToken st1) (h2 : AcceptsLoop stmt_sequence_loop st1 st2) :
    AcceptsLoop stmt_sequence_loop st st2 := by
  obtain ⟨f1, hf1⟩ := h1
  obtain ⟨f2, hf2⟩ := h2
  refine ⟨max f1 f2 + 1, fun fuel hf t0 => ?_⟩
  obtain ⟨k, rfl⟩ : ∃ k, fuel = k + 1 := ⟨fuel - 1, by omega⟩
  obtain ⟨t, ht⟩ := hf1 k (by omega)
  obtain ⟨t1, ht1⟩ := hf2 k (by omega) (link t0 t)
  have hne : ¬ endsSequence st.token = true := by rw [h]; decide
  exact ⟨t1, by rw [stmt_sequence_loop, if_neg hne, match_of_eq h, ht]; exact ht1⟩

theorem accepts_comparison_single {st st1 : PState} (h1 : Accepts arithmetic_exp st st1)
    (hk : ¬ isComparison st1.token = true) : Accepts comparison_exp st st1 := by
  obtain ⟨f1, hf1⟩ := h1
  refine ⟨f1 + 1, fun fuel hf => ?_⟩
  obtain ⟨k, rfl⟩ : ∃ k, fuel = k + 1 := ⟨fuel - 1, by omega⟩
  obtain ⟨t, ht⟩ := hf1 k (by omega)
  exact ⟨t, by rw [comparison_exp, ht]; simp only []; rw [if_neg hk]⟩

theorem accepts_comparison_pair {st st1 st2 : PState} (h1 : Accepts arithmetic_exp st st1)
    (hk : isComparison st1.token = true) (h2 : Accepts arithmetic_exp st1.getToken st2) :
    Accepts comparison_exp st st2 := by
  obtain ⟨f1, hf1⟩ := h1
  obtain ⟨f2, hf2⟩ := h2
  refine ⟨max f1 f2 + 1, fun fuel hf => ?_⟩
  obtain ⟨k, rfl⟩ : ∃ k, fuel = k + 1 := ⟨fuel - 1, by omega⟩
  obtain ⟨t, ht⟩ := hf1 k (by omega)
  obtain ⟨t1, ht1⟩ := hf2 k (by omega)
  exact ⟨_, by rw [comparison_exp, ht]; simp only []; rw [if_pos hk, match_self, ht1]⟩

theorem accepts_bfactor {st st1 : PState} (h1 : Accepts comparison_exp st st1) :
    Accepts bfactor st st1 := by
  obtain ⟨f1, hf1⟩ := h1
  refine ⟨f1 + 1, fun fuel hf => ?_⟩
  obtain ⟨k, rfl⟩ : ∃ k, fuel = k + 1 := ⟨fuel - 1, by omega⟩
  obtain ⟨t, ht⟩ := hf1 k (by omega)
  exact ⟨t, by rw [bfactor, ht]⟩

theorem accepts_exp_string {st : PState} (hk : st.token = .STR) :
    Accepts exp st st.getToken := by
  refine ⟨1, fun fuel hf => ?_⟩
  obtain ⟨k, rfl⟩ : ∃ k, fuel = k + 1 := ⟨fuel - 1, by omega⟩
  exact ⟨.undef, by simp only [exp, hk, string_exp, match_of_eq hk]⟩

theorem accepts_exp_bool {st st1 : PState} (hk1 : st.token ≠ .STR) (hk2 : st.token ≠ .ERROR)
    (h1 : Accepts bool_exp st st1) : Accepts exp st st1 := by
  obtain ⟨f1, hf1⟩ := h1
  refine ⟨f1 + 1, fun fuel hf => ?_⟩
  obtain ⟨k, rfl⟩ : ∃ k, fuel = k + 1 := ⟨fuel - 1, by omega⟩
  obtain ⟨t, ht⟩ := hf1 k (by omega)
  have h := exp_state_eq_bool_exp k st hk1 hk2
  rw [ht] at h
  cases hx : exp (k + 1) st with
  | none => rw [hx] at h; exact absurd h (by simp)
  | some x =>
    obtain ⟨q, st2⟩ := x
    rw [hx] at h
    simp only [Option.map_some', Option.some.injEq] at h
    exact ⟨q, by rw [h]⟩

theorem accepts_write_stmt {st st1 : PState} (hk : st.token = .WRITE)
    (h1 : Accepts exp st.getToken st1) : Accepts write_stmt st st1 := by
  obtain ⟨f1, hf1⟩ := h1
  refine ⟨f1 + 1, fun fuel hf => ?_⟩
  obtain ⟨k, rfl⟩ : ∃ k, fuel = k + 1 := ⟨fuel - 1, by omega⟩
  obtain ⟨t, ht⟩ := hf1 k (by omega)
  exact ⟨_, by rw [write_stmt, match_of_eq hk, ht]⟩

theorem accepts_assign_stmt {st st1 : PState} (hk : st.token = .ID)
    (hk1 : st.getToken.token = .ASSIGN) (h1 : Accepts exp st.getToken.getToken st1) :
    Accepts assign_stmt st st1 := by
  obtain ⟨f1, hf1⟩ := h1
  refine ⟨f1 + 1, fun fuel hf => ?_⟩
  obtain ⟨k, rfl⟩ : ∃ k, fuel = k + 1 := ⟨fuel - 1, by omega⟩
  obtain ⟨t, ht⟩ := hf1 k (by omega)
  exact ⟨_, by rw [assign_stmt, match_of_eq hk, match_of_eq hk1, ht]⟩

theorem accepts_repeat_stmt {st st1 st2 : PState} (hk : st.token = .REPEAT)
    (h1 : Accepts stmt_sequence st.getToken st1) (hk1 : st1.token = .UNTIL)
    (h2 : Accepts bool_exp st1.getToken st2) : Accepts repeat_stmt st st2 := by
  obtain ⟨f1, hf1⟩ := h1
  obtain ⟨f2, hf2⟩ := h2
  refine ⟨max f1 f2 + 1, fun fuel hf => ?_⟩
  obtain ⟨k, rfl⟩ : ∃ k, fuel = k + 1 := ⟨fuel - 1, by omega⟩
  obtain ⟨t, ht⟩ := hf1 k (by omega)
  obtain ⟨t1, ht1⟩ := hf2 k (by omega)
  exact ⟨_, by rw [repeat_stmt, match_of_eq hk, ht]; simp only []; rw [match_of_eq hk1, ht1]⟩

theorem accepts_while_stmt {st st1 st2 : PState} (hk : st.token = .WHILE)
    (h1 : Accepts bool_exp st.getToken st1) (hk1 : st1.token = .DO)
    (h2 : Accepts stmt_sequence st1.getToken st2) (hk2 : st2.token = .END) :
    Accepts while_stmt st st2.getToken := by
  obtain ⟨f1, hf1⟩ := h1
  obtain ⟨f2, hf2⟩ := h2
  refine ⟨max f1 f2 + 1, fun fuel hf => ?_⟩
  obtain ⟨k, rfl⟩ : ∃ k, fuel = k + 1 := ⟨fuel - 1, by omega⟩
  obtain ⟨t, ht⟩ := hf1 k (by omega)
  obtain ⟨t1, ht1⟩ := hf2 k (by omega)
  exact ⟨_, by
    rw [while_stmt, match_of_eq hk, ht]; simp only []
    rw [match_of_eq hk1, ht1]; simp only []; rw [match_of_eq hk2]⟩

theorem accepts_if_stmt {st st1 st2 : PState} (hk : st.token = .IF)
    (h1 : Accepts bool_exp st.getToken st1) (hk1 : st1.token = .THEN)
    (h2 : Accepts stmt_sequence st1.getToken st2) (hk2 : st2.token = .END) :
    Accepts if_stmt st st2.getToken := by
  obtain ⟨f1, hf1⟩ := h1
  obtain ⟨f2, hf2⟩ := h2
  refine ⟨max f1 f2 + 1, fun fuel hf => ?_⟩
  obtain ⟨k, rfl⟩ : ∃ k, fuel = k + 1 := ⟨fuel - 1, by omega⟩
  obtain ⟨t, ht⟩ := hf1 k (by omega)
  obtain ⟨t1, ht1⟩ := hf2 k (by omega)
  have hne : ¬ st2.token = .ELSE := by rw [hk2]; decide
  exact ⟨_, by
    rw [if_stmt, match_of_eq hk, ht]; simp only []
    rw [match_of_eq hk1, ht1]; simp only []; rw [if_neg hne, match_of_eq hk2]⟩

theorem accepts_if_else_stmt {st st1 st2 st3 : PState} (hk : st.token = .IF)
    (h1 : Accepts bool_exp st.getToken st1) (hk1 : st1.token = .THEN)
    (h2 : Accepts stmt_sequence st1.getToken st2) (hk2 : st2.token = .ELSE)
    (h3 : Accepts stmt_sequence st2.getToken st3) (hk3 : st3.token = .END) :
    Accepts if_stmt st st3.getToken := by
  obtain ⟨f1, hf1⟩ := h1
  obtain ⟨f2, hf2⟩ := h2
  obtain ⟨f3, hf3⟩ := h3
  refine ⟨max f1 (max f2 f3) + 1, fun fuel hf => ?_⟩
  obtain ⟨k, rfl⟩ : ∃ k, fuel = k + 1 := ⟨fuel - 1, by omega⟩
  obtain ⟨t, ht⟩ := hf1 k (by omega)
  obtain ⟨t1, ht1⟩ := hf2 k (by omega)
  obtain ⟨t2, ht2⟩ := hf3 k (by omega)
  exact ⟨_, by
    rw [if_stmt, match_of_eq hk, ht]; simp only []
    rw [match_of_eq hk1, ht1]; simp only []
    rw [if_pos hk2, match_of_eq hk2, ht2]; simp only []; rw [match_of_eq hk3]⟩

theorem accepts_statement_of {P : Nat → PState → Option (Tree × PState)} {st st1 : PState}
    (hP : ∀ fuel, statement (fuel + 1) st = P fuel st) (h1 : Accepts P st st1) :
    Accepts statement st st1 := by
  obtain ⟨f1, hf1⟩ := h1
  refine ⟨f1 + 1, fun fuel hf => ?_⟩
  obtain ⟨k, rfl⟩ : ∃ k, fuel = k + 1 := ⟨fuel - 1, by omega⟩
  obtain ⟨t, ht⟩ := hf1 k (by omega)
  exact ⟨t, by rw [hP, ht]⟩

theorem accepts_statement_read {st : PState} (hk : st.token = .READ)
    (hk1 : st.getToken.token = .ID) : Accepts statement st st.getToken.getToken := by
  refine ⟨1, fun fuel hf => ?_⟩
  obtain ⟨k, rfl⟩ : ∃ k, fuel = k + 1 := ⟨fuel - 1, by omega⟩
  exact ⟨_, by
    simp only [statement, hk, read_stmt, match_of_eq hk, match_of_eq hk1]; rfl⟩

theorem derives_startsOperand {N : NT} {w : List TokenType} (h : Derives N w) :
    StartsOperand N w := by
  induction h with
  | term _ _ ih _ =>
    obtain ⟨k, v, rfl, hk⟩ := ih
    exact ⟨k, _, rfl, hk⟩
  | arithmetic_exp _ _ ih _ =>
    obtain ⟨k, v, rfl, hk⟩ := ih
    exact ⟨k, _, rfl, hk⟩
  | bterm _ _ ih _ =>
    obtain ⟨k, v, rfl, hk⟩ := ih
    exact ⟨k, _, rfl, hk⟩
  | bool_exp _ _ ih _ =>
    obtain ⟨k, v, rfl, hk⟩ := ih
    exact ⟨k, _, rfl, hk⟩
  | comparison_pair op _ _ _ ih _ =>
    obtain ⟨k, v, rfl, hk⟩ := ih
    exact ⟨k, _, rfl, hk⟩
  | comparison_single _ ih => exact ih
  | bfactor _ ih => exact ih
  | factor_paren _ _ => exact ⟨_, _, rfl, Or.inl rfl⟩
  | factor_number => exact ⟨_, _, rfl, Or.inr (Or.inl rfl)⟩
  | factor_identifier => exact ⟨_, _, rfl, Or.inr (Or.inr rfl)⟩
  | _ => trivial

theorem first_of_stmt_tail {v : List TokenType} (h : Derives .stmt_tail v) {st1 st2 : PState}
    (ha : advance v st1 = some st2) : st2 = st1 ∨ st1.token = .SEMI := by
  cases h with
  | stmt_tail_nil => exact Or.inl (advance_nil_inv ha)
  | stmt_tail_cons _ _ => exact Or.inr (advance_cons_inv ha).1

theorem first_of_add_tail {v : List TokenType} (h : Derives .add_tail v) {st1 st2 : PState}
    (ha : advance v st1 = some st2) : st2 = st1 ∨ st1.token = .PLUS ∨ st1.token = .MINUS := by
  cases h with
  | add_tail_nil => exact Or.inl (advance_nil_inv ha)
  | add_tail_plus _ _ => exact Or.inr (Or.inl (advance_cons_inv ha).1)
  | add_tail_minus _ _ => exact Or.inr (Or.inr (advance_cons_inv ha).1)

theorem first_of_and_tail {v : List TokenType} (h : Derives .and_tail v) {st1 st2 : PState}
    (ha : advance v st1 = some st2) : st2 = st1 ∨ st1.token = .AND := by
  cases h with
  | and_tail_nil => exact Or.inl (advance_nil_inv ha)
  | and_tail_cons _ _ => exact Or.inr (advance_cons_inv ha).1

theorem first_of_or_tail {v : List TokenType} (h : Derives .or_tail v) {st1 st2 : PState}
    (ha : advance v st1 = some st2) : st2 = st1 ∨ st1.token = .OR := by
  cases h with
  | or_tail_nil => exact Or.inl (advance_nil_inv ha)
  | or_tail_cons _ _ => exact Or.inr (advance_cons_inv ha).1

theorem not_orC_of_ends {tok : TokenType} (h : endsSequence tok = true) : ¬ orC tok := by
  rcases (endsSequence_iff tok).1 h with h | h | h | h <;> rw [h] <;> decide

theorem not_addC_of_comparison {tok : TokenType} (h : isComparison tok = true) :
    ¬ addC tok := by
  cases tok <;> first | decide | exact absurd h (by decide)

theorem startsOperand_token {w : List TokenType} {st st1 : PState}
    (h : ∃ k v, w = k :: v ∧ (k = .LPAREN ∨ k = .NUM ∨ k = .ID))
    (ha : advance w st = some st1) : st.token ≠ .STR ∧ st.token ≠ .ERROR := by
  obtain ⟨k, v, rfl, hk⟩ := h
  have := (advance_cons_inv ha).1
  rw [this]
  rcases hk with h | h | h <;> rw [h] <;> decide

/-- From an arithmetic expression that is not followed by a comparison, `and` or `or`, up to
`bool_exp`. -/
theorem accepts_bool_exp_of_arithmetic {st st1 : PState}
    (h : Accepts arithmetic_exp st st1) (hf : ¬ orC st1.token) : Accepts bool_exp st st1 := by
  have h1 : ¬ isComparison st1.token = true := fun hc => hf (Or.inl (Or.inl (Or.inr hc)))
  have h2 : ¬ st1.token = .AND := fun hc => hf (Or.inl (Or.inr hc))
  have h3 : ¬ st1.token = .OR := fun hc => hf (Or.inr hc)
  exact accepts_bool_exp
    (accepts_bterm (accepts_bfactor (accepts_comparison_single h h1))
      (accepts_bterm_loop_stop h2))
    (accepts_bool_exp_loop_stop h3)

theorem derives_complete {N : NT} {w : List TokenType} (h : Derives N w) : Complete N w := by
  induction h with
  | stmt_sequence _ ht ih1 ih2 =>
    intro st st2 ha hend
    obtain ⟨st1, ha1, ha2⟩ := advance_append_inv _ _ _ _ ha
    have hmid : ¬ orC st1.token := by
      rcases first_of_stmt_tail ht ha2 with h | h
      · rw [← h]; exact not_orC_of_ends hend
      · rw [h]; decide
    exact accepts_stmt_sequence (ih1 st st1 ha1 hmid) (ih2 st1 st2 ha2 hend)
  | stmt_tail_nil =>
    intro st st1 ha hend
    rw [advance_nil_inv ha] at hend ⊢
    exact accepts_stmt_sequence_loop_stop hend
  | stmt_tail_cons _ ht ih1 ih2 =>
    intro st st2 ha hend
    obtain ⟨hk, ha0⟩ := advance_cons_inv ha
    obtain ⟨st1, ha1, ha2⟩ := advance_append_inv _ _ _ _ ha0
    have hmid : ¬ orC st1.token := by
      rcases first_of_stmt_tail ht ha2 with h | h
      · rw [← h]; exact not_orC_of_ends hend
      · rw [h]; decide
    exact accepts_stmt_sequence_loop_step hk (ih1 _ st1 ha1 hmid) (ih2 st1 st2 ha2 hend)
  | statement_if _ ih =>
    intro st st1 ha _
    obtain ⟨hk, h1⟩ := ih st st1 ha
    exact accepts_statement_of (fun fuel => by simp only [statement, hk]) h1
  | statement_while _ ih =>
    intro st st1 ha _
    obtain ⟨hk, h1⟩ := ih st st1 ha
    exact accepts_statement_of (fun fuel => by simp only [statement, hk]) h1
  | statement_repeat _ ih =>
    intro st st1 ha hf
    obtain ⟨hk, h1⟩ := ih st st1 ha hf
    exact accepts_statement_of (fun fuel => by simp only [statement, hk]) h1
  | statement_assign _ ih =>
    intro st st1 ha hf
    obtain ⟨hk, h1⟩ := ih st st1 ha hf
    exact accepts_statement_of (fun fuel => by simp only [statement, hk]) h1
  | statement_read _ ih =>
    intro st st1 ha _
    obtain ⟨hk, hk1, h1⟩ := ih st st1 ha
    rw [h1]
    exact accepts_statement_read hk hk1
  | statement_write _ ih =>
    intro st st1 ha hf
    obtain ⟨hk, h1⟩ := ih st st1 ha hf
    exact accepts_statement_of (fun fuel => by simp only [statement, hk]) h1
  | if_stmt _ _ ih1 ih2 =>
    intro st st3 ha
    simp only [List.cons_append, List.append_assoc] at ha
    obtain ⟨hk, ha0⟩ := advance_cons_inv ha
    obtain ⟨st1, ha1, hb0⟩ := advance_append_inv _ _ _ _ ha0
    obtain ⟨hk1, hb1⟩ := advance_cons_inv hb0
    obtain ⟨st2, ha2, hc0⟩ := advance_append_inv _ _ _ _ hb1
    obtain ⟨hk2, hc1⟩ := advance_cons_inv hc0
    rw [advance_nil_inv hc1]
    exact ⟨hk, accepts_if_stmt hk (ih1 _ st1 ha1 (by rw [hk1]; decide)) hk1
      (ih2 _ st2 ha2 (by rw [hk2]; decide)) hk2⟩
  | if_else_stmt _ _ _ ih1 ih2 ih3 =>
    intro st st4 ha
    simp only [List.cons_append, List.append_assoc] at ha
    obtain ⟨hk, ha0⟩ := advance_cons_inv ha
    obtain ⟨st1, ha1, hb0⟩ := advance_append_inv _ _ _ _ ha0
    obtain ⟨hk1, hb1⟩ := advance_cons_inv hb0
    obtain ⟨st2, ha2, hc0⟩ := advance_append_inv _ _ _ _ hb1
    obtain ⟨hk2, hc1⟩ := advance_cons_inv hc0
    obtain ⟨st3, ha3, hd0⟩ := advance_append_inv _ _ _ _ hc1
    obtain ⟨hk3, hd1⟩ := advance_cons_inv hd0
    rw [advance_nil_inv hd1]
    exact ⟨hk, accepts_if_else_stmt hk (ih1 _ st1 ha1 (by rw [hk1]; decide)) hk1
      (ih2 _ st2 ha2 (by rw [hk2]; decide)) hk2
      (ih3 _ st3 ha3 (by rw [hk3]; decide)) hk3⟩
  | while_stmt _ _ ih1 ih2 =>
    intro st st3 ha
    simp only [List.cons_append, List.append_assoc] at ha
    obtain ⟨hk, ha0⟩ := advance_cons_inv ha
    obtain ⟨st1, ha1, hb0⟩ := advance_append_inv _ _ _ _ ha0
    obtain ⟨hk1, hb1⟩ := advance_cons_inv hb0
    obtain ⟨st2, ha2, hc0⟩ := advance_append_inv _ _ _ _ hb1
    obtain ⟨hk2, hc1⟩ := advance_cons_inv hc0
    rw [advance_nil_inv hc1]
    exact ⟨hk, accepts_while_stmt hk (ih1 _ st1 ha1 (by rw [hk1]; decide)) hk1
      (ih2 _ st2 ha2 (by rw [hk2]; decide)) hk2⟩
  | repeat_stmt _ _ ih1 ih2 =>
    intro st st2 ha hf
    simp only [List.cons_append] at ha
    obtain ⟨hk, ha0⟩ := advance_cons_inv ha
    obtain ⟨st1, ha1, hb0⟩ := advance_append_inv _ _ _ _ ha0
    obtain ⟨hk1, hb1⟩ := advance_cons_inv hb0
    exact ⟨hk, accepts_repeat_stmt hk (ih1 _ st1 ha1 (by rw [hk1]; decide)) hk1
      (ih2 _ st2 hb1 hf)⟩
  | assign_stmt _ ih =>
    intro st st1 ha hf
    obtain ⟨hk, ha0⟩ := advance_cons_inv ha
    obtain ⟨hk1, ha1⟩ := advance_cons_inv ha0
    exact ⟨hk, accepts_assign_stmt hk hk1 (ih _ st1 ha1 hf)⟩
  | read_stmt =>
    intro st st1 ha
    obtain ⟨hk, ha0⟩ := advance_cons_inv ha
    obtain ⟨hk1, ha1⟩ := advance_cons_inv ha0
    exact ⟨hk, hk1, advance_nil_inv ha1⟩
  | write_stmt _ ih =>
    intro st st1 ha hf
    obtain ⟨hk, ha0⟩ := advance_cons_inv ha
    exact ⟨hk, accepts_write_stmt hk (ih _ st1 ha0 hf)⟩
  | exp_string _ ih =>
    intro st st1 ha _
    obtain ⟨hk, h1⟩ := ih st st1 ha
    rw [h1]
    exact accepts_exp_string hk
  | exp_arithmetic hd ih =>
    intro st st1 ha hf
    obtain ⟨hk1, hk2⟩ := startsOperand_token (derives_startsOperand hd) ha
    exact accepts_exp_bool hk1 hk2
      (accepts_bool_exp_of_arithmetic (ih st st1 ha (fun hc => hf (Or.inl (Or.inl (Or.inl hc)))))
        hf)
  | exp_bool hd ih =>
    intro st st1 ha hf
    obtain ⟨hk1, hk2⟩ := startsOperand_token (derives_startsOperand hd) ha
    exact accepts_exp_bool hk1 hk2 (ih st st1 ha hf)
  | arithmetic_exp _ ht ih1 ih2 =>
    intro st st2 ha hf
    obtain ⟨st1, ha1, ha2⟩ := advance_append_inv _ _ _ _ ha
    have hmid : ¬ mulC st1.token := by
      rcases first_of_add_tail ht ha2 with h | h | h
      · rw [← h]; exact fun hc => hf (Or.inl hc)
      · rw [h]; decide
      · rw [h]; decide
    exact accepts_arithmetic_exp (ih1 st st1 ha1 hmid) (ih2 st1 st2 ha2 hf)
  | add_tail_nil =>
    intro st st1 ha hf
    rw [advance_nil_inv ha] at hf ⊢
    exact accepts_arithmetic_exp_loop_stop (fun hc => hf (Or.inr hc))
  | add_tail_plus _ ht ih1 ih2 =>
    intro st st2 ha hf
    obtain ⟨hk, ha0⟩ := advance_cons_inv ha
    obtain ⟨st1, ha1, ha2⟩ := advance_append_inv _ _ _ _ ha0
    have hmid : ¬ mulC st1.token := by
      rcases first_of_add_tail ht ha2 with h | h | h
      · rw [← h]; exact fun hc => hf (Or.inl hc)
      · rw [h]; decide
      · rw [h]; decide
    exact accepts_arithmetic_exp_loop_step (Or.inl hk) (ih1 _ st1 ha1 hmid)
      (ih2 st1 st2 ha2 hf)
  | add_tail_minus _ ht ih1 ih2 =>
    intro st st2 ha hf
    obtain ⟨hk, ha0⟩ := advance_cons_inv ha
    obtain ⟨st1, ha1, ha2⟩ := advance_append_inv _ _ _ _ ha0
    have hmid : ¬ mulC st1.token := by
      rcases first_of_add_tail ht ha2 with h | h | h
      · rw [← h]; exact fun hc => hf (Or.inl hc)
      · rw [h]; decide
      · rw [h]; decide
    exact accepts_arithmetic_exp_loop_step (Or.inr hk) (ih1 _ st1 ha1 hmid)
      (ih2 st1 st2 ha2 hf)
  | term _ _ ih1 ih2 =>
    intro st st2 ha hf
    obtain ⟨st1, ha1, ha2⟩ := advance_append_inv _ _ _ _ ha
    exact accepts_term (ih1 st st1 ha1) (ih2 st1 st2 ha2 hf)
  | mul_tail_nil =>
    intro st st1 ha hf
    rw [advance_nil_inv ha] at hf ⊢
    exact accepts_term_loop_stop hf
  | mul_tail_times _ _ ih1 ih2 =>
    intro st st2 ha hf
    obtain ⟨hk, ha0⟩ := advance_cons_inv ha
    obtain ⟨st1, ha1, ha2⟩ := advance_append_inv _ _ _ _ ha0
    exact accepts_term_loop_step (Or.inl hk) (ih1 _ st1 ha1) (ih2 st1 st2 ha2 hf)
  | mul_tail_over _ _ ih1 ih2 =>
    intro st st2 ha hf
    obtain ⟨hk, ha0⟩ := advance_cons_inv ha
    obtain ⟨st1, ha1, ha2⟩ := advance_append_inv _ _ _ _ ha0
    exact accepts_term_loop_step (Or.inr hk) (ih1 _ st1 ha1) (ih2 st1 st2 ha2 hf)
  | factor_paren _ ih =>
    intro st st2 ha
    simp only [List.cons_append] at ha
    obtain ⟨hk, ha0⟩ := advance_cons_inv ha
    obtain ⟨st1, ha1, hb0⟩ := advance_append_inv _ _ _ _ ha0
    obtain ⟨hk1, hb1⟩ := advance_cons_inv hb0
    rw [advance_nil_inv hb1]
    exact accepts_factor_paren hk (ih _ st1 ha1 (by rw [hk1]; decide)) hk1
  | factor_number =>
    intro st st1 ha
    obtain ⟨hk, ha0⟩ := advance_cons_inv ha
    rw [advance_nil_inv ha0]
    exact accepts_factor_number hk
  | factor_identifier =>
    intro st st1 ha
    obtain ⟨hk, ha0⟩ := advance_cons_inv ha
    rw [advance_nil_inv ha0]
    exact accepts_factor_identifier hk
  | bool_exp _ ht ih1 ih2 =>
    intro st st2 ha hf
    obtain ⟨st1, ha1, ha2⟩ := advance_append_inv _ _ _ _ ha
    have hmid : ¬ andC st1.token := by
      rcases first_of_or_tail ht ha2 with h | h
      · rw [← h]; exact fun hc => hf (Or.inl hc)
      · rw [h]; decide
    exact accepts_bool_exp (ih1 st st1 ha1 hmid) (ih2 st1 st2 ha2 hf)
  | or_tail_nil =>
    intro st st1 ha hf
    rw [advance_nil_inv ha] at hf ⊢
    exact accepts_bool_exp_loop_stop (fun hc => hf (Or.inr hc))
  | or_tail_cons _ ht ih1 ih2 =>
    intro st st2 ha hf
    obtain ⟨hk, ha0⟩ := advance_cons_inv ha
    obtain ⟨st1, ha1, ha2⟩ := advance_append_inv _ _ _ _ ha0
    have hmid : ¬ andC st1.token := by
      rcases first_of_or_tail ht ha2 with h | h
      · rw [← h]; exact fun hc => hf (Or.inl hc)
      · rw [h]; decide
    exact accepts_bool_exp_loop_step hk (ih1 _ st1 ha1 hmid) (ih2 st1 st2 ha2 hf)
  | bterm _ ht ih1 ih2 =>
    intro st st2 ha hf
    obtain ⟨st1, ha1, ha2⟩ := advance_append_inv _ _ _ _ ha
    have hmid : ¬ cmpC st1.token := by
      rcases first_of_and_tail ht ha2 with h | h
      · rw [← h]; exact fun hc => hf (Or.inl hc)
      · rw [h]; decide
    exact accepts_bterm (ih1 st st1 ha1 hmid) (ih2 st1 st2 ha2 hf)
  | and_tail_nil =>
    intro st st1 ha hf
    rw [advance_nil_inv ha] at hf ⊢
    exact accepts_bterm_loop_stop (fun hc => hf (Or.inr hc))
  | and_tail_cons _ ht ih1 ih2 =>
    intro st st2 ha hf
    obtain ⟨hk, ha0⟩ := advance_cons_inv ha
    obtain ⟨st1, ha1, ha2⟩ := advance_append_inv _ _ _ _ ha0
    have hmid : ¬ cmpC st1.token := by
      rcases first_of_and_tail ht ha2 with h | h
      · rw [← h]; exact fun hc => hf (Or.inl hc)
      · rw [h]; decide
    exact accepts_bterm_loop_step hk (ih1 _ st1 ha1 hmid) (ih2 st1 st2 ha2 hf)
  | bfactor _ ih =>
    intro st st1 ha hf
    exact accepts_bfactor (ih st st1 ha hf)
  | comparison_single _ ih =>
    intro st st1 ha hf
    exact accepts_comparison_single (ih st st1 ha (fun hc => hf (Or.inl hc)))
      (fun hc => hf (Or.inr hc))
  | comparison_pair op _ hop _ ih1 ih2 =>
    intro st st2 ha hf
    obtain ⟨st1, ha1, hb0⟩ := advance_append_inv _ _ _ _ ha
    obtain ⟨hk1, hb1⟩ := advance_cons_inv hb0
    have hop1 : isComparison st1.token = true := by rw [hk1]; exact hop
    exact accepts_comparison_pair (ih1 st st1 ha1 (not_addC_of_comparison hop1)) hop1
      (ih2 _ st2 hb1 (fun hc => hf (Or.inl hc)))
  | string_exp =>
    intro st st1 ha
    obtain ⟨hk, ha0⟩ := advance_cons_inv ha
    exact ⟨hk, advance_nil_inv ha0⟩

/-- C14: recogniser correctness.  For every finite token stream (with `ENDFILE` delivered only
after its end), `parse` returns, and it returns with `Error` still clear if and only if the
kinds of the stream's tokens form a sentence of `stmt_sequence` in the grammar of the
specification: every ungrammatical stream sets the flag and no grammatical stream does. -/
theorem parse_recognises (toks : List Tok) (hclean : ∀ k ∈ toks, k.kind ≠ .ENDFILE) :
    ∃ t st1,
      (∀ fuel, 32 * toks.length + 12 ≤ fuel →
        parse fuel (PState.initial toks) = some (t, st1)) ∧
      (st1.Error = false ↔ Derives .stmt_sequence (toks.map Tok.kind)) := by
  obtain ⟨t, st1, hfuel, _⟩ := parse_terminates (PState.initial toks)
  have hinit : (PState.initial toks).getToken = PState.of toks false := rfl
  refine ⟨t, st1, hfuel, ?_, ?_⟩
  · intro he
    have h := hfuel _ (le_refl _)
    rw [parse, hinit] at h
    cases h1 : stmt_sequence (32 * (PState.initial toks).rest.length + 12)
        (PState.of toks false) with
    | none => rw [h1] at h; exact absurd h (by simp)
    | some x =>
      obtain ⟨q, s1⟩ := x
      rw [h1] at h
      simp only [Option.some.injEq, Prod.mk.injEq] at h
      obtain ⟨_, rfl⟩ := h
      by_cases hk : s1.token = .ENDFILE
      · have hst : (if s1.token ≠ .ENDFILE then syntaxError s1 else s1) = s1 := by simp [hk]
        rw [hst] at he
        exact (stmt_sequence_clear_reads_all _ toks false q s1 hclean h1 he hk).2
      · simp [hk, syntaxError] at he
  · intro hd
    have ha := advance_map_kind toks false []
    rw [List.append_nil] at ha
    obtain ⟨f0, hf0⟩ := derives_complete hd (PState.of toks false) (PState.of [] false) ha
      (by decide)
    obtain ⟨t1, ht1⟩ := hf0 (max f0 (32 * (PState.initial toks).rest.length + 12))
      (le_max_left _ _)
    have h := hfuel (max f0 (32 * (PState.initial toks).rest.length + 12)) (le_max_right _ _)
    rw [parse, hinit, ht1] at h
    simp only [Option.some.injEq, Prod.mk.injEq] at h
    rw [← h.2]
    rfl

theorem parse_recognises_witness :
    (∀ k ∈ ifExample, k.kind ≠ .ENDFILE) ∧
      (∃ t st1,
        (∀ fuel, 32 * ifExample.length + 12 ≤ fuel →
          parse fuel (PState.initial ifExample) = some (t, st1)) ∧
        (st1.Error = false ↔ Derives .stmt_sequence (ifExample.map Tok.kind))) ∧
      Derives .stmt_sequence (ifExample.map Tok.kind) ∧
      ¬ Derives .stmt_sequence ([tk .READ "read", tk .ID "x", tk .SEMI ";"].map Tok.kind) := by
  refine ⟨by decide, parse_recognises ifExample (by decide), ?_, ?_⟩
  · obtain ⟨t, st1, h, hiff⟩ := parse_recognises ifExample (by decide)
    have h1 := h 364 (by decide)
    have h2 : parse 364 (PState.initial ifExample) =
        some (.node (opNode .LT (leaf (tk .ID "a")) (leaf (tk .ID "b")))
            (.node .undef .null .null .null .StmtK (.stmt .WriteK) .unset .Void)
            (.node .undef .null .null .null .StmtK (.stmt .WriteK) .unset .Void)
            .null .StmtK (.stmt .IfK) .unset .Void,
          PState.of [] false) :=
      parse_stable_le _ _ 20 (by decide) 364 (by decide)
    rw [h2] at h1
    simp only [Option.some.injEq, Prod.mk.injEq] at h1
    exact hiff.1 (by rw [← h1.2]; rfl)
  · obtain ⟨t, st1, h, hiff⟩ :=
      parse_recognises [tk .READ "read", tk .ID "x", tk .SEMI ";"] (by decide)
    have h1 := h 108 (by decide)
    have h2 : parse 108 (PState.initial [tk .READ "read", tk .ID "x", tk .SEMI ";"]) =
        some (.node .null .null .null .null .StmtK (.stmt .ReadK) (.name "x".toList) .Void,
          PState.of [] true) :=
      parse_stable_le _ _ 20 (by decide) 108 (by decide)
    rw [h2] at h1
    simp only [Option.some.injEq, Prod.mk.injEq] at h1
    intro hd
    have := hiff.2 hd
    rw [← h1.2] at this
    exact absurd this (by decide)


/-! ## Parser: statement sequences are sibling chains -/

theorem if_stmt_single (fuel : Nat) (st : PState) (t : Tree) (st1 : PState)
    (h : if_stmt fuel st = some (t, st1)) : t.isSingle = true := by
  cases fuel with
  | zero => simp [if_stmt] at h
  | succ k =>
    simp only [if_stmt] at h
    repeat' split at h
    all_goals
      first
      | (simp at h; done)
      | (simp only [Option.some.injEq, Prod.mk.injEq, newStmtNode, Tree.setChild0,
          Tree.setChild1, Tree.setChild2, Tree.setAttr] at h
         obtain ⟨rfl, _⟩ := h
         rfl)

theorem while_stmt_single (fuel : Nat) (st : PState) (t : Tree) (st1 : PState)
    (h : while_stmt fuel st = some (t, st1)) : t.isSingle = true := by
  cases fuel with
  | zero => simp [while_stmt] at h
  | succ k =>
    simp only [while_stmt] at h
    repeat' split at h
    all_goals
      first
      | (simp at h; done)
      | (simp only [Option.some.injEq, Prod.mk.injEq, newStmtNode, Tree.setChild0,
          Tree.setChild1, Tree.setChild2, Tree.setAttr] at h
         obtain ⟨rfl, _⟩ := h
         rfl)

theorem repeat_stmt_single (fuel : Nat) (st : PState) (t : Tree) (st1 : PState)
    (h : repeat_stmt fuel st = some (t, st1)) : t.isSingle = true := by
  cases fuel with
  | zero => simp [repeat_stmt] at h
  | succ k =>
    simp only [repeat_stmt] at h
    repeat' split at h
    all_goals
      first
      | (simp at h; done)
      | (simp only [Option.some.injEq, Prod.mk.injEq, newStmtNode, Tree.setChild0,
          Tree.setChild1, Tree.setChild2, Tree.setAttr] at h
         obtain ⟨rfl, _⟩ := h
         rfl)

theorem assign_stmt_single (fuel : Nat) (st : PState) (t : Tree) (st1 : PState)
    (h : assign_stmt fuel st = some (t, st1)) : t.isSingle = true := by
  cases fuel with
  | zero => simp [assign_stmt] at h
  | succ k =>
    simp only [assign_stmt] at h
    repeat' split at h
    all_goals
      first
      | (simp at h; done)
      | (simp only [Option.some.injEq, Prod.mk.injEq, newStmtNode, Tree.setChild0,
          Tree.setChild1, Tree.setChild2, Tree.setAttr] at h
         obtain ⟨rfl, _⟩ := h
         rfl)

theorem write_stmt_single (fuel : Nat) (st : PState) (t : Tree) (st1 : PState)
    (h : write_stmt fuel st = some (t, st1)) : t.isSingle = true := by
  cases fuel with
  | zero => simp [write_stmt] at h
  | succ k =>
    simp only [write_stmt] at h
    repeat' split at h
    all_goals
      first
      | (simp at h; done)
      | (simp only [Option.some.injEq, Prod.mk.injEq, newStmtNode, Tree.setChild0,
          Tree.setChild1, Tree.setChild2, Tree.setAttr] at h
         obtain ⟨rfl, _⟩ := h
         rfl)

theorem read_stmt_single (st : PState) : (read_stmt st).1.isSingle = true := by
  simp only [read_stmt]
  split <;> rfl

/-- What `statement` returns is the empty tree or a node that stands alone. -/
theorem statement_single (fuel : Nat) (st : PState) (t : Tree) (st1 : PState)
    (h : statement fuel st = some (t, st1)) : t.isNull = true ∨ t.isSingle = true := by
  cases fuel with
  | zero => simp [statement] at h
  | succ k =>
    rw [statement] at h
    split at h
    · exact Or.inr (if_stmt_single _ _ _ _ h)
    · exact Or.inr (repeat_stmt_single _ _ _ _ h)
    · exact Or.inr (assign_stmt_single _ _ _ _ h)
    · simp only [Option.some.injEq] at h
      have := read_stmt_single st
      rw [h] at this
      exact Or.inr this
    · exact Or.inr (write_stmt_single _ _ _ _ h)
    · exact Or.inr (while_stmt_single _ _ _ _ h)
    · simp only [Option.some.injEq, Prod.mk.injEq] at h
      exact Or.inl (by rw [← h.1]; rfl)

theorem Tree.isSingle_iff (t : Tree) :
    t.isSingle = true ↔ ∃ c0 c1 c2 nk k a ty, t = .node c0 c1 c2 .null nk k a ty := by
  constructor
  · intro h
    cases t with
    | null => simp [Tree.isSingle] at h
    | undef => simp [Tree.isSingle] at h
    | node c0 c1 c2 sib nk k a ty =>
      cases sib with
      | null => exact ⟨c0, c1, c2, nk, k, a, ty, rfl⟩
      | undef => simp [Tree.isSingle] at h
      | node _ _ _ _ _ _ _ _ => simp [Tree.isSingle] at h
  · rintro ⟨c0, c1, c2, nk, k, a, ty, rfl⟩
    rfl

theorem chain_singleton (t : Tree) (h : t.isSingle = true) : chain [t] = t := by
  obtain ⟨c0, c1, c2, nk, k, a, ty, rfl⟩ := (Tree.isSingle_iff t).1 h
  rfl

theorem appendSibling_chain (q : Tree) (hq : q.isSingle = true) :
    ∀ (t : Tree) (ts : List Tree), (∀ x ∈ t :: ts, x.isSingle = true) →
      (chain (t :: ts)).appendSibling q = chain (t :: ts ++ [q]) := by
  intro t ts
  induction ts generalizing t with
  | nil =>
    intro h
    obtain ⟨c0, c1, c2, nk, k, a, ty, rfl⟩ := (Tree.isSingle_iff t).1 (h t (by simp))
    obtain ⟨d0, d1, d2, mk, l, b, uy, rfl⟩ := (Tree.isSingle_iff q).1 hq
    rfl
  | cons t1 ts ih =>
    intro h
    obtain ⟨c0, c1, c2, nk, k, a, ty, rfl⟩ := (Tree.isSingle_iff t).1 (h t (by simp))
    have h1 : ∀ x ∈ t1 :: ts, x.isSingle = true := fun x hx => h x (List.mem_cons_of_mem _ hx)
    have ih1 := ih t1 h1
    obtain ⟨d0, d1, d2, mk, l, b, uy, rfl⟩ := (Tree.isSingle_iff t1).1 (h1 _ (by simp))
    simp only [chain, Tree.setSibling, List.cons_append] at ih1 ⊢
    rw [Tree.appendSibling]
    · rw [ih1]
    · intro hnull
      exact absurd hnull (by simp)

theorem link_chain (q : Tree) (hq : q.isSingle = true) (ts : List Tree)
    (h : ∀ x ∈ ts, x.isSingle = true) : link (chain ts) q = chain (ts ++ [q]) := by
  obtain ⟨d0, d1, d2, mk, l, b, uy, hqe⟩ := (Tree.isSingle_iff q).1 hq
  cases ts with
  | nil =>
    subst hqe
    rfl
  | cons t ts =>
    have h1 := appendSibling_chain q hq t ts h
    obtain ⟨c0, c1, c2, nk, k, a, ty, rfl⟩ := (Tree.isSingle_iff t).1 (h t (by simp))
    subst hqe
    simp only [link, Tree.isNull, chain, Tree.setSibling] at h1 ⊢
    exact h1

theorem chainNodes_chain (ts : List Tree) (h : ∀ x ∈ ts, x.isSingle = true) :
    (chain ts).chainNodes = ts := by
  induction ts with
  | nil => rfl
  | cons t ts ih =>
    obtain ⟨c0, c1, c2, nk, k, a, ty, rfl⟩ := (Tree.isSingle_iff t).1 (h t (by simp))
    have ih1 := ih (fun x hx => h x (List.mem_cons_of_mem _ hx))
    simp only [chain, Tree.setSibling, Tree.chainNodes, ih1]

theorem WellFormedStatement.single {w : List Tok} {t : Tree} (h : WellFormedStatement w t) :
    t.isSingle = true := by
  obtain ⟨hnull, hw⟩ := h
  obtain ⟨f0, hf0⟩ := hw [] false (Or.inr (by decide))
  rcases statement_single _ _ _ _ (hf0 f0 (le_refl _)) with h | h
  · rw [h] at hnull
    exact absurd hnull (by simp)
  · exact h

theorem firstKind_tailStream (ws : List (List Tok)) (rest : List Tok)
    (hend : endsSequence (firstKind rest) = true) :
    firstKind (tailStream ws ++ rest) = .SEMI ∨
      endsSequence (firstKind (tailStream ws ++ rest)) = true := by
  cases ws with
  | nil => exact Or.inr hend
  | cons w ws => exact Or.inl rfl

theorem stmt_sequence_loop_chain (ss : List (List Tok × Tree)) (rest : List Tok) (err : Bool)
    (hwf : ∀ p ∈ ss, WellFormedStatement p.1 p.2)
    (hend : endsSequence (firstKind rest) = true) :
    ∃ fuel0, ∀ fuel, fuel0 ≤ fuel → ∀ acc : List Tree, (∀ x ∈ acc, x.isSingle = true) →
      stmt_sequence_loop fuel (chain acc)
          (PState.of (tailStream (ss.map Prod.fst) ++ rest) err) =
        some (chain (acc ++ ss.map Prod.snd), PState.of rest err) := by
  induction ss with
  | nil =>
    refine ⟨1, fun fuel hf acc _ => ?_⟩
    obtain ⟨k, rfl⟩ : ∃ k, fuel = k + 1 := ⟨fuel - 1, by omega⟩
    have hk : endsSequence (PState.of rest err).token = true := by
      rw [PState.of_token]; exact hend
    simp only [List.map_nil, tailStream, List.nil_append, List.append_nil]
    rw [stmt_sequence_loop, if_pos hk]
  | cons p ss ih =>
    obtain ⟨f2, hf2⟩ := ih (fun q hq => hwf q (List.mem_cons_of_mem _ hq))
    have hp := hwf p (List.mem_cons_self _ _)
    obtain ⟨f1, hf1⟩ := hp.2 (tailStream (ss.map Prod.fst) ++ rest) err
      (firstKind_tailStream _ rest hend)
    refine ⟨max f1 f2 + 1, fun fuel hf acc hacc => ?_⟩
    obtain ⟨k, rfl⟩ : ∃ k, fuel = k + 1 := ⟨fuel - 1, by omega⟩
    have hstream : tailStream ((p :: ss).map Prod.fst) ++ rest =
        tk .SEMI ";" :: (p.1 ++ (tailStream (ss.map Prod.fst) ++ rest)) := by
      simp [tailStream, List.append_assoc]
    rw [hstream, stmt_sequence_loop, PState.of_cons]
    have hne : ¬ endsSequence (tk .SEMI ";").kind = true := by decide
    rw [if_neg hne]
    have hm : match_ .SEMI ⟨(tk .SEMI ";").kind, (tk .SEMI ";").lexeme,
        p.1 ++ (tailStream (ss.map Prod.fst) ++ rest), err⟩ =
        PState.of (p.1 ++ (tailStream (ss.map Prod.fst) ++ rest)) err := by
      rw [match_of_eq (show (PState.mk (tk .SEMI ";").kind (tk .SEMI ";").lexeme
        (p.1 ++ (tailStream (ss.map Prod.fst) ++ rest)) err).token = .SEMI from rfl),
        PState.getToken_eq_of]
    rw [hm, hf1 k (by omega)]
    simp only []
    rw [link_chain p.2 hp.single acc hacc]
    have := hf2 k (by omega) (acc ++ [p.2]) (by
      intro x hx
      rcases List.mem_append.1 hx with h | h
      · exact hacc x h
      · simp only [List.mem_singleton] at h
        rw [h]; exact hp.single)
    rw [this]
    simp

/-- C16: for well-formed statements `s1 ; s2 ; ... ; sn` followed by a token that ends the
sequence, `stmt_sequence` returns the sibling chain of their nodes: the node of `s1`, whose
sibling chain holds the nodes of `s2`, ..., `sn` in source order, the last sibling being empty.
Walking the chain gives back exactly the `n` nodes as `statement` returned them, children
included, so no statement has become a child of another. -/
theorem stmt_sequence_sibling_chain (s1 : List Tok × Tree) (ss : List (List Tok × Tree))
    (rest : List Tok) (err : Bool) (hwf : ∀ p ∈ s1 :: ss, WellFormedStatement p.1 p.2)
    (hend : endsSequence (firstKind rest) = true) :
    (∃ fuel0, ∀ fuel, fuel0 ≤ fuel →
      stmt_sequence fuel (PState.of (s1.1 ++ (tailStream (ss.map Prod.fst) ++ rest)) err) =
        some (chain (s1.2 :: ss.map Prod.snd), PState.of rest err)) ∧
      (chain (s1.2 :: ss.map Prod.snd)).chainNodes = s1.2 :: ss.map Prod.snd ∧
      (chain (s1.2 :: ss.map Prod.snd)).chainNodes.length = ss.length + 1 := by
  have h1 := hwf s1 (List.mem_cons_self _ _)
  have hss : ∀ p ∈ ss, WellFormedStatement p.1 p.2 :=
    fun p hp => hwf p (List.mem_cons_of_mem _ hp)
  have hnodes : ∀ x ∈ s1.2 :: ss.map Prod.snd, x.isSingle = true := by
    intro x hx
    rcases List.mem_cons.1 hx with h | h
    · rw [h]; exact h1.single
    · obtain ⟨p, hp, rfl⟩ := List.mem_map.1 h
      exact (hss p hp).single
  have hchain := chainNodes_chain _ hnodes
  refine ⟨?_, hchain, by rw [hchain]; simp⟩
  obtain ⟨f1, hf1⟩ := h1.2 (tailStream (ss.map Prod.fst) ++ rest) err
    (firstKind_tailStream _ rest hend)
  obtain ⟨f2, hf2⟩ := stmt_sequence_loop_chain ss rest err hss hend
  refine ⟨max f1 f2 + 1, fun fuel hf => ?_⟩
  obtain ⟨k, rfl⟩ : ∃ k, fuel = k + 1 := ⟨fuel - 1, by omega⟩
  rw [stmt_sequence, hf1 k (by omega)]
  simp only []
  have := hf2 k (by omega) [s1.2] (by
    intro x hx
    simp only [List.mem_singleton] at hx
    rw [hx]; exact h1.single)
  rw [chain_singleton _ h1.single] at this
  rw [this]
  rfl

/-- The statement `read x` is well formed, with the Read node named `x`. -/
theorem wellFormed_read (name : List Char) :
    WellFormedStatement [tk .READ "read", ⟨.ID, name⟩]
      (.node .null .null .null .null .StmtK (.stmt .ReadK) (.name name) .Void) := by
  refine ⟨rfl, fun rest err _ => ⟨1, fun fuel hf => ?_⟩⟩
  obtain ⟨k, rfl⟩ : ∃ k, fuel = k + 1 := ⟨fuel - 1, by omega⟩
  simp [statement, read_stmt, tk, PState.of_cons, match_, PState.getToken_eq_of, newStmtNode,
    Tree.setAttr]

theorem stmt_sequence_sibling_chain_witness :
    ((∀ p ∈ [([tk .READ "read", (⟨.ID, "x".toList⟩ : Tok)],
          Tree.node .null .null .null .null .StmtK (.stmt .ReadK) (.name "x".toList) .Void),
        ([tk .READ "read", ⟨.ID, "y".toList⟩],
          Tree.node .null .null .null .null .StmtK (.stmt .ReadK) (.name "y".toList) .Void),
        ([tk .READ "read", ⟨.ID, "z".toList⟩],
          Tree.node .null .null .null .null .StmtK (.stmt .ReadK) (.name "z".toList) .Void)],
        WellFormedStatement p.1 p.2) ∧
      endsSequence (firstKind []) = true) ∧
    (∃ fuel0, ∀ fuel, fuel0 ≤ fuel →
      stmt_sequence fuel
          (PState.of [tk .READ "read", ⟨.ID, "x".toList⟩, tk .SEMI ";", tk .READ "read",
            ⟨.ID, "y".toList⟩, tk .SEMI ";", tk .READ "read", ⟨.ID, "z".toList⟩] false) =
        some (.node .null .null .null
            (.node .null .null .null
              (.node .null .null .null .null .StmtK (.stmt .ReadK) (.name "z".toList) .Void)
              .StmtK (.stmt .ReadK) (.name "y".toList) .Void)
            .StmtK (.stmt .ReadK) (.name "x".toList) .Void,
          PState.of [] false)) := by
  have hwf : ∀ p ∈ [([tk .READ "read", (⟨.ID, "x".toList⟩ : Tok)],
        Tree.node .null .null .null .null .StmtK (.stmt .ReadK) (.name "x".toList) .Void),
      ([tk .READ "read", ⟨.ID, "y".toList⟩],
        Tree.node .null .null .null .null .StmtK (.stmt .ReadK) (.name "y".toList) .Void),
      ([tk .READ "read", ⟨.ID, "z".toList⟩],
        Tree.node .null .null .null .null .StmtK (.stmt .ReadK) (.name "z".toList) .Void)],
      WellFormedStatement p.1 p.2 := by
    intro p hp
    simp only [List.mem_cons, List.mem_singleton, List.not_mem_nil, or_false] at hp
    rcases hp with rfl | rfl | rfl <;> exact wellFormed_read _
  exact ⟨⟨hwf, by decide⟩,
    (stmt_sequence_sibling_chain _ _ [] false hwf (by decide)).1⟩

/-! ## Scanner: comments -/

theorem getNextChar_after (before : List Char) (s : Scanner) :
    getNextChar (s.after before) = ((getNextChar s).1, (getNextChar s).2.after before) := by
  cases s with
  | mk consumed pending e =>
    cases pending <;> rfl

/-- What `getNextChar` leaves behind can be backed up without touching an older past. -/
theorem getNextChar_backable (s : Scanner) :
    (getNextChar s).2.consumed ≠ [] ∨ (getNextChar s).2.EOF_flag = true := by
  cases s with
  | mk consumed pending e =>
    cases pending with
    | nil => exact Or.inr rfl
    | cons c r => exact Or.inl (by simp [getNextChar])

theorem ungetNextChar_after (before : List Char) (s : Scanner)
    (h : s.consumed ≠ [] ∨ s.EOF_flag = true) :
    ungetNextChar (s.after before) = (ungetNextChar s).after before := by
  cases s with
  | mk consumed pending e =>
    cases e with
    | true => rfl
    | false =>
      cases consumed with
      | nil => simp at h
      | cons c b => rfl

theorem startSymbol_after (before : List Char) (c : Option Char) (s : Scanner) :
    startSymbol c (s.after before) =
      ⟨(startSymbol c s).state, (startSymbol c s).save, (startSymbol c s).currentToken,
        (startSymbol c s).scanner.after before⟩ := by
  simp only [startSymbol]
  split <;> first
    | rfl
    | (simp only [getNextChar_after]; split_ifs <;> rfl)

theorem step_after (before : List Char) (state : StateType) (cur : TokenType)
    (c : Option Char) (s : Scanner) (h : s.consumed ≠ [] ∨ s.EOF_flag = true) :
    step state cur c (s.after before) =
      ⟨(step state cur c s).state, (step state cur c s).save, (step state cur c s).currentToken,
        (step state cur c s).scanner.after before⟩ := by
  cases state <;> simp only [step] <;>
    first
      | rfl
      | (split_ifs <;> first | rfl | (rw [ungetNextChar_after before s h]) |
          exact startSymbol_after before c s)

/-- The token, its lexeme and the position `getToken` stops at do not depend on what was read
before the call. -/
theorem getTokenLoop_after (M : Nat) (before : List Char) :
    ∀ (fuel : Nat) (state : StateType) (cur : TokenType) (ts : List Char) (s : Scanner),
      getTokenLoop M fuel state cur ts (s.after before) =
        (getTokenLoop M fuel state cur ts s).map (Scanned.after before) := by
  intro fuel
  induction fuel with
  | zero => intro state cur ts s; rfl
  | succ fuel ih =>
    intro state cur ts s
    rw [getTokenLoop, getTokenLoop]
    simp only [getNextChar_after, step_after before state cur _ _ (getNextChar_backable s)]
    split_ifs <;> first | rfl | rw [ih]

theorem getToken_after (M : Nat) (before : List Char) (s : Scanner) :
    getToken M (s.after before) = (getToken M s).map (Scanned.after before) := by
  rw [getToken, getToken]
  exact getTokenLoop_after M before _ _ _ _ s

/-- Inside a comment every character other than the closing brace is read and dropped. -/
theorem getTokenLoop_INCOMMENT_run (M : Nat) (b : List Char) (hb : '}' ∉ b) :
    ∀ (n : Nat) (cur : TokenType) (ts cons r : List Char) (e : Bool),
      getTokenLoop M (b.length + n) .INCOMMENT cur ts ⟨cons, b ++ r, e⟩ =
        getTokenLoop M n .INCOMMENT cur ts ⟨b.reverse ++ cons, r, e⟩ := by
  induction b with
  | nil => intro n cur ts cons r e; simp
  | cons c b ih =>
    intro n cur ts cons r e
    have hc : c ≠ '}' := fun h => hb (h ▸ List.mem_cons_self _ _)
    have hb1 : '}' ∉ b := fun h => hb (List.mem_cons_of_mem _ h)
    have hlen : (c :: b).length + n = (b.length + n) + 1 := by simp; omega
    rw [hlen, getTokenLoop]
    simp only [getNextChar, List.cons_append, step, reduceCtorEq, if_false, Option.some.injEq, hc,
      false_and]
    rw [ih hb1]
    simp

/-- A closed comment in front of `r` is skipped: the scan goes on at `r` from `START` with an
empty `tokenString`, as a call of `getToken` at `r` does. -/
theorem getToken_comment_closed (M : Nat) (b cons r : List Char) (e : Bool) (hb : '}' ∉ b) :
    getToken M ⟨cons, commentText b ++ r, e⟩ =
      getToken M ⟨'}' :: (b.reverse ++ '{' :: cons), r, e⟩ := by
  have htext : commentText b ++ r = '{' :: (b ++ '}' :: r) := by simp [commentText]
  have hlen : ('{' :: (b ++ '}' :: r)).length + 1 = (b.length + (r.length + 1 + 1)) + 1 := by
    simp; omega
  rw [htext, getToken, hlen, getTokenLoop]
  simp only [getNextChar, step, isdigit, isalpha]
  simp only [show Char.isDigit '{' = false from by decide,
    show Char.isAlpha '{' = false from by decide]
  simp only [Bool.false_eq_true, if_false, Option.some.injEq, Char.reduceEq, or_self, if_true,
    false_and, reduceCtorEq]
  rw [getTokenLoop_INCOMMENT_run M b hb, getTokenLoop]
  simp only [getNextChar, step, reduceCtorEq, if_false, if_true, false_and]
  rfl

/-- A comment that is still open at the end of the file gives `ERROR`. -/
theorem getToken_comment_open (M : Nat) (b cons : List Char) (e : Bool) (hb : '}' ∉ b) :
    getToken M ⟨cons, '{' :: b, e⟩ =
      some ⟨.ERROR, [], ⟨b.reverse ++ '{' :: cons, [], true⟩⟩ := by
  have hlen : ('{' :: b).length + 1 = (b.length + 1) + 1 := by simp
  rw [getToken, hlen, getTokenLoop]
  simp only [getNextChar, step, isdigit, isalpha]
  simp only [show Char.isDigit '{' = false from by decide,
    show Char.isAlpha '{' = false from by decide]
  simp only [Bool.false_eq_true, if_false, Option.some.injEq, Char.reduceEq, or_self, if_true,
    false_and, reduceCtorEq]
  have := getTokenLoop_INCOMMENT_run M b hb 1 .ERROR [] ('{' :: cons) [] e
  rw [List.append_nil] at this
  rw [this, getTokenLoop]
  simp [getNextChar, step]

/-- C21: a comment contributes nothing to the token.  For every comment body `b` without a
closing brace and every remaining input `r`, `getToken` on the comment followed by `r` returns,
and it returns the token kind and the lexeme that `getToken` on `r` returns, at the same place in
`r`; the scanners the two calls leave behind differ only in the comment having been read in
addition.  On an opening brace and `b` followed by the end of the file `getToken` returns
`ERROR`, with an empty lexeme and everything read. -/
theorem getToken_skips_comment (M : Nat) (b r : List Char) (hb : '}' ∉ b) :
    (∃ y, getToken M (Scanner.start r) = some y ∧
      getToken M (Scanner.start (commentText b ++ r)) =
        some ⟨y.token, y.tokenString,
          ⟨y.scanner.consumed ++ ('}' :: b.reverse ++ ['{']), y.scanner.pending,
            y.scanner.EOF_flag⟩⟩) ∧
      getToken M (Scanner.start ('{' :: b)) = some ⟨.ERROR, [], ⟨b.reverse ++ ['{'], [], true⟩⟩ := by
  refine ⟨?_, getToken_comment_open M b [] false hb⟩
  obtain ⟨y, hy, _⟩ := getToken_returns M (Scanner.start r)
  refine ⟨y, hy, ?_⟩
  have h := getToken_after M ('}' :: b.reverse ++ ['{']) (Scanner.start r)
  rw [hy] at h
  rw [Scanner.start, getToken_comment_closed M b [] r false hb]
  simpa [Scanner.after, Scanner.start, Scanned.after] using h

theorem getToken_skips_comment_witness :
    '}' ∉ " sum of 1..n ".toList ∧
      ((∃ y, getToken 40 (Scanner.start "x := 1".toList) = some y ∧
        getToken 40 (Scanner.start (commentText " sum of 1..n ".toList ++ "x := 1".toList)) =
          some ⟨y.token, y.tokenString,
            ⟨y.scanner.consumed ++ ('}' :: " sum of 1..n ".toList.reverse ++ ['{']),
              y.scanner.pending, y.scanner.EOF_flag⟩⟩) ∧
        getToken 40 (Scanner.start ('{' :: " sum of 1..n ".toList)) =
          some ⟨.ERROR, [], ⟨" sum of 1..n ".toList.reverse ++ ['{'], [], true⟩⟩) :=
  ⟨by decide, getToken_skips_comment 40 " sum of 1..n ".toList "x := 1".toList (by decide)⟩

end Tiny
